import Mathlib

/-! KnowSense: essay segmentation and feedback extraction

A shallow embedding of `parseEssayText` and `parseFeedbackText` of
`src/app/page.js`, and theorems about them.

A JavaScript string is modelled as the list of its UTF-16 code units, so that
`length`, `trim`, `split` and the regular expressions (none of which carries
the `u` flag) see exactly what the engine sees.
-/

namespace KnowSense

/-- A JavaScript string: the sequence of its UTF-16 code units. -/
abbrev JSString := List Nat

/-- UTF-16 encoding of one Unicode scalar value. -/
def utf16 (c : Char) : List Nat :=
  if c.toNat < 65536 then [c.toNat]
  else [55296 + (c.toNat - 65536) / 1024, 56320 + (c.toNat - 65536) % 1024]

/-- The JavaScript string denoted by a string literal. -/
def js (s : String) : JSString := s.toList.flatMap utf16

/-- The argument of the two parsers: they are called with a string, `null` or `undefined`. -/
inductive JSValue where
  | null
  | undefined
  | str (s : JSString)
  deriving DecidableEq, Repr

/-! ## Character classes -/

/-- ECMAScript `WhiteSpace` or `LineTerminator`: the regex class `\s`, and what `trim` strips. -/
def isWhiteSpace (c : Nat) : Bool :=
  c == 9 || c == 10 || c == 11 || c == 12 || c == 13 || c == 32 || c == 160 ||
  c == 5760 || (8192 ≤ c && c ≤ 8202) || c == 8232 || c == 8233 || c == 8239 ||
  c == 8287 || c == 12288 || c == 65279

/-- The regex class `\d`. -/
def isDigit (c : Nat) : Bool := 48 ≤ c && c ≤ 57

/-- The regex class `[A-Z]`. -/
def isUpperAZ (c : Nat) : Bool := 65 ≤ c && c ≤ 90

/-- The regex class `\w` (without the `u` flag): `[A-Za-z0-9_]`. -/
def isWordChar (c : Nat) : Bool :=
  (65 ≤ c && c ≤ 90) || (97 ≤ c && c ≤ 122) || (48 ≤ c && c ≤ 57) || c == 95

/-- The line feed `\n`. -/
def isNewline (c : Nat) : Bool := c == 10

/-- The operation `Canonicalize` of a pattern character under the `i` flag without `u`: on the ASCII
pattern characters used here it is ASCII upper-casing, and no code unit above 127
canonicalizes to an ASCII one. -/
def canon (c : Nat) : Nat := if 97 ≤ c && c ≤ 122 then c - 32 else c

/-! ## String primitives -/

/-- The method `String.prototype.trimStart`. -/
def trimStart : JSString → JSString
  | [] => []
  | c :: cs => if isWhiteSpace c then trimStart cs else c :: cs

/-- The method `String.prototype.trimEnd`. -/
def trimEnd : JSString → JSString
  | [] => []
  | c :: cs =>
    match trimEnd cs with
    | [] => if isWhiteSpace c then [] else [c]
    | r => c :: r

/-- The method `String.prototype.trim`. -/
def trim (s : JSString) : JSString := trimEnd (trimStart s)

/-- The call `s.split(sep)` for a one-code-unit string separator `sep`. -/
def splitOn (sep : Nat) : JSString → List JSString
  | [] => [[]]
  | c :: cs =>
    if c = sep then [] :: splitOn sep cs
    else
      match splitOn sep cs with
      | [] => [[c]]
      | h :: t => (c :: h) :: t

/-- The method `Array.prototype.join(sep)` on an array of strings. -/
def join (sep : JSString) : List JSString → JSString
  | [] => []
  | [x] => x
  | x :: y :: r => x ++ sep ++ join sep (y :: r)

/-- The method `String.prototype.includes(c)` for a one-code-unit string `c`. -/
def includes (s : JSString) (c : Nat) : Bool := s.any (fun x => x == c)

/-- The call `.filter(Boolean)` on an array of strings: the empty string is the only falsy one. -/
def filterNonEmpty (l : List JSString) : List JSString := l.filter (fun s => !s.isEmpty)

/-- The method `Array.prototype.map` with the `(element, index)` callback. -/
def mapIdxFrom {α β : Type} (f : α → Nat → β) : Nat → List α → List β
  | _, [] => []
  | i, x :: xs => f x i :: mapIdxFrom f (i + 1) xs

/-- The call `.filter(Boolean)` on an array whose elements are objects or `null`. -/
def filterNotNull {α : Type} : List (Option α) → List α
  | [] => []
  | none :: r => filterNotNull r
  | some x :: r => x :: filterNotNull r

/-! ## A backtracking matcher for the regular expressions of the source

A pattern is a function of the code unit before the cursor (`none` at the
start of the subject), the rest of the subject and a continuation; it returns
the rest of the subject after the first successful overall match, trying the
choices in the priority order of ECMAScript (greedy quantifiers, alternatives
left to right). -/

/-- A continuation: given the code unit before the cursor and the remaining input. -/
abbrev Cont := Option Nat → JSString → Option JSString

/-- A pattern. -/
abbrev Re := Option Nat → JSString → Cont → Option JSString

/-- The final continuation: the match ends here. -/
def done : Cont := fun _ s => some s

namespace Re

/-- One code unit of a class. -/
def cls (p : Nat → Bool) : Re := fun _ s k =>
  match s with
  | [] => none
  | c :: cs => if p c then k (some c) cs else none

/-- One pattern character; under the `i` flag compared after `Canonicalize`. -/
def chr (ignoreCase : Bool) (x : Nat) : Re :=
  cls (fun c => if ignoreCase then canon c == canon x else c == x)

/-- The empty pattern. -/
def eps : Re := fun prev s k => k prev s

/-- The pattern that never matches (an empty alternation). -/
def fail : Re := fun _ _ _ => none

/-- Concatenation. -/
def seq (a b : Re) : Re := fun prev s k => a prev s (fun p r => b p r k)

/-- Alternation `a|b`. -/
def alt (a b : Re) : Re := fun prev s k =>
  match a prev s k with
  | some r => some r
  | none => b prev s k

/-- Optional greedy `a?`. -/
def opt (a : Re) : Re := alt a eps

/-- Greedy `[class]*`. -/
def star (p : Nat → Bool) : Option Nat → JSString → Cont → Option JSString
  | prev, [], k => k prev []
  | prev, c :: cs, k =>
    if p c then
      match star p (some c) cs k with
      | some r => some r
      | none => k prev (c :: cs)
    else k prev (c :: cs)

/-- Greedy `[class]+`. -/
def plus (p : Nat → Bool) : Re := seq (cls p) (star p)

/-- Greedy `[class]{2,}`. -/
def atLeastTwo (p : Nat → Bool) : Re := seq (cls p) (seq (cls p) (star p))

/-- A sequence of pattern characters. -/
def lit (ignoreCase : Bool) : JSString → Re
  | [] => eps
  | c :: cs => seq (chr ignoreCase c) (lit ignoreCase cs)

/-- An alternation `a1|a2|...|an`. -/
def alts : List Re → Re
  | [] => fail
  | [a] => a
  | a :: r => alt a (alts r)

/-- Whether an optional code unit is a word character (`false` outside the subject). -/
def isWordAt (c : Option Nat) : Bool :=
  match c with
  | none => false
  | some x => isWordChar x

/-- The assertion `\b`. -/
def wordB : Re := fun prev s k =>
  if isWordAt prev != isWordAt s.head? then k prev s else none

/-- The assertion `^` (no `m` flag). -/
def bol : Re := fun prev s k => if prev.isNone then k prev s else none

/-- The assertion `$` (no `m` flag). -/
def eol : Re := fun prev s k => if s.isEmpty then k prev s else none

/-- The lookbehind `(?<=[class])`. -/
def lookbehind (p : Nat → Bool) : Re := fun prev s k =>
  match prev with
  | none => none
  | some c => if p c then k prev s else none

/-- The lookahead `(?=[class])`. -/
def lookahead (p : Nat → Bool) : Re := fun prev s k =>
  match s with
  | [] => none
  | c :: _ => if p c then k prev s else none

/-- Literal words separated by `\s+`, under the `i` flag: `good\s+job`. -/
def phrase : List String → Re
  | [] => eps
  | [w] => lit true (js w)
  | w :: r => seq (lit true (js w)) (seq (plus isWhiteSpace) (phrase r))

/-- The match of `r` that starts exactly at the cursor, if any: what is left after it. -/
def matchAt (r : Re) (prev : Option Nat) (s : JSString) : Option JSString := r prev s done

/-- The leftmost match of `r` at or after the cursor. -/
def exec (r : Re) : Option Nat → JSString → Option JSString
  | prev, [] => matchAt r prev []
  | prev, c :: cs =>
    match matchAt r prev (c :: cs) with
    | some rest => some rest
    | none => exec r (some c) cs

/-- The method `RegExp.prototype.test` (no `g` or `y` flag). -/
def test (r : Re) (s : JSString) : Bool := (exec r none s).isSome

end Re

/-! ## `String.prototype.split` with a regular expression -/

/-- The length of the match of `r` at the cursor; `before` is the subject before the
cursor, reversed. -/
def matchLen (r : Re) (before after : JSString) : Option Nat :=
  (Re.matchAt r before.head? after).map (fun rest => after.length - rest.length)

/-- The loop of `split` (ECMAScript `RegExp.prototype[@@split]`): `cur` is the piece
being collected (reversed), `skip` counts the code units of a match still to be passed. -/
def splitLoop (r : Re) : JSString → JSString → Nat → JSString → List JSString
  | [], _, _, cur => [cur.reverse]
  | c :: rest, before, skip + 1, cur => splitLoop r rest (c :: before) skip cur
  | c :: rest, before, 0, cur =>
    match matchLen r before (c :: rest) with
    | some (k + 1) => cur.reverse :: splitLoop r rest (c :: before) k []
    | some 0 =>
      if cur.isEmpty then splitLoop r rest (c :: before) 0 [c]
      else cur.reverse :: splitLoop r rest (c :: before) 0 [c]
    | none => splitLoop r rest (c :: before) 0 (c :: cur)

/-- The call `s.split(r)` for a regular expression `r` without capture groups in use and the
default limit. -/
def regexSplit (r : Re) (s : JSString) : List JSString :=
  match s with
  | [] => if (Re.matchAt r none []).isSome then [] else [[]]
  | _ => splitLoop r s [] 0 []

/-- The call `s.replace(/\s+/g, ' ')`: every maximal run of whitespace becomes one space;
`inRun` says that the code unit before the cursor was whitespace. -/
def collapseWhiteSpace : Bool → JSString → JSString
  | _, [] => []
  | inRun, c :: cs =>
    if isWhiteSpace c then
      if inRun then collapseWhiteSpace true cs else 32 :: collapseWhiteSpace true cs
    else c :: collapseWhiteSpace false cs

/-! ## The regular expressions of `page.js` -/

/-- The pattern `/\n+/`. -/
def reNewlines : Re := Re.plus isNewline

/-- The pattern `/\n{2,}/`. -/
def reBlankLines : Re := Re.atLeastTwo isNewline

/-- The class `[.!?]`. -/
def isSentenceEnd (c : Nat) : Bool := c == 46 || c == 33 || c == 63

/-- The class `[A-Z"“]`. -/
def isSentenceStart (c : Nat) : Bool := isUpperAZ c || c == 34 || c == 8220

/-- The pattern `/(?<=[.!?])\s+(?=[A-Z"“])/`. -/
def reSentenceBreak : Re :=
  Re.seq (Re.lookbehind isSentenceEnd) (Re.seq (Re.plus isWhiteSpace) (Re.lookahead isSentenceStart))

/-- The pattern `/^CONCEPTS\s*&/i` (and `/^Concepts\s*&/i`, the same pattern under the `i` flag). -/
def reConcepts : Re :=
  Re.seq Re.bol (Re.seq (Re.lit true (js "CONCEPTS")) (Re.seq (Re.star isWhiteSpace) (Re.chr true 38)))

/-- The pattern `/^OVERALL SCORE\b/i`. -/
def reOverallScore : Re :=
  Re.seq Re.bol (Re.seq (Re.lit true (js "OVERALL SCORE")) Re.wordB)

/-- The pattern `/\(\d+\s*pts?\)/i`. -/
def rePoints : Re :=
  Re.seq (Re.chr true 40) (Re.seq (Re.plus isDigit) (Re.seq (Re.star isWhiteSpace)
    (Re.seq (Re.lit true (js "pt")) (Re.seq (Re.opt (Re.chr true 115)) (Re.chr true 41)))))

/-- The class `[A-Z\s&]`. -/
def isHeadingChar (c : Nat) : Bool := isUpperAZ c || isWhiteSpace c || c == 38

/-- The pattern `/^[A-Z\s&]+$/`. -/
def reAllCaps : Re := Re.seq Re.bol (Re.seq (Re.plus isHeadingChar) Re.eol)

/-- The pattern `/^[-*]\s*/`. -/
def reListMarker : Re :=
  Re.seq Re.bol (Re.seq (Re.cls (fun c => c == 45 || c == 42)) (Re.star isWhiteSpace))

/-- The call `line.replace(/^[-*]\s*/, '')`: the pattern is anchored, so it can only match at
the start, and the match is removed. -/
def stripListMarker (line : JSString) : JSString :=
  match Re.matchAt reListMarker none line with
  | some rest => rest
  | none => line

/-- The pattern `\b(a1|...|an)\b` under the `i` flag, each alternative being words separated by `\s+`. -/
def reWords (alternatives : List (List String)) : Re :=
  Re.seq Re.wordB (Re.seq (Re.alts (alternatives.map Re.phrase)) Re.wordB)

/-- The alternation `(good|nice|well|great|excellent|fine|okay|ok)`. -/
def reGenericWord : Re :=
  Re.alts ([["good"], ["nice"], ["well"], ["great"], ["excellent"], ["fine"], ["okay"],
    ["ok"]].map Re.phrase)

/-- The tail `\s*[.!]?\s*$` of the second and third generic patterns. -/
def reGenericTail : Re :=
  Re.seq (Re.star isWhiteSpace) (Re.seq (Re.opt (Re.cls (fun c => c == 46 || c == 33)))
    (Re.seq (Re.star isWhiteSpace) Re.eol))

/-- The array `genericPhrases`. -/
def genericPhrases : List Re :=
  [ reWords [["good", "job"], ["nice", "job"], ["well", "done"], ["excellent", "work"],
      ["great", "work"]],
    Re.seq Re.wordB (Re.seq reGenericWord reGenericTail),
    Re.seq Re.bol (Re.seq reGenericWord reGenericTail) ]

/-- The array `negativePhrases`. -/
def negativePhrases : List Re :=
  [ reWords [["not"], ["bad"], ["poor"], ["lacks"], ["missing"], ["fails"], ["didn\x27t"],
      ["doesn\x27t"], ["inadequate"], ["insufficient"]],
    reWords [["no", "clear"], ["no", "evidence"], ["no", "examples"], ["no", "support"]],
    reWords [["weak"], ["weakness"], ["problem"], ["issue"], ["error"], ["mistake"],
      ["incorrect"], ["wrong"]],
    reWords [["needs", "improvement"], ["could", "be", "better"], ["should", "be"],
      ["must", "be"]],
    reWords [["but"], ["however"], ["although"], ["though"], ["even", "though"], ["despite"],
      ["nevertheless"], ["yet"], ["whereas"]] ]

/-- The array `positivePhrases`. -/
def positivePhrases : List Re :=
  [ reWords [["good"], ["great"], ["excellent"], ["outstanding"], ["well"], ["nice"],
      ["strong"], ["clear"], ["effective"], ["solid"]],
    reWords [["demonstrates"], ["shows"], ["illustrates"], ["exemplifies"], ["highlights"]],
    reWords [["good", "use", "of"], ["well-developed"], ["well-written"], ["well-structured"],
      ["well-organized"]],
    reWords [["impressive"], ["thorough"], ["comprehensive"], ["detailed"], ["insightful"],
      ["thoughtful"]],
    reWords [["successful"], ["successfully"], ["achieved"], ["accomplished"], ["strongly"],
      ["clearly"]],
    reWords [["appropriate"], ["relevant"], ["accurate"], ["precise"], ["convincing"],
      ["persuasive"]],
    reWords [["enhances"], ["strengthens"], ["improves"], ["supports"], ["reinforces"],
      ["validates"]] ]

/-- The array `colorOrder`. -/
def colorOrder : List JSString := [js "green", js "red", js "blue", js "orange"]

/-- The element `colorOrder[index % colorOrder.length]`. -/
def colorAt (index : Nat) : JSString := colorOrder.getD (index % colorOrder.length) []

/-! ## `parseEssayText` -/

/-- An element of `segments`: `{ id, text, color }`. -/
structure EssaySegment where
  id : Nat
  text : JSString
  color : JSString
  deriving DecidableEq, Repr

/-- The object `{ segments }` returned by `parseEssayText`. -/
structure EssayResult where
  segments : List EssaySegment
  deriving DecidableEq, Repr

/-- The constant `normalized` of `parseEssayText`:
`text.split(/\n+/).map(l => l.trim()).filter(Boolean).join(' ').replace(/\s+/g, ' ').trim()`. -/
def normalizeEssay (text : JSString) : JSString :=
  trim (collapseWhiteSpace false
    (join (js " ") (filterNonEmpty ((regexSplit reNewlines text).map trim))))

/-- The constant `sentences` of `parseEssayText`, from `normalized`. -/
def essaySentences (normalized : JSString) : List JSString :=
  ((regexSplit reSentenceBreak normalized).map trim).filter (fun s => decide (s.length > 0))

/-- The function `parseEssayText` of `page.js`. -/
def parseEssayText (text : JSValue) : EssayResult :=
  match text with
  | JSValue.null => ⟨[]⟩
  | JSValue.undefined => ⟨[]⟩
  | JSValue.str t =>
    if t.isEmpty then ⟨[]⟩
    else
      let normalized := normalizeEssay t
      if normalized.isEmpty then ⟨[]⟩
      else
        ⟨mapIdxFrom (fun s index => EssaySegment.mk (index + 1) s (colorAt index)) 0
          (essaySentences normalized)⟩

/-! ## `parseFeedbackText` -/

/-- An element of the array returned by `parseFeedbackText`. -/
structure FeedbackBlock where
  id : Nat
  title : JSString
  text : JSString
  color : JSString
  hasBody : Bool
  isLowInfo : Bool
  isNegative : Bool
  isPositive : Bool
  deriving DecidableEq, Repr

/-- The test of the start loop: `/^CONCEPTS\s*&/i.test(l) || /^Concepts\s*&/i.test(l)` on the
trimmed line. -/
def isConceptsLine (line : JSString) : Bool :=
  Re.test reConcepts (trim line) || Re.test reConcepts (trim line)

/-- The variable `startIndex` after the loop: the index of the first line that passes the
test, and `0` when there is none. -/
def startIndex (lines : List JSString) : Nat :=
  match lines.findIdx? isConceptsLine with
  | some i => i
  | none => 0

/-- The constant `relevantText`. -/
def relevantText (text : JSString) : JSString :=
  join [10] ((splitOn 10 text).drop (startIndex (splitOn 10 text)))

/-- The constant `blocks`. -/
def feedbackBlocks (text : JSString) : List JSString :=
  filterNonEmpty ((regexSplit reBlankLines (relevantText text)).map trim)

/-- The test `/\(\d+\s*pts?\)/i.test(s)`. -/
def hasPointsFormat (s : JSString) : Bool := Re.test rePoints s

/-- The constant `firstLine` of the filter callback: `block.split('\n')[0]?.trim() || ''`. -/
def blockFirstLine (block : JSString) : JSString :=
  match (splitOn 10 block).head? with
  | some l => trim l
  | none => []

/-- The callback of `blocks.filter` that yields `effectiveBlocks`. -/
def keepBlock (hasAnyPointsFormat : Bool) (block : JSString) : Bool :=
  if Re.test reOverallScore (blockFirstLine block) then false
  else if hasAnyPointsFormat then
    if !hasPointsFormat block then false else true
  else true

/-- The constant `effectiveBlocks`. -/
def effectiveBlocks (text : JSString) : List JSString :=
  (feedbackBlocks text).filter (keepBlock ((feedbackBlocks text).any hasPointsFormat))

/-- The constant `isTitleLine`, from `firstLine`. -/
def isTitleLine (firstLine : JSString) : Bool :=
  includes firstLine 58 ||
  (Re.test reAllCaps firstLine && decide (firstLine.length < 100)) ||
  hasPointsFormat firstLine

/-- The markdown cleaning of `mainText`:
`.split('\n').map(strip).filter(line => line.length > 0).join('\n').trim()`. -/
def cleanBody (mainText : JSString) : JSString :=
  trim (join [10] (((splitOn 10 mainText).map (fun line => stripListMarker (trim line))).filter
    (fun line => decide (line.length > 0))))

/-- The constant `stillLooksLikeTitle`. -/
def stillLooksLikeTitle (mainText : JSString) : Bool :=
  (includes mainText 58 && decide (mainText.length < 150)) ||
  (Re.test reAllCaps mainText && decide (mainText.length < 100)) ||
  hasPointsFormat mainText

/-- The constant `isGeneric`. -/
def isGeneric (mainText : JSString) : Bool := genericPhrases.any (fun r => Re.test r mainText)

/-- The constant `isNegative`. -/
def isNegative (mainText : JSString) : Bool := negativePhrases.any (fun r => Re.test r mainText)

/-- The constant `isPositive`. -/
def isPositive (mainText : JSString) : Bool := positivePhrases.any (fun r => Re.test r mainText)

/-- The part of the `map` callback after the title has been split off: from `title` and
`contentLines` to the object, or `null`. -/
def blockOfContent (title : JSString) (contentLines : List JSString) (index : Nat) :
    Option FeedbackBlock :=
  let bodyText := join [10] contentLines
  let hasBody := decide (contentLines.length > 0) && decide ((trim bodyText).length > 0)
  let mainText := cleanBody (trim bodyText)
  if mainText.isEmpty then none
  else if stillLooksLikeTitle mainText then none
  else
    some
      { id := index + 1
        title := title
        text := mainText
        color := colorAt index
        hasBody := hasBody
        isLowInfo := !hasBody || decide (mainText.length < 40) || isGeneric mainText
        isNegative := isNegative mainText
        isPositive := isPositive mainText }

/-- The constant `lines` of the `map` callback. -/
def blockLines (block : JSString) : List JSString :=
  filterNonEmpty ((splitOn 10 block).map trim)

/-- The callback of `effectiveBlocks.map`: the object built from a block, or `null`. -/
def processBlock (block : JSString) (index : Nat) : Option FeedbackBlock :=
  let lines := blockLines block
  let firstLine := lines.headD []
  if isTitleLine firstLine && decide (lines.length > 1) then
    blockOfContent firstLine (lines.drop 1) index
  else if isTitleLine firstLine && decide (lines.length = 1) then none
  else blockOfContent [] lines index

/-- The function `parseFeedbackText` of `page.js`. -/
def parseFeedbackText (text : JSValue) : List FeedbackBlock :=
  match text with
  | JSValue.null => []
  | JSValue.undefined => []
  | JSValue.str t =>
    if t.isEmpty then []
    else filterNotNull (mapIdxFrom processBlock 0 (effectiveBlocks t))

/-! ## `parseFeedbackText` of `page.backup.js` -/

/-- An element of the array returned by the older `parseFeedbackText` (`page.backup.js`): it
has no `isPositive`, and carries the two arrays `relatedSegments` and `expandedOptions`,
which are always empty. -/
structure Backup.FeedbackBlock where
  id : Nat
  title : JSString
  text : JSString
  color : JSString
  hasBody : Bool
  isLowInfo : Bool
  isNegative : Bool
  relatedSegments : List Nat
  expandedOptions : List JSString
  deriving DecidableEq, Repr

/-- The part of the older `map` callback after the title has been split off; it returns
`null` once before and once after the markdown cleaning. -/
def Backup.blockOfContent (title : JSString) (contentLines : List JSString) (index : Nat) :
    Option Backup.FeedbackBlock :=
  let bodyText := join [10] contentLines
  let hasBody := decide (contentLines.length > 0) && decide ((trim bodyText).length > 0)
  if (trim bodyText).isEmpty then none
  else
    let mainText := cleanBody (trim bodyText)
    if mainText.isEmpty then none
    else if stillLooksLikeTitle mainText then none
    else
      some
        { id := index + 1
          title := title
          text := mainText
          color := colorAt index
          hasBody := hasBody
          isLowInfo := !hasBody || decide (mainText.length < 40) || isGeneric mainText
          isNegative := isNegative mainText
          relatedSegments := []
          expandedOptions := [] }

/-- The callback of `effectiveBlocks.map` in `page.backup.js`. -/
def Backup.processBlock (block : JSString) (index : Nat) : Option Backup.FeedbackBlock :=
  let lines := blockLines block
  let firstLine := lines.headD []
  if isTitleLine firstLine && decide (lines.length > 1) then
    Backup.blockOfContent firstLine (lines.drop 1) index
  else if isTitleLine firstLine && decide (lines.length = 1) then none
  else Backup.blockOfContent [] lines index

/-- The function `parseFeedbackText` of `page.backup.js`; its start line, block split and
block filter are, word for word, those of `page.js`. -/
def Backup.parseFeedbackText (text : JSValue) : List Backup.FeedbackBlock :=
  match text with
  | JSValue.null => []
  | JSValue.undefined => []
  | JSValue.str t =>
    if t.isEmpty then []
    else filterNotNull (mapIdxFrom Backup.processBlock 0 (effectiveBlocks t))

/-- The fields that the two versions of a feedback block share. -/
def sharedFields (b : FeedbackBlock) :
    Nat × JSString × JSString × JSString × Bool × Bool × Bool :=
  (b.id, b.title, b.text, b.color, b.hasBody, b.isLowInfo, b.isNegative)

/-- The fields that the two versions of a feedback block share, of an older block. -/
def Backup.sharedFields (b : Backup.FeedbackBlock) :
    Nat × JSString × JSString × JSString × Bool × Bool × Bool :=
  (b.id, b.title, b.text, b.color, b.hasBody, b.isLowInfo, b.isNegative)

/-- The older block that corresponds to a newer one: the same fields without `isPositive`,
and the two empty arrays of `page.backup.js`. -/
def withoutIsPositive (b : FeedbackBlock) : Backup.FeedbackBlock :=
  { id := b.id
    title := b.title
    text := b.text
    color := b.color
    hasBody := b.hasBody
    isLowInfo := b.isLowInfo
    isNegative := b.isNegative
    relatedSegments := []
    expandedOptions := [] }

/-! ## Inputs of the scenarios -/

/-- The essay of Scenario A. -/
def scenarioAEssay : JSString := js "This is sentence one. This is sentence two!"

/-- The feedback text of Scenario B, as the specification writes it. -/
def scenarioBText : JSString :=
  js "Intro fluff line not part of rubric.\n\nCONCEPTS & APPLICATION\nCONCISENESS: Exceeds (10 pts)\nThe essay is admirably concise and avoids padding.\n\nOVERALL SCORE: 85/100"

/-- The feedback text of Scenario B with a blank line after the `CONCEPTS & APPLICATION` line. -/
def scenarioBSeparated : JSString :=
  js "Intro fluff line not part of rubric.\n\nCONCEPTS & APPLICATION\n\nCONCISENESS: Exceeds (10 pts)\nThe essay is admirably concise and avoids padding.\n\nOVERALL SCORE: 85/100"

/-- The feedback text of Scenario C. -/
def scenarioCText : JSString := js "CONCISENESS: Exceeds (10 pts)"

/-- The feedback text of Scenario D. -/
def scenarioDText : JSString := js "Good job overall!"

/-- The feedback text of Scenario E. -/
def scenarioEText : JSString :=
  js "- Uses strong transitions.\n* Provides clear examples throughout the essay."

/-- A feedback text whose first block is a lone heading and whose second block is a comment. -/
def headingThenComment : JSString :=
  js "SUMMARY\n\nThe argument is developed with care across all three sections."

/-- A feedback text of two comments, neither of which is dropped. -/
def twoComments : JSString :=
  js "The argument is developed with care across all three sections.\n\nThe conclusion restates the thesis without adding anything new."

/-- A feedback text of one short comment. -/
def shortComment : JSString := js "Solid work on the second part."

/-- A feedback text whose only block is headed by a line that starts with `OVERALL SCORES`. -/
def overallScoresHeading : JSString :=
  js "OVERALL SCORES: see below\nThe essay is admirably concise and avoids padding."

/-- An essay whose second sentence opens with a quotation mark followed by a small letter. -/
def quoteThenSmallLetter : JSString := js "He agreed. “yes” was all he said."

/-- A feedback text of one comment with praise and criticism. -/
def mixedComment : JSString :=
  js "The thesis is clear but the supporting evidence is weak throughout."

/-- A feedback text in which `not` occurs only inside the longer word `notable`. -/
def notableComment : JSString := js "A notable essay."

/-- A feedback text whose only praise is a word outside the positive list. -/
def admirablyComment : JSString := js "The essay reads admirably."

/-- A feedback text of one short negative comment. -/
def weakComment : JSString := js "Weak ending."

/-- A feedback text of one short positive comment. -/
def clearComment : JSString := js "Clear thesis."

/-- A feedback text of 45 code units that ends with a generic word. -/
def genericEnding : JSString := js "The second part of the essay reads very well."

/-- An essay that ends with a fragment without terminal punctuation. -/
def trailingFragment : JSString := js "It rained all day.  And then\n"

/-- An essay of two sentences. -/
def twoSentences : JSString := js "It rained. We left."

/-- A feedback text in points format: a heading with a points marker, then a comment. -/
def pointsComment : JSString := js "CLARITY (5 pts)\nReads well."

/-- A feedback text whose line break falls inside the phrase `needs improvement`. -/
def wrappedComment : JSString := js "The middle section needs\nimprovement."

/-- The ids of a list of feedback blocks, in order. -/
def blockIds (l : List FeedbackBlock) : List Nat := l.map FeedbackBlock.id

/-- The ids of a list of essay segments, in order. -/
def segmentIds (l : List EssaySegment) : List Nat := l.map EssaySegment.id

/-! ## Predicates used in the statements and proofs -/

/-- The wording of the specification for a keyword: the code units `m` spell the word `w`,
compared case-insensitively. -/
def SpellsWord (w : String) (m : JSString) : Prop := m.map canon = (js w).map canon

/-- A phrase of several words in the text: the words, each compared case-insensitively, with
whitespace (one code unit or more, a line feed included) between them. -/
def SpellsPhrase : List String → JSString → Prop
  | [], m => m = []
  | [w], m => SpellsWord w m
  | w :: w2 :: r, m =>
    ∃ a g b, m = a ++ g ++ b ∧ SpellsWord w a ∧ g ≠ [] ∧
      (∀ c ∈ g, isWhiteSpace c = true) ∧ SpellsPhrase (w2 :: r) b

/-- There is a word boundary between two neighbouring code units (`none` at an end of the
text): exactly one of them is a word character. -/
def WordBoundary (a b : Option Nat) : Prop := Re.isWordAt a ≠ Re.isWordAt b

/-- The text contains the words of the phrase, separated by whitespace, and the whole is
delimited by word boundaries. -/
def ContainsPhrase (p : List String) (text : JSString) : Prop :=
  ∃ pre m post, text = pre ++ m ++ post ∧ SpellsPhrase p m ∧
    WordBoundary pre.getLast? m.head? ∧ WordBoundary m.getLast? post.head?

/-- The wording of the specification for the sentiment flags, read to the letter: the text
contains the keyword or phrase `w` as it is written (a phrase with its single spaces),
compared case-insensitively and delimited by word boundaries. -/
def ContainsLiteral (w : String) (text : JSString) : Prop :=
  ∃ pre m post, text = pre ++ m ++ post ∧ SpellsWord w m ∧
    WordBoundary pre.getLast? m.head? ∧ WordBoundary m.getLast? post.head?

/-- The keywords and phrases of the negative flag, as the specification writes them. -/
def negativeLiterals : List String :=
  ["not", "bad", "poor", "lacks", "missing", "fails", "didn\x27t", "doesn\x27t", "inadequate",
   "insufficient",
   "no clear", "no evidence", "no examples", "no support",
   "weak", "weakness", "problem", "issue", "error", "mistake", "incorrect", "wrong",
   "needs improvement", "could be better", "should be", "must be",
   "but", "however", "although", "though", "even though", "despite", "nevertheless", "yet",
   "whereas"]

/-- The keywords and phrases of the positive flag, as the specification writes them. -/
def positiveLiterals : List String :=
  ["good", "great", "excellent", "outstanding", "well", "nice", "strong", "clear", "effective",
   "solid",
   "demonstrates", "shows", "illustrates", "exemplifies", "highlights",
   "good use of", "well-developed", "well-written", "well-structured", "well-organized",
   "impressive", "thorough", "comprehensive", "detailed", "insightful", "thoughtful",
   "successful", "successfully", "achieved", "accomplished", "strongly", "clearly",
   "appropriate", "relevant", "accurate", "precise", "convincing", "persuasive",
   "enhances", "strengthens", "improves", "supports", "reinforces", "validates"]

/-- The generic phrases that count anywhere in the text, as the specification writes them. -/
def genericPraiseLiterals : List String :=
  ["good job", "nice job", "well done", "excellent work", "great work"]

/-- The words of a phrase written with single spaces between them. -/
def phraseText : List String → JSString
  | [] => []
  | [w] => js w
  | w :: w2 :: r => js w ++ 32 :: phraseText (w2 :: r)

/-- The keywords and phrases of the negative flag, word by word (the words of a phrase are
separated by whitespace in the text). -/
def negativeKeywords : List (List String) :=
  [["not"], ["bad"], ["poor"], ["lacks"], ["missing"], ["fails"], ["didn\x27t"], ["doesn\x27t"],
   ["inadequate"], ["insufficient"],
   ["no", "clear"], ["no", "evidence"], ["no", "examples"], ["no", "support"],
   ["weak"], ["weakness"], ["problem"], ["issue"], ["error"], ["mistake"], ["incorrect"],
   ["wrong"],
   ["needs", "improvement"], ["could", "be", "better"], ["should", "be"], ["must", "be"],
   ["but"], ["however"], ["although"], ["though"], ["even", "though"], ["despite"],
   ["nevertheless"], ["yet"], ["whereas"]]

/-- The keywords and phrases of the positive flag, word by word. -/
def positiveKeywords : List (List String) :=
  [["good"], ["great"], ["excellent"], ["outstanding"], ["well"], ["nice"], ["strong"],
   ["clear"], ["effective"], ["solid"],
   ["demonstrates"], ["shows"], ["illustrates"], ["exemplifies"], ["highlights"],
   ["good", "use", "of"], ["well-developed"], ["well-written"], ["well-structured"],
   ["well-organized"],
   ["impressive"], ["thorough"], ["comprehensive"], ["detailed"], ["insightful"],
   ["thoughtful"],
   ["successful"], ["successfully"], ["achieved"], ["accomplished"], ["strongly"], ["clearly"],
   ["appropriate"], ["relevant"], ["accurate"], ["precise"], ["convincing"], ["persuasive"],
   ["enhances"], ["strengthens"], ["improves"], ["supports"], ["reinforces"], ["validates"]]

/-- The generic words of the ending rule, as the specification lists them. -/
def genericWords : List String :=
  ["good", "nice", "well", "great", "excellent", "fine", "okay", "ok"]

/-- The generic phrases that count anywhere in the text, word by word. -/
def genericPraise : List (List String) :=
  [["good", "job"], ["nice", "job"], ["well", "done"], ["excellent", "work"],
   ["great", "work"]]

/-- The wording of the specification for the generic-ending rule: the text ends with one
of the generic words as a whole word, optionally followed by whitespace, one `.` or `!`,
and whitespace. -/
def EndsWithGenericWord (text : JSString) : Prop :=
  ∃ pre w m g1 punct g2, w ∈ genericWords ∧ text = pre ++ m ++ g1 ++ punct ++ g2 ∧
    SpellsWord w m ∧ WordBoundary pre.getLast? m.head? ∧
    (∀ c ∈ g1, isWhiteSpace c = true) ∧ (punct = [] ∨ punct = [46] ∨ punct = [33]) ∧
    (∀ c ∈ g2, isWhiteSpace c = true)

/-- A phrase with at least one word and no empty word. -/
def ValidPhrase (p : List String) : Prop := p ≠ [] ∧ ∀ w ∈ p, js w ≠ []

/-- The wording of the specification for the normalized essay: the text with every run of
whitespace (line breaks included) collapsed to one space and the ends trimmed. -/
def collapsedText (s : JSString) : JSString := trim (collapseWhiteSpace false s)

/-- The text with every line feed replaced by one space. -/
def replaceNewlines (s : JSString) : JSString := s.map (fun c => if c = 10 then 32 else c)

/-- Two normalized pieces put together with one space between them; an empty piece adds
nothing. -/
def spaceJoin (a b : JSString) : JSString :=
  if a.isEmpty then b else if b.isEmpty then a else a ++ 32 :: b

/-- The normalized text of a list of lines: trimmed, the empty ones dropped, joined with one
space, whitespace collapsed and the ends trimmed. -/
def normJoin (L : List JSString) : JSString :=
  collapsedText (join [32] (filterNonEmpty (L.map trim)))

/-- The wording of the specification for the OVERALL SCORE rule: the line begins with
`OVERALL SCORE`, compared case-insensitively (whatever follows). -/
def beginsWithOverallScore (s : JSString) : Bool :=
  (s.take 13).map canon == js "OVERALL SCORE"


/-- A whitespace-normalized string, read from a cursor; `afterWs` says that the cursor is at
the start or right after a space: every whitespace code unit is one space that stands
between two other code units. -/
def normalFrom : Bool → JSString → Bool
  | afterWs, [] => !afterWs
  | afterWs, c :: cs =>
    if isWhiteSpace c then !afterWs && c == 32 && normalFrom true cs
    else normalFrom false cs

/-- The code unit `c` is a sentence break between `prev` and `next`: whitespace after one of
`.`, `!`, `?` and before a capital letter or an opening quote. -/
def isBreak (prev : Option Nat) (c : Nat) (next : Option Nat) : Bool :=
  (match prev with
    | some e => isSentenceEnd e
    | none => false) && isWhiteSpace c &&
  (match next with
    | some s => isSentenceStart s
    | none => false)

/-- A string of whitespace only. -/
def AllWs (w : JSString) : Prop := ∀ c ∈ w, isWhiteSpace c = true

/-- The closing part `pt)` or `pts)` of a points marker, in any letter case. -/
def IsCloser (m : JSString) : Prop :=
  ∃ p t, canon p = 80 ∧ canon t = 84 ∧
    (m = [p, t, 41] ∨ ∃ s, canon s = 83 ∧ m = [p, t, s, 41])

/-- A points marker somewhere in the string: `(`, digits, whitespace, then `pt)` or `pts)`. -/
def HasMarker (s : JSString) : Prop :=
  ∃ A d g m B, s = A ++ 40 :: (d ++ (g ++ (m ++ B))) ∧ d ≠ [] ∧
    (∀ c ∈ d, isDigit c = true) ∧ AllWs g ∧ IsCloser m

/-- A line that ends with the opening part of a points marker: `(`, digits, whitespace. -/
def EndsOpen (L : JSString) : Prop :=
  ∃ A d w, L = A ++ 40 :: (d ++ w) ∧ d ≠ [] ∧ (∀ c ∈ d, isDigit c = true) ∧ AllWs w

/-- A line that begins with whitespace and the closing part of a points marker. -/
def BeginsClose (L : JSString) : Prop :=
  ∃ w m B, L = w ++ (m ++ B) ∧ AllWs w ∧ IsCloser m

/-- The lines begin with whitespace-only lines and then a line that closes a points marker. -/
def ClosesAfter : List JSString → Prop
  | [] => False
  | L :: rest => BeginsClose L ∨ (AllWs L ∧ ClosesAfter rest)

/-- A points marker in a list of lines, within one line or spread over several lines. -/
def MarkerIn : List JSString → Prop
  | [] => False
  | L :: rest => HasMarker L ∨ (EndsOpen L ∧ ClosesAfter rest) ∨ MarkerIn rest

/-- The code units that the cleaning of a line may remove at its start: whitespace, `-`, `*`. -/
def isSkip (c : Nat) : Bool := isWhiteSpace c || c == 45 || c == 42

/-- The string `M` is `L` without some skipped code units at the start and some whitespace at
the end. -/
def Shaved (L M : JSString) : Prop :=
  ∃ u v, L = u ++ (M ++ v) ∧ (∀ c ∈ u, isSkip c = true) ∧ AllWs v

/-- A string whose last code unit is `.`, `!` or `?`. -/
def EndsSentence (p : JSString) : Prop := ∃ c, p.getLast? = some c ∧ isSentenceEnd c = true

/-- A continuation whose result does not depend on the code unit before the cursor. -/
def PrevFree (k : Cont) : Prop := ∀ (p q : Option Nat) (s : JSString), k p s = k q s

/-- A continuation that still succeeds when the trailing code unit `x` of the subject is
removed. -/
def Stable (x : Nat) (k : Cont) : Prop :=
  ∀ (p q : Option Nat) (u : JSString), (k p (u ++ [x])).isSome = true → (k q u).isSome = true

/-- The code unit before the cursor once the code units `m` have been passed. -/
def lastOr (prev : Option Nat) : JSString → Option Nat
  | [] => prev
  | c :: cs => lastOr (some c) cs

/-- A line as the block cleaning leaves it: not empty, without surrounding whitespace and
without a line feed. -/
def LineOK (l : JSString) : Prop := l ≠ [] ∧ trimStart l = l ∧ trimEnd l = l ∧ 10 ∉ l

/-- The lines of the cleaned text built from the content lines of a block: each line without
its list marker, the empty results dropped. -/
def cleanedLines (lines : List JSString) : List JSString :=
  (lines.map stripListMarker).filter (fun line => decide (line.length > 0))

/-! ## Lemmas on the array helpers -/

theorem mapIdxFrom_length {α β : Type} (f : α → Nat → β) (n : Nat) (l : List α) :
    (mapIdxFrom f n l).length = l.length := by
  induction l generalizing n with
  | nil => rfl
  | cons x xs ih => simp [mapIdxFrom, ih]

theorem segmentIds_mapIdxFrom (n : Nat) (l : List JSString) :
    segmentIds (mapIdxFrom (fun s index => EssaySegment.mk (index + 1) s (colorAt index)) n l)
      = List.range' (n + 1) l.length := by
  induction l generalizing n with
  | nil => rfl
  | cons x xs ih =>
    have h := ih (n + 1)
    simp only [segmentIds] at h
    simp [segmentIds, mapIdxFrom, List.range'_succ, h]

/-! ## Lemmas on `processBlock` -/

theorem blockOfContent_id (title : JSString) (lines : List JSString) (i : Nat) (fb : FeedbackBlock)
    (h : blockOfContent title lines i = some fb) : fb.id = i + 1 := by
  unfold blockOfContent at h
  simp only [] at h
  split at h
  · cases h
  · split at h
    · cases h
    · cases h; rfl

theorem processBlock_id (b : JSString) (i : Nat) (fb : FeedbackBlock)
    (h : processBlock b i = some fb) : fb.id = i + 1 := by
  unfold processBlock at h
  simp only [] at h
  split at h
  · exact blockOfContent_id _ _ _ _ h
  · split at h
    · cases h
    · exact blockOfContent_id _ _ _ _ h

theorem blockOfContent_isSome_index (title : JSString) (lines : List JSString) (i j : Nat) :
    (blockOfContent title lines i).isSome = (blockOfContent title lines j).isSome := by
  unfold blockOfContent
  simp only []
  split
  · rfl
  · split <;> rfl

theorem processBlock_isSome_index (b : JSString) (i j : Nat) :
    (processBlock b i).isSome = (processBlock b j).isSome := by
  unfold processBlock
  simp only []
  split
  · exact blockOfContent_isSome_index _ _ _ _
  · split
    · rfl
    · exact blockOfContent_isSome_index _ _ _ _

theorem mem_filterNotNull_mapIdxFrom (n : Nat) (l : List JSString) (fb : FeedbackBlock)
    (h : fb ∈ filterNotNull (mapIdxFrom processBlock n l)) :
    n + 1 ≤ fb.id ∧ ∃ b, l[fb.id - 1 - n]? = some b ∧ processBlock b (fb.id - 1) = some fb := by
  induction l generalizing n with
  | nil => simp [mapIdxFrom, filterNotNull] at h
  | cons x xs ih =>
    simp only [mapIdxFrom] at h
    cases hx : processBlock x n with
    | none =>
      rw [hx] at h
      simp only [filterNotNull] at h
      obtain ⟨h1, b, h2, h3⟩ := ih (n + 1) h
      refine ⟨by omega, b, ?_, h3⟩
      have e : fb.id - 1 - n = (fb.id - 1 - (n + 1)) + 1 := by omega
      rw [e]
      simpa using h2
    | some y =>
      rw [hx] at h
      simp only [filterNotNull, List.mem_cons] at h
      rcases h with h | h
      · subst h
        have hid := processBlock_id _ _ _ hx
        refine ⟨by omega, x, ?_, ?_⟩
        · have e : fb.id - 1 - n = 0 := by omega
          rw [e]; simp
        · have e : fb.id - 1 = n := by omega
          rw [e]; exact hx
      · obtain ⟨h1, b, h2, h3⟩ := ih (n + 1) h
        refine ⟨by omega, b, ?_, h3⟩
        have e : fb.id - 1 - n = (fb.id - 1 - (n + 1)) + 1 := by omega
        rw [e]
        simpa using h2

theorem blockIds_of_all_kept (n : Nat) (l : List JSString)
    (h : ∀ b ∈ l, (processBlock b 0).isSome = true) :
    blockIds (filterNotNull (mapIdxFrom processBlock n l)) = List.range' (n + 1) l.length ∧
    (filterNotNull (mapIdxFrom processBlock n l)).length = l.length := by
  induction l generalizing n with
  | nil => exact ⟨rfl, rfl⟩
  | cons x xs ih =>
    have hx : (processBlock x n).isSome = true := by
      rw [processBlock_isSome_index x n 0]; exact h x (List.mem_cons_self _ _)
    obtain ⟨y, hy⟩ := Option.isSome_iff_exists.mp hx
    have hid := processBlock_id _ _ _ hy
    obtain ⟨h1, h2⟩ := ih (n + 1) (fun b hb => h b (List.mem_cons_of_mem _ hb))
    simp only [blockIds] at h1
    simp [mapIdxFrom, hy, filterNotNull, blockIds, List.range'_succ, h1, h2, hid]

theorem parseFeedbackText_str (t : JSString) :
    parseFeedbackText (JSValue.str t) =
      if t.isEmpty then [] else filterNotNull (mapIdxFrom processBlock 0 (effectiveBlocks t)) :=
  rfl

theorem parseEssayText_str (t : JSString) :
    parseEssayText (JSValue.str t) =
      if t.isEmpty then ⟨[]⟩
      else if (normalizeEssay t).isEmpty then ⟨[]⟩
      else ⟨mapIdxFrom (fun s index => EssaySegment.mk (index + 1) s (colorAt index)) 0
        (essaySentences (normalizeEssay t))⟩ :=
  rfl

/-! ## Lemmas on `trim` -/

theorem trimStart_of_all_ws (s : JSString) (h : ∀ c ∈ s, isWhiteSpace c = true) :
    trimStart s = [] := by
  induction s with
  | nil => rfl
  | cons c cs ih =>
    have hc := h c (List.mem_cons_self _ _)
    simp only [trimStart, hc, if_true]
    exact ih (fun x hx => h x (List.mem_cons_of_mem _ hx))

theorem trim_of_all_ws (s : JSString) (h : ∀ c ∈ s, isWhiteSpace c = true) : trim s = [] := by
  unfold trim
  rw [trimStart_of_all_ws s h]
  rfl

/-! ## Lemmas on `split` and `join` -/

theorem splitOn_ne_nil (sep : Nat) (s : JSString) : splitOn sep s ≠ [] := by
  cases s with
  | nil => simp [splitOn]
  | cons c cs =>
    simp only [splitOn]
    split
    · simp
    · split <;> simp

theorem join_cons_cons (sep : JSString) (c : Nat) (h : JSString) (t : List JSString) :
    join sep ((c :: h) :: t) = c :: join sep (h :: t) := by
  cases t <;> simp [join]

theorem join_splitOn (sep : Nat) (s : JSString) : join [sep] (splitOn sep s) = s := by
  induction s with
  | nil => rfl
  | cons c cs ih =>
    simp only [splitOn]
    split
    · next hc =>
      cases hs : splitOn sep cs with
      | nil => exact absurd hs (splitOn_ne_nil _ _)
      | cons h t =>
        rw [hs] at ih
        simp [join, ih, hc]
    · cases hs : splitOn sep cs with
      | nil => exact absurd hs (splitOn_ne_nil _ _)
      | cons h t =>
        rw [hs] at ih
        simp only []
        rw [join_cons_cons, ih]

theorem mem_of_mem_splitOn (sep : Nat) (s : JSString) (l : JSString) (hl : l ∈ splitOn sep s)
    (c : Nat) (hc : c ∈ l) : c ∈ s := by
  induction s generalizing l with
  | nil =>
    simp only [splitOn, List.mem_singleton] at hl
    subst hl
    exact hc
  | cons x xs ih =>
    simp only [splitOn] at hl
    split at hl
    · simp only [List.mem_cons] at hl
      rcases hl with hl | hl
      · subst hl; simp at hc
      · exact List.mem_cons_of_mem _ (ih l hl hc)
    · cases hs : splitOn sep xs with
      | nil => exact absurd hs (splitOn_ne_nil _ _)
      | cons h t =>
        rw [hs] at hl ih
        simp only [List.mem_cons] at hl
        rcases hl with hl | hl
        · subst hl
          simp only [List.mem_cons] at hc
          rcases hc with hc | hc
          · subst hc; exact List.mem_cons_self _ _
          · exact List.mem_cons_of_mem _ (ih h (List.mem_cons_self _ _) hc)
        · exact List.mem_cons_of_mem _ (ih l (List.mem_cons_of_mem _ hl) hc)

theorem mem_of_mem_splitLoop (r : Re) (rest before : JSString) (skip : Nat) (cur : JSString)
    (p : JSString) (hp : p ∈ splitLoop r rest before skip cur) (c : Nat) (hc : c ∈ p) :
    c ∈ cur ∨ c ∈ rest := by
  induction rest generalizing before skip cur with
  | nil =>
    simp only [splitLoop, List.mem_singleton] at hp
    subst hp
    exact Or.inl (List.mem_reverse.mp hc)
  | cons x xs ih =>
    cases skip with
    | succ k =>
      simp only [splitLoop] at hp
      rcases ih _ _ _ hp with h | h
      · exact Or.inl h
      · exact Or.inr (List.mem_cons_of_mem _ h)
    | zero =>
      simp only [splitLoop] at hp
      split at hp
      · simp only [List.mem_cons] at hp
        rcases hp with hp | hp
        · subst hp; exact Or.inl (List.mem_reverse.mp hc)
        · rcases ih _ _ _ hp with h | h
          · simp at h
          · exact Or.inr (List.mem_cons_of_mem _ h)
      · split at hp
        · rcases ih _ _ _ hp with h | h
          · simp only [List.mem_singleton] at h
            subst h; exact Or.inr (List.mem_cons_self _ _)
          · exact Or.inr (List.mem_cons_of_mem _ h)
        · simp only [List.mem_cons] at hp
          rcases hp with hp | hp
          · subst hp; exact Or.inl (List.mem_reverse.mp hc)
          · rcases ih _ _ _ hp with h | h
            · simp only [List.mem_singleton] at h
              subst h; exact Or.inr (List.mem_cons_self _ _)
            · exact Or.inr (List.mem_cons_of_mem _ h)
      · rcases ih _ _ _ hp with h | h
        · simp only [List.mem_cons] at h
          rcases h with h | h
          · subst h; exact Or.inr (List.mem_cons_self _ _)
          · exact Or.inl h
        · exact Or.inr (List.mem_cons_of_mem _ h)

theorem mem_of_mem_regexSplit (r : Re) (s : JSString) (p : JSString) (hp : p ∈ regexSplit r s)
    (c : Nat) (hc : c ∈ p) : c ∈ s := by
  cases s with
  | nil =>
    simp only [regexSplit] at hp
    split at hp
    · simp at hp
    · simp only [List.mem_singleton] at hp
      subst hp; exact hc
  | cons x xs =>
    simp only [regexSplit] at hp
    rcases mem_of_mem_splitLoop _ _ _ _ _ p hp c hc with h | h
    · simp at h
    · exact h

theorem filterNonEmpty_map_trim_of_all_ws (l : List JSString)
    (h : ∀ p ∈ l, ∀ c ∈ p, isWhiteSpace c = true) : filterNonEmpty (l.map trim) = [] := by
  induction l with
  | nil => rfl
  | cons x xs ih =>
    have hx : trim x = [] := trim_of_all_ws x (h x (List.mem_cons_self _ _))
    simp only [List.map_cons, filterNonEmpty, hx]
    simp only [filterNonEmpty] at ih
    simpa using ih (fun p hp => h p (List.mem_cons_of_mem _ hp))

theorem normalizeEssay_of_all_ws (t : JSString) (h : ∀ c ∈ t, isWhiteSpace c = true) :
    normalizeEssay t = [] := by
  unfold normalizeEssay
  rw [filterNonEmpty_map_trim_of_all_ws _
    (fun p hp c hc => h c (mem_of_mem_regexSplit _ _ p hp c hc))]
  rfl

theorem startIndex_of_all_ws (t : JSString) (h : ∀ c ∈ t, isWhiteSpace c = true) :
    startIndex (splitOn 10 t) = 0 := by
  unfold startIndex
  have hn : (splitOn 10 t).findIdx? isConceptsLine = none := by
    rw [List.findIdx?_eq_none_iff]
    intro l hl
    have hl0 : trim l = [] := trim_of_all_ws l (fun c hc => h c (mem_of_mem_splitOn _ _ l hl c hc))
    unfold isConceptsLine
    rw [hl0]
    rfl
  rw [hn]

theorem feedbackBlocks_of_all_ws (t : JSString) (h : ∀ c ∈ t, isWhiteSpace c = true) :
    feedbackBlocks t = [] := by
  unfold feedbackBlocks relevantText
  rw [startIndex_of_all_ws t h, List.drop_zero, join_splitOn]
  exact filterNonEmpty_map_trim_of_all_ws _
    (fun p hp c hc => h c (mem_of_mem_regexSplit _ _ p hp c hc))

/-! ## Lemmas on the matcher -/

theorem star_some (p : Nat → Bool) (prev : Option Nat) (s : JSString) (k : Cont) (r : JSString)
    (h : Re.star p prev s k = some r) :
    ∃ m prev2, m ≤ s.length ∧ (∀ c ∈ s.take m, p c = true) ∧ k prev2 (s.drop m) = some r := by
  induction s generalizing prev with
  | nil =>
    simp only [Re.star] at h
    exact ⟨0, prev, by simp, by simp, by simpa using h⟩
  | cons x xs ih =>
    simp only [Re.star] at h
    split at h
    · next hx =>
      split at h
      · next r2 hr =>
        cases h
        obtain ⟨m, prev2, hm, hall, hk⟩ := ih _ hr
        refine ⟨m + 1, prev2, by simpa using hm, ?_, by simpa using hk⟩
        intro c hc
        simp only [List.take_succ_cons, List.mem_cons] at hc
        rcases hc with hc | hc
        · subst hc; exact hx
        · exact hall c hc
      · exact ⟨0, prev, by simp, by simp, by simpa using h⟩
    · exact ⟨0, prev, by simp, by simp, by simpa using h⟩

theorem isSentenceEnd_not_ws (c : Nat) (h : isSentenceEnd c = true) : isWhiteSpace c = false := by
  simp only [isSentenceEnd, Bool.or_eq_true, beq_iff_eq] at h
  rcases h with (h | h) | h <;> subst h <;> rfl

theorem sentenceBreak_matchLen (before after : JSString) (n : Nat)
    (h : matchLen reSentenceBreak before after = some n) :
    (∃ b, before.head? = some b ∧ isSentenceEnd b = true) ∧
    ∀ c ∈ after.take n, isWhiteSpace c = true := by
  simp only [matchLen, Re.matchAt, Option.map_eq_some'] at h
  obtain ⟨rest, hr, hn⟩ := h
  simp only [reSentenceBreak, Re.seq, Re.lookbehind, Re.plus, Re.cls] at hr
  split at hr
  · cases hr
  · next b hb =>
    split at hr
    · next hE =>
      refine ⟨⟨b, hb, hE⟩, ?_⟩
      split at hr
      · cases hr
      · next x xs =>
        split at hr
        · next hx =>
          obtain ⟨m, prev2, hm, hall, hk⟩ := star_some _ _ _ _ _ hr
          simp only [Re.lookahead, done] at hk
          split at hk
          · cases hk
          · next y ys hys =>
            split at hk
            · cases hk
              have hlen : (List.drop m xs).length = xs.length - m := List.length_drop _ _
              have hn2 : n = m + 1 := by
                rw [← hn, hlen]
                simp only [List.length_cons]
                omega
              subst hn2
              intro c hc
              simp only [List.take_succ_cons, List.mem_cons] at hc
              rcases hc with hc | hc
              · subst hc; exact hx
              · exact hall c hc
            · cases hk
        · cases hr
    · cases hr

theorem splitLoop_ne_nil (r : Re) (rest before : JSString) (skip : Nat) (cur : JSString) :
    splitLoop r rest before skip cur ≠ [] := by
  induction rest generalizing before skip cur with
  | nil => simp [splitLoop]
  | cons x xs ih =>
    cases skip with
    | succ k => simp only [splitLoop]; exact ih _ _ _
    | zero =>
      simp only [splitLoop]
      split
      · simp
      · split
        · exact ih _ _ _
        · simp
      · exact ih _ _ _

theorem mem_dropLast_cons {α : Type} (a : α) (l : List α) (hl : l ≠ []) (p : α)
    (hp : p ∈ (a :: l).dropLast) : p = a ∨ p ∈ l.dropLast := by
  cases l with
  | nil => exact absurd rfl hl
  | cons b t => simpa [List.dropLast] using hp

theorem endsSentence_reverse (cur : JSString) (b : Nat) (h : cur.head? = some b)
    (hb : isSentenceEnd b = true) : EndsSentence cur.reverse :=
  ⟨b, by rw [List.getLast?_reverse]; exact h, hb⟩

theorem splitLoop_sentence_ends (rest before : JSString) (skip : Nat) (cur : JSString)
    (inv : (cur ≠ [] ∧ skip = 0 ∧ cur.head? = before.head?) ∨
      (cur = [] ∧ (before = [] ∨ ∃ w, before.head? = some w ∧ isWhiteSpace w = true)))
    (hskip : ∀ c ∈ rest.take skip, isWhiteSpace c = true) :
    ∀ p ∈ (splitLoop reSentenceBreak rest before skip cur).dropLast, EndsSentence p := by
  induction rest generalizing before skip cur with
  | nil => intro p hp; simp [splitLoop] at hp
  | cons x xs ih =>
    have pushed : ∀ n, matchLen reSentenceBreak before (x :: xs) = some n →
        EndsSentence cur.reverse := by
      intro n hn
      obtain ⟨⟨b, hb, hE⟩, _⟩ := sentenceBreak_matchLen _ _ _ hn
      rcases inv with ⟨_, _, hh⟩ | ⟨_, hb0 | ⟨w, hw, hws⟩⟩
      · exact endsSentence_reverse cur b (hh.trans hb) hE
      · rw [hb0] at hb; cases hb
      · rw [hw] at hb; cases hb
        rw [isSentenceEnd_not_ws _ hE] at hws; cases hws
    cases skip with
    | succ k =>
      simp only [splitLoop]
      rcases inv with ⟨_, h0, _⟩ | ⟨hc, _⟩
      · cases h0
      · refine ih (x :: before) k cur (Or.inr ⟨hc, Or.inr ⟨x, rfl, ?_⟩⟩) ?_
        · exact hskip x (by simp)
        · intro c hc2
          exact hskip c (by simp [List.take_succ_cons, hc2])
    | zero =>
      simp only [splitLoop]
      split
      · next k hk =>
        obtain ⟨_, hws⟩ := sentenceBreak_matchLen _ _ _ hk
        intro p hp
        rcases mem_dropLast_cons _ _ (splitLoop_ne_nil _ _ _ _ _) p hp with h | h
        · subst h; exact pushed _ hk
        · refine ih (x :: before) k [] (Or.inr ⟨rfl, Or.inr ⟨x, rfl, ?_⟩⟩) ?_ p h
          · exact hws x (by simp)
          · intro c hc2
            exact hws c (by simp [List.take_succ_cons, hc2])
      · next hk =>
        split
        · exact ih (x :: before) 0 [x] (Or.inl ⟨by simp, rfl, rfl⟩) (by simp)
        · intro p hp
          rcases mem_dropLast_cons _ _ (splitLoop_ne_nil _ _ _ _ _) p hp with h | h
          · subst h; exact pushed _ hk
          · exact ih (x :: before) 0 [x] (Or.inl ⟨by simp, rfl, rfl⟩) (by simp) p h
      · exact ih (x :: before) 0 (x :: cur) (Or.inl ⟨by simp, rfl, rfl⟩) (by simp)

theorem regexSplit_sentence_ends (s : JSString) :
    ∀ p ∈ (regexSplit reSentenceBreak s).dropLast, EndsSentence p := by
  cases s with
  | nil =>
    intro p hp
    simp only [regexSplit] at hp
    split at hp <;> simp at hp
  | cons x xs =>
    simp only [regexSplit]
    exact splitLoop_sentence_ends _ _ _ _ (Or.inr ⟨rfl, Or.inl rfl⟩) (by simp)

/-! ## Lemmas on `trim` and the last code unit -/

theorem trimEnd_cons_of_ne_nil (c : Nat) (cs : JSString) (h : trimEnd cs ≠ []) :
    trimEnd (c :: cs) = c :: trimEnd cs := by
  cases h2 : trimEnd cs with
  | nil => exact absurd h2 h
  | cons a b => simp [trimEnd, h2]

theorem trimEnd_concat_of_not_ws (u : JSString) (c : Nat) (hc : isWhiteSpace c = false) :
    trimEnd (u ++ [c]) = u ++ [c] := by
  induction u with
  | nil => simp [trimEnd, hc]
  | cons x xs ih =>
    rw [List.cons_append, trimEnd_cons_of_ne_nil x _ (by rw [ih]; simp), ih]

theorem trimStart_concat_of_not_ws (u : JSString) (c : Nat) (hc : isWhiteSpace c = false) :
    ∃ v, trimStart (u ++ [c]) = v ++ [c] := by
  induction u with
  | nil => exact ⟨[], by simp [trimStart, hc]⟩
  | cons x xs ih =>
    simp only [List.cons_append, trimStart]
    split
    · exact ih
    · exact ⟨x :: xs, rfl⟩

theorem trim_endsSentence (p : JSString) (h : EndsSentence p) :
    EndsSentence (trim p) ∧ (trim p).length > 0 := by
  obtain ⟨c, hlast, hE⟩ := h
  have hws := isSentenceEnd_not_ws c hE
  obtain ⟨u, hu⟩ : ∃ u, p = u ++ [c] := by
    rcases List.eq_nil_or_concat p with h0 | ⟨u, d, hd⟩
    · subst h0; simp at hlast
    · rw [List.concat_eq_append] at hd
      subst hd
      simp only [List.getLast?_concat, Option.some.injEq] at hlast
      exact ⟨u, by rw [hlast]⟩
  subst hu
  obtain ⟨v, hv⟩ := trimStart_concat_of_not_ws u c hws
  have ht : trim (u ++ [c]) = v ++ [c] := by
    unfold trim
    rw [hv, trimEnd_concat_of_not_ws v c hws]
  rw [ht]
  exact ⟨⟨c, by simp, hE⟩, by simp⟩

theorem mem_dropLast_append_short {α : Type} (X Y : List α) (hY : Y.length ≤ 1) (q : α)
    (hq : q ∈ (X ++ Y).dropLast) : q ∈ X := by
  match Y, hY with
  | [], _ =>
    rw [List.append_nil] at hq
    exact List.mem_of_mem_dropLast hq
  | [y], _ =>
    rw [List.dropLast_concat] at hq
    exact hq

theorem essaySentences_end (normalized : JSString) :
    ∀ q ∈ (essaySentences normalized).dropLast, EndsSentence q := by
  intro q hq
  unfold essaySentences at hq
  have hsplit := regexSplit_sentence_ends normalized
  rcases List.eq_nil_or_concat (regexSplit reSentenceBreak normalized) with h0 | ⟨L, z, hz⟩
  · rw [h0] at hq; simp at hq
  · rw [List.concat_eq_append] at hz
    rw [hz] at hq hsplit
    rw [List.dropLast_concat] at hsplit
    simp only [List.map_append, List.filter_append, List.map_cons, List.map_nil] at hq
    have hX : List.filter (fun s => decide (s.length > 0)) (List.map trim L) = List.map trim L := by
      rw [List.filter_eq_self]
      intro a ha
      obtain ⟨p, hp, rfl⟩ := List.mem_map.mp ha
      simpa using (trim_endsSentence p (hsplit p hp)).2
    rw [hX] at hq
    have hY : (List.filter (fun s => decide (s.length > 0)) [trim z]).length ≤ 1 := by
      simp only [List.filter]
      split <;> simp
    have hmem := mem_dropLast_append_short _ _ hY q hq
    obtain ⟨p, hp, rfl⟩ := List.mem_map.mp hmem
    exact (trim_endsSentence p (hsplit p hp)).1

theorem mapIdxFrom_dropLast {α β : Type} (f : α → Nat → β) (n : Nat) (l : List α) :
    (mapIdxFrom f n l).dropLast = mapIdxFrom f n l.dropLast := by
  induction l generalizing n with
  | nil => rfl
  | cons x xs ih =>
    cases xs with
    | nil => rfl
    | cons y ys =>
      have h := ih (n + 1)
      simp only [mapIdxFrom, List.dropLast] at h ⊢
      rw [h]

theorem text_mem_of_mem_mapIdxFrom (n : Nat) (l : List JSString) (seg : EssaySegment)
    (h : seg ∈ mapIdxFrom (fun s index => EssaySegment.mk (index + 1) s (colorAt index)) n l) :
    seg.text ∈ l := by
  induction l generalizing n with
  | nil => simp [mapIdxFrom] at h
  | cons x xs ih =>
    simp only [mapIdxFrom, List.mem_cons] at h
    rcases h with h | h
    · subst h; exact List.mem_cons_self _ _
    · exact List.mem_cons_of_mem _ (ih _ h)

/-! ## Matches that survive the removal of surrounding whitespace -/

theorem stable_done (x : Nat) : Stable x done := fun _ _ _ _ => rfl

theorem stable_cls (x : Nat) (c : Nat → Bool) (hc : c x = false) (k : Cont) (hk : Stable x k) :
    Stable x (fun p r => Re.cls c p r k) := by
  intro p q u h
  cases u with
  | nil => simp [Re.cls, hc] at h
  | cons y ys =>
    simp only [Re.cls, List.cons_append] at h ⊢
    split at h
    · next hy => rw [if_pos hy]; exact hk _ _ _ h
    · cases h

theorem prevFree_cls (c : Nat → Bool) (k : Cont) : PrevFree (fun p r => Re.cls c p r k) :=
  fun _ _ _ => rfl

theorem stable_alt (x : Nat) (a b : Re) (k : Cont) (ha : Stable x (fun p r => a p r k))
    (hb : Stable x (fun p r => b p r k)) : Stable x (fun p r => Re.alt a b p r k) := by
  intro p q u h
  simp only [Re.alt] at h ⊢
  cases hq : a q u k with
  | some r => rfl
  | none =>
    simp only []
    cases hp : a p (u ++ [x]) k with
    | some r =>
      have h2 : (a q u k).isSome = true := ha p q u (by show (a p (u ++ [x]) k).isSome = true; rw [hp]; rfl)
      rw [hq] at h2; cases h2
    | none =>
      rw [hp] at h
      exact hb p q u h

theorem stable_star (x : Nat) (c : Nat → Bool) (k : Cont) (hk : Stable x k) (hf : PrevFree k) :
    Stable x (fun p r => Re.star c p r k) := by
  intro p q u
  induction u generalizing p q with
  | nil =>
    intro h
    simp only [List.nil_append, Re.star] at h ⊢
    split at h
    · split at h
      · next r hr =>
        have hr2 : k (some x) [] = some r := hr
        rw [hf q (some x) [], hr2]; rfl
      · exact hk p q [] h
    · exact hk p q [] h
  | cons y ys ih =>
    intro h
    simp only [List.cons_append, Re.star] at h ⊢
    split at h
    · next hy =>
      rw [if_pos hy]
      cases hq : Re.star c (some y) ys k with
      | some r => rfl
      | none =>
        simp only []
        split at h
        · next r hr =>
          have h2 : (Re.star c (some y) ys k).isSome = true :=
            ih (some y) (some y)
              (by show (Re.star c (some y) (ys.append [x]) k).isSome = true; rw [hr]; rfl)
          rw [hq] at h2; cases h2
        · exact hk p q (y :: ys) h
    · next hy =>
      rw [if_neg hy]
      exact hk p q (y :: ys) h

theorem prevFree_star (c : Nat → Bool) (k : Cont) (hf : PrevFree k) :
    PrevFree (fun p r => Re.star c p r k) := by
  intro p q s
  cases s with
  | nil => simp only [Re.star]; exact hf p q []
  | cons y ys => simp only [Re.star]; rw [hf p q (y :: ys)]

theorem prevFree_exec (a : Re) (hf : PrevFree (Re.matchAt a)) : PrevFree (Re.exec a) := by
  intro p q s
  induction s generalizing p q with
  | nil => simp only [Re.exec]; exact hf p q []
  | cons y ys ih =>
    simp only [Re.exec]
    rw [hf p q (y :: ys)]

theorem stable_exec (x : Nat) (a : Re) (hs : Stable x (Re.matchAt a))
    (hf : PrevFree (Re.matchAt a)) : Stable x (Re.exec a) := by
  intro p q u
  induction u generalizing p q with
  | nil =>
    intro h
    simp only [List.nil_append, Re.exec] at h ⊢
    split at h
    · next r hr =>
      exact hs p q [] (by show (Re.matchAt a p [x]).isSome = true; rw [hr]; rfl)
    · rw [hf q (some x) []]; exact h
  | cons y ys ih =>
    intro h
    simp only [List.cons_append, Re.exec] at h ⊢
    cases hq : Re.matchAt a q (y :: ys) with
    | some r => rfl
    | none =>
      simp only []
      split at h
      · next r hr =>
        have h2 : (Re.matchAt a q (y :: ys)).isSome = true :=
          hs p q (y :: ys)
            (by show (Re.matchAt a p (y :: ys.append [x])).isSome = true; rw [hr]; rfl)
        rw [hq] at h2; cases h2
      · exact ih _ _ h

theorem canon_of_ws (x : Nat) (hx : isWhiteSpace x = true) : canon x = x := by
  unfold canon
  split
  · next h =>
    exfalso
    simp only [isWhiteSpace, Bool.or_eq_true, beq_iff_eq, Bool.and_eq_true, decide_eq_true_eq] at hx h
    omega
  · rfl

theorem chr_ws_false (x c : Nat) (hx : isWhiteSpace x = true) (hc : isWhiteSpace (canon c) = false) :
    (fun y => if true = true then canon y == canon c else y == c) x = false := by
  simp only [if_true, canon_of_ws x hx]
  cases hb : (x == canon c) with
  | false => rfl
  | true =>
    rw [beq_iff_eq] at hb
    rw [← hb, hx] at hc
    cases hc

theorem isDigit_ws_false (x : Nat) (hx : isWhiteSpace x = true) : isDigit x = false := by
  cases hd : isDigit x with
  | false => rfl
  | true =>
    exfalso
    simp only [isWhiteSpace, isDigit, Bool.or_eq_true, beq_iff_eq, Bool.and_eq_true,
      decide_eq_true_eq] at hx hd
    omega

theorem stable_chr (x c : Nat) (hx : isWhiteSpace x = true) (hc : isWhiteSpace (canon c) = false)
    (k : Cont) (hk : Stable x k) : Stable x (fun p r => Re.chr true c p r k) :=
  stable_cls x _ (chr_ws_false x c hx hc) k hk

theorem stable_points (x : Nat) (hx : isWhiteSpace x = true) : Stable x (Re.matchAt rePoints) := by
  show Stable x (fun p r => Re.chr true 40 p r (fun p r => Re.cls isDigit p r
    (fun p r => Re.star isDigit p r (fun p r => Re.star isWhiteSpace p r
      (fun p r => Re.chr true 112 p r (fun p r => Re.chr true 116 p r
        (fun p r => Re.alt (Re.chr true 115) Re.eps p r (fun p r => Re.chr true 41 p r done))))))))
  have h41 : Stable x (fun p r => Re.chr true 41 p r done) :=
    stable_chr x 41 hx rfl _ (stable_done x)
  have hs : Stable x (fun p r => Re.alt (Re.chr true 115) Re.eps p r
      (fun p r => Re.chr true 41 p r done)) :=
    stable_alt x _ _ _ (stable_chr x 115 hx rfl _ h41) h41
  have ht := stable_chr x 116 hx rfl _ hs
  have hp := stable_chr x 112 hx rfl _ ht
  have hw := stable_star x isWhiteSpace _ hp (prevFree_cls _ _)
  have hd := stable_star x isDigit _ hw (prevFree_star _ _ (prevFree_cls _ _))
  exact stable_chr x 40 hx rfl _ (stable_cls x isDigit (isDigit_ws_false x hx) _ hd)

theorem prevFree_points : PrevFree (Re.matchAt rePoints) := fun _ _ _ => rfl

/-! ## Lemmas on `trim`, continued -/

theorem trimStart_decomp (s : JSString) :
    ∃ w, s = w ++ trimStart s ∧ ∀ c ∈ w, isWhiteSpace c = true := by
  induction s with
  | nil => exact ⟨[], rfl, by simp⟩
  | cons x xs ih =>
    simp only [trimStart]
    split
    · next hx =>
      obtain ⟨w, hw, hall⟩ := ih
      refine ⟨x :: w, by rw [List.cons_append, ← hw], ?_⟩
      intro c hc
      simp only [List.mem_cons] at hc
      rcases hc with hc | hc
      · subst hc; exact hx
      · exact hall c hc
    · exact ⟨[], rfl, by simp⟩

theorem trimEnd_decomp (s : JSString) :
    ∃ w, s = trimEnd s ++ w ∧ ∀ c ∈ w, isWhiteSpace c = true := by
  induction s with
  | nil => exact ⟨[], rfl, by simp⟩
  | cons x xs ih =>
    obtain ⟨w, hw, hall⟩ := ih
    cases hr : trimEnd xs with
    | nil =>
      rw [hr, List.nil_append] at hw
      subst hw
      simp only [trimEnd, hr]
      split
      · next hx =>
        refine ⟨x :: xs, rfl, ?_⟩
        intro c hc
        simp only [List.mem_cons] at hc
        rcases hc with hc | hc
        · subst hc; exact hx
        · exact hall c hc
      · exact ⟨xs, rfl, hall⟩
    | cons a b =>
      refine ⟨w, ?_, hall⟩
      rw [trimEnd_cons_of_ne_nil x xs (by rw [hr]; simp), List.cons_append, ← hw]

theorem trim_decomp (s : JSString) :
    ∃ w1 w2, s = w1 ++ (trim s ++ w2) ∧ (∀ c ∈ w1, isWhiteSpace c = true) ∧
      ∀ c ∈ w2, isWhiteSpace c = true := by
  obtain ⟨w1, h1, hall1⟩ := trimStart_decomp s
  obtain ⟨w2, h2, hall2⟩ := trimEnd_decomp (trimStart s)
  refine ⟨w1, w2, ?_, hall1, hall2⟩
  unfold trim
  rw [← h2, ← h1]

theorem mem_of_mem_trim (s : JSString) (c : Nat) (h : c ∈ trim s) : c ∈ s := by
  obtain ⟨w1, w2, hs, _, _⟩ := trim_decomp s
  rw [hs]
  simp [h]

theorem mem_trim_of_not_ws (s : JSString) (c : Nat) (h : c ∈ s) (hc : isWhiteSpace c = false) :
    c ∈ trim s := by
  obtain ⟨w1, w2, hs, h1, h2⟩ := trim_decomp s
  rw [hs] at h
  simp only [List.mem_append] at h
  rcases h with h | h | h
  · rw [h1 c h] at hc; cases hc
  · exact h
  · rw [h2 c h] at hc; cases hc

theorem length_trim_le (s : JSString) : (trim s).length ≤ s.length := by
  obtain ⟨w1, w2, hs, _, _⟩ := trim_decomp s
  have h := congrArg List.length hs
  simp only [List.length_append] at h
  omega

theorem trimStart_head_not_ws (s : JSString) (c : Nat) (r : JSString)
    (h : trimStart s = c :: r) : isWhiteSpace c = false := by
  induction s with
  | nil => cases h
  | cons x xs ih =>
    simp only [trimStart] at h
    split at h
    · exact ih h
    · next hx =>
      cases h
      simpa using hx

theorem trimEnd_idem (s : JSString) : trimEnd (trimEnd s) = trimEnd s := by
  induction s with
  | nil => rfl
  | cons x xs ih =>
    cases hr : trimEnd xs with
    | nil =>
      simp only [trimEnd, hr]
      split
      · rfl
      · next hx => simp [trimEnd, hx]
    | cons a b =>
      rw [trimEnd_cons_of_ne_nil x xs (by rw [hr]; simp)]
      rw [trimEnd_cons_of_ne_nil x (trimEnd xs) (by rw [ih, hr]; simp), ih]

theorem trimEnd_head (s : JSString) (c : Nat) (r : JSString) (h : trimEnd s = c :: r) :
    s.head? = some c := by
  cases s with
  | nil => cases h
  | cons x xs =>
    simp only [trimEnd] at h
    split at h
    · split at h
      · cases h
      · cases h; rfl
    · cases h; rfl

theorem trim_idem (s : JSString) : trim (trim s) = trim s := by
  unfold trim
  cases hr : trimEnd (trimStart s) with
  | nil => rfl
  | cons c r =>
    have hhead := trimEnd_head _ _ _ hr
    cases hs : trimStart s with
    | nil => rw [hs] at hhead; cases hhead
    | cons d t =>
      rw [hs] at hhead
      cases hhead
      have hd := trimStart_head_not_ws s c t hs
      have h1 : trimStart (c :: r) = c :: r := by simp [trimStart, hd]
      rw [h1, ← hr, trimEnd_idem]

/-! ## Lemmas on the points marker and the all-capitals test -/

theorem hasPointsFormat_drop_trailing (u w : JSString) (hw : ∀ c ∈ w, isWhiteSpace c = true)
    (h : hasPointsFormat (u ++ w) = true) : hasPointsFormat u = true := by
  induction w generalizing u with
  | nil => simpa using h
  | cons x xs ih =>
    have h1 : hasPointsFormat (u ++ [x]) = true := by
      apply ih (u ++ [x]) (fun c hc => hw c (List.mem_cons_of_mem _ hc))
      simpa using h
    exact stable_exec x rePoints (stable_points x (hw x (List.mem_cons_self _ _)))
      prevFree_points none none u h1

theorem hasPointsFormat_cons_ws (x : Nat) (s : JSString) (hx : isWhiteSpace x = true) :
    hasPointsFormat (x :: s) = hasPointsFormat s := by
  have hm : Re.matchAt rePoints none (x :: s) = none := by
    have hc : (canon x == canon 40) = false := by simpa using chr_ws_false x 40 hx rfl
    simp only [Re.matchAt, rePoints, Re.seq, Re.chr, Re.cls, if_true, hc]
    rfl
  unfold hasPointsFormat Re.test
  simp only [Re.exec, hm]
  rw [prevFree_exec rePoints prevFree_points (some x) none s]

theorem hasPointsFormat_drop_leading (w u : JSString) (hw : ∀ c ∈ w, isWhiteSpace c = true)
    (h : hasPointsFormat (w ++ u) = true) : hasPointsFormat u = true := by
  induction w with
  | nil => simpa using h
  | cons x xs ih =>
    rw [List.cons_append, hasPointsFormat_cons_ws x _ (hw x (List.mem_cons_self _ _))] at h
    exact ih (fun c hc => hw c (List.mem_cons_of_mem _ hc)) h

theorem hasPointsFormat_trim (s : JSString) (h : hasPointsFormat s = true) :
    hasPointsFormat (trim s) = true := by
  obtain ⟨w1, w2, hs, h1, h2⟩ := trim_decomp s
  rw [hs] at h
  exact hasPointsFormat_drop_trailing _ w2 h2 (hasPointsFormat_drop_leading w1 _ h1 h)

theorem star_eol_of_all (c : Nat → Bool) (prev : Option Nat) (s : JSString)
    (h : ∀ x ∈ s, c x = true) :
    Re.star c prev s (fun p r => Re.eol p r done) = some [] := by
  induction s generalizing prev with
  | nil => rfl
  | cons y ys ih =>
    simp only [Re.star, h y (List.mem_cons_self _ _), if_true,
      ih (some y) (fun x hx => h x (List.mem_cons_of_mem _ hx))]

theorem test_allCaps_of_all (s : JSString) (hne : s ≠ [])
    (h : ∀ x ∈ s, isHeadingChar x = true) : Re.test reAllCaps s = true := by
  cases s with
  | nil => exact absurd rfl hne
  | cons y ys =>
    have hm : Re.matchAt reAllCaps none (y :: ys) = some [] := by
      show (if (none : Option Nat).isNone = true then
        Re.cls isHeadingChar none (y :: ys)
          (fun p r => Re.star isHeadingChar p r (fun p r => Re.eol p r done)) else none) = some []
      simp only [Option.isNone_none, if_true, Re.cls, h y (List.mem_cons_self _ _)]
      exact star_eol_of_all _ _ _ (fun x hx => h x (List.mem_cons_of_mem _ hx))
    simp [Re.test, Re.exec, hm]

/-! ## A text without a line feed is one line and one block -/

theorem splitOn_of_not_mem (sep : Nat) (s : JSString) (h : sep ∉ s) : splitOn sep s = [s] := by
  induction s with
  | nil => rfl
  | cons x xs ih =>
    simp only [List.mem_cons, not_or] at h
    have hx : ¬ x = sep := fun e => h.1 e.symm
    simp only [splitOn, hx, if_false, ih h.2]

theorem blankLines_no_match (before : JSString) (c : Nat) (rest : JSString) (hc : c ≠ 10) :
    matchLen reBlankLines before (c :: rest) = none := by
  have hn : isNewline c = false := by simpa [isNewline] using hc
  simp [matchLen, Re.matchAt, reBlankLines, Re.atLeastTwo, Re.seq, Re.cls, hn]

theorem splitLoop_blankLines_of_no_newline (rest before cur : JSString) (h : 10 ∉ rest) :
    splitLoop reBlankLines rest before 0 cur = [cur.reverse ++ rest] := by
  induction rest generalizing before cur with
  | nil => simp [splitLoop]
  | cons x xs ih =>
    simp only [List.mem_cons, not_or] at h
    have hx : x ≠ 10 := fun e => h.1 e.symm
    simp only [splitLoop, blankLines_no_match before x xs hx, ih _ _ h.2]
    simp

theorem regexSplit_blankLines_of_no_newline (s : JSString) (h : 10 ∉ s) :
    regexSplit reBlankLines s = [s] := by
  cases s with
  | nil => rfl
  | cons x xs =>
    simp only [regexSplit]
    rw [splitLoop_blankLines_of_no_newline _ _ _ h]
    rfl

theorem startIndex_singleton (t : JSString) : startIndex [t] = 0 := by
  unfold startIndex
  cases h : isConceptsLine t <;> simp [List.findIdx?_cons, h]

theorem feedbackBlocks_of_no_newline (t : JSString) (h : 10 ∉ t) :
    feedbackBlocks t = filterNonEmpty [trim t] := by
  unfold feedbackBlocks relevantText
  rw [splitOn_of_not_mem 10 t h, startIndex_singleton]
  simp only [List.drop_zero, join]
  rw [regexSplit_blankLines_of_no_newline t h]
  rfl

theorem blockLines_of_single_line (b : JSString) (hnl : 10 ∉ b) (htrim : trim b = b)
    (hne : b ≠ []) : blockLines b = [b] := by
  unfold blockLines
  rw [splitOn_of_not_mem 10 b hnl]
  simp only [List.map_cons, List.map_nil, htrim, filterNonEmpty]
  cases b with
  | nil => exact absurd rfl hne
  | cons x xs => rfl

theorem processBlock_title_only (b : JSString) (i : Nat) (hlines : blockLines b = [b])
    (ht : isTitleLine b = true) : processBlock b i = none := by
  unfold processBlock
  simp only [hlines, List.headD_cons, ht, List.length_singleton]
  rfl

theorem isTitleLine_trim (t : JSString)
    (h : 58 ∈ t ∨ ((∀ c ∈ t, isHeadingChar c = true) ∧ t.length < 100) ∨
      hasPointsFormat t = true)
    (hne : trim t ≠ []) : isTitleLine (trim t) = true := by
  unfold isTitleLine
  rcases h with h | ⟨h1, h2⟩ | h
  · have hm : 58 ∈ trim t := mem_trim_of_not_ws t 58 h rfl
    have : includes (trim t) 58 = true := by
      unfold includes
      rw [List.any_eq_true]
      exact ⟨58, hm, rfl⟩
    rw [this]; rfl
  · have hc : Re.test reAllCaps (trim t) = true :=
      test_allCaps_of_all _ hne (fun x hx => h1 x (mem_of_mem_trim t x hx))
    have hl : decide ((trim t).length < 100) = true := by
      have := length_trim_le t
      simp only [decide_eq_true_eq]
      omega
    rw [hc, hl]
    simp
  · rw [hasPointsFormat_trim t h]
    simp

theorem parseFeedbackText_single_block (t b : JSString) (hb : feedbackBlocks t = [b])
    (hdrop : processBlock b 0 = none) : parseFeedbackText (JSValue.str t) = [] := by
  rw [parseFeedbackText_str]
  split
  · rfl
  · unfold effectiveBlocks
    rw [hb]
    simp only [List.filter]
    split
    · simp [mapIdxFrom, hdrop, filterNotNull]
    · rfl

/-! ## What a returned block was built from -/

theorem blockOfContent_some (title : JSString) (lines : List JSString) (i : Nat)
    (fb : FeedbackBlock) (h : blockOfContent title lines i = some fb) :
    fb.id = i + 1 ∧ fb.title = title ∧ fb.text = cleanBody (trim (join [10] lines)) ∧
    fb.text ≠ [] ∧ stillLooksLikeTitle fb.text = false ∧
    fb.hasBody = (decide (lines.length > 0) && decide ((trim (join [10] lines)).length > 0)) ∧
    fb.isLowInfo = (!fb.hasBody || decide (fb.text.length < 40) || isGeneric fb.text) ∧
    fb.isNegative = isNegative fb.text ∧ fb.isPositive = isPositive fb.text := by
  unfold blockOfContent at h
  simp only [] at h
  split at h
  · cases h
  · next hne =>
    split at h
    · cases h
    · next hst =>
      cases h
      refine ⟨rfl, rfl, rfl, ?_, ?_, rfl, rfl, rfl, rfl⟩
      · intro he
        simp only [] at he
        rw [he] at hne
        exact hne rfl
      · simpa using hst

theorem processBlock_some (b : JSString) (i : Nat) (fb : FeedbackBlock)
    (h : processBlock b i = some fb) :
    (isTitleLine ((blockLines b).headD []) = true ∧ (blockLines b).length > 1 ∧
      blockOfContent ((blockLines b).headD []) ((blockLines b).drop 1) i = some fb) ∨
    (isTitleLine ((blockLines b).headD []) = false ∧ blockOfContent [] (blockLines b) i = some fb) := by
  unfold processBlock at h
  simp only [] at h
  split at h
  · next h1 =>
    simp only [Bool.and_eq_true, decide_eq_true_eq] at h1
    exact Or.inl ⟨h1.1, h1.2, h⟩
  · next h1 =>
    split at h
    · cases h
    · next h2 =>
      refine Or.inr ⟨?_, h⟩
      cases ht : isTitleLine ((blockLines b).headD []) with
      | false => rfl
      | true =>
        exfalso
        simp only [ht, Bool.true_and, decide_eq_true_eq] at h1 h2
        cases hl : blockLines b with
        | nil =>
          rw [hl] at ht
          exact absurd ht (by decide)
        | cons x xs =>
          rw [hl] at h1 h2
          simp only [List.length_cons] at h1 h2
          omega

theorem mem_parseFeedbackText (t : JSString) (fb : FeedbackBlock)
    (h : fb ∈ parseFeedbackText (JSValue.str t)) :
    ∃ b, b ∈ effectiveBlocks t ∧ processBlock b (fb.id - 1) = some fb := by
  rw [parseFeedbackText_str] at h
  split at h
  · simp at h
  · obtain ⟨_, b, hb, hp⟩ := mem_filterNotNull_mapIdxFrom 0 _ fb h
    simp only [Nat.sub_zero] at hb
    exact ⟨b, List.getElem?_mem hb, hp⟩

theorem mem_parseFeedbackText_content (t : JSString) (fb : FeedbackBlock)
    (h : fb ∈ parseFeedbackText (JSValue.str t)) :
    ∃ title lines i, blockOfContent title lines i = some fb := by
  obtain ⟨b, _, hp⟩ := mem_parseFeedbackText t fb h
  rcases processBlock_some b _ fb hp with ⟨_, _, h1⟩ | ⟨_, h1⟩
  · exact ⟨_, _, _, h1⟩
  · exact ⟨_, _, _, h1⟩

/-! ## The start line and the block split -/

theorem parseFeedbackText_eq (t : JSString) :
    parseFeedbackText (JSValue.str t) =
      filterNotNull (mapIdxFrom processBlock 0 (effectiveBlocks t)) := by
  rw [parseFeedbackText_str]
  cases t with
  | nil => rfl
  | cons x xs => rfl

theorem splitOn_append_sep (sep : Nat) (a b : JSString) :
    splitOn sep (a ++ sep :: b) = splitOn sep a ++ splitOn sep b := by
  induction a with
  | nil => simp [splitOn]
  | cons c cs ih =>
    have e : splitOn sep (cs.append (sep :: b)) = splitOn sep cs ++ splitOn sep b := ih
    simp only [List.cons_append, splitOn]
    split
    · rw [e]; rfl
    · rw [e]
      cases hs : splitOn sep cs with
      | nil => exact absurd hs (splitOn_ne_nil _ _)
      | cons h t => rfl

theorem startIndex_append (A B : List JSString) (b : JSString) (tl : List JSString)
    (hA : ∀ l ∈ A, isConceptsLine l = false) (hB : B = b :: tl)
    (hb : isConceptsLine b = true) : startIndex (A ++ B) = A.length := by
  unfold startIndex
  have h1 : A.findIdx? isConceptsLine = none := List.findIdx?_eq_none_iff.mpr hA
  rw [List.findIdx?_append, h1, hB]
  simp [List.findIdx?_cons, hb]

theorem startIndex_of_none (L : List JSString) (h : ∀ l ∈ L, isConceptsLine l = false) :
    startIndex L = 0 := by
  unfold startIndex
  rw [List.findIdx?_eq_none_iff.mpr h]

theorem startIndex_of_head (b : JSString) (tl : List JSString) (hb : isConceptsLine b = true) :
    startIndex (b :: tl) = 0 := by
  unfold startIndex
  simp [List.findIdx?_cons, hb]

theorem relevantText_of_none (t : JSString) (h : ∀ l ∈ splitOn 10 t, isConceptsLine l = false) :
    relevantText t = t := by
  unfold relevantText
  rw [startIndex_of_none _ h, List.drop_zero, join_splitOn]

theorem relevantText_of_head (t : JSString)
    (h : isConceptsLine ((splitOn 10 t).headD []) = true) : relevantText t = t := by
  unfold relevantText
  cases hs : splitOn 10 t with
  | nil => exact absurd hs (splitOn_ne_nil _ _)
  | cons b tl =>
    rw [hs] at h
    rw [startIndex_of_head b tl h, List.drop_zero, ← hs, join_splitOn]

theorem relevantText_preamble (pre rest : JSString)
    (h1 : ∀ l ∈ splitOn 10 pre, isConceptsLine l = false)
    (h2 : isConceptsLine ((splitOn 10 rest).headD []) = true) :
    relevantText (pre ++ 10 :: rest) = rest := by
  unfold relevantText
  rw [splitOn_append_sep]
  cases hs : splitOn 10 rest with
  | nil => exact absurd hs (splitOn_ne_nil _ _)
  | cons b tl =>
    rw [hs] at h2
    rw [startIndex_append _ _ b tl h1 rfl h2, List.drop_left, ← hs, join_splitOn]

theorem parseFeedbackText_congr (t u : JSString) (h : relevantText t = relevantText u) :
    parseFeedbackText (JSValue.str t) = parseFeedbackText (JSValue.str u) := by
  rw [parseFeedbackText_eq, parseFeedbackText_eq]
  unfold effectiveBlocks feedbackBlocks
  rw [h]

theorem join_drop_suffix (sep : JSString) (L : List JSString) (k : Nat) :
    join sep (L.drop k) <:+ join sep L := by
  induction L generalizing k with
  | nil => simp [join]
  | cons x xs ih =>
    cases k with
    | zero => exact List.suffix_refl _
    | succ k =>
      simp only [List.drop_succ_cons]
      cases xs with
      | nil => simp [join]
      | cons y ys =>
        have h := ih k
        simp only [join]
        exact h.trans ⟨x ++ sep, by rw [List.append_assoc]⟩

theorem relevantText_suffix (t : JSString) : relevantText t <:+ t := by
  have h := join_drop_suffix [10] (splitOn 10 t) (startIndex (splitOn 10 t))
  rw [join_splitOn] at h
  exact h

theorem blankLines_match_two (before : JSString) (x : Nat) (xs : JSString) (n : Nat)
    (h : matchLen reBlankLines before (x :: xs) = some n) : x = 10 ∧ xs.head? = some 10 := by
  simp only [matchLen, Re.matchAt, Option.map_eq_some'] at h
  obtain ⟨r, hr, _⟩ := h
  simp only [reBlankLines, Re.atLeastTwo, Re.seq, Re.cls] at hr
  split at hr
  · next hx =>
    split at hr
    · cases hr
    · next y ys =>
      split at hr
      · next hy =>
        simp only [isNewline, beq_iff_eq] at hx hy
        subst hx; subst hy
        exact ⟨rfl, rfl⟩
      · cases hr
  · cases hr

theorem splitLoop_blankLines_of_no_blank (rest before cur : JSString)
    (h : ¬ [10, 10] <:+: rest) :
    splitLoop reBlankLines rest before 0 cur = [cur.reverse ++ rest] := by
  induction rest generalizing before cur with
  | nil => simp [splitLoop]
  | cons x xs ih =>
    have hxs : ¬ [10, 10] <:+: xs := fun hi => h (List.infix_cons hi)
    have hnone : matchLen reBlankLines before (x :: xs) = none := by
      cases hm : matchLen reBlankLines before (x :: xs) with
      | none => rfl
      | some n =>
        exfalso
        obtain ⟨hx, hh⟩ := blankLines_match_two _ _ _ _ hm
        cases xs with
        | nil => cases hh
        | cons y ys =>
          simp only [List.head?_cons, Option.some.injEq] at hh
          subst hx; subst hh
          exact h ⟨[], ys, rfl⟩
    simp only [splitLoop, hnone, ih _ _ hxs]
    simp

theorem regexSplit_blankLines_of_no_blank (s : JSString) (h : ¬ [10, 10] <:+: s) :
    regexSplit reBlankLines s = [s] := by
  cases s with
  | nil => rfl
  | cons x xs =>
    simp only [regexSplit]
    rw [splitLoop_blankLines_of_no_blank _ _ _ h]
    rfl

theorem filterNotNull_length_le {α : Type} (l : List (Option α)) :
    (filterNotNull l).length ≤ l.length := by
  induction l with
  | nil => exact Nat.le_refl _
  | cons x xs ih =>
    cases x with
    | none => simp only [filterNotNull, List.length_cons]; omega
    | some y => simp only [filterNotNull, List.length_cons]; omega

theorem parseFeedbackText_length_le (t : JSString) :
    (parseFeedbackText (JSValue.str t)).length ≤ (feedbackBlocks t).length := by
  rw [parseFeedbackText_eq]
  refine Nat.le_trans (filterNotNull_length_le _) ?_
  rw [mapIdxFrom_length]
  unfold effectiveBlocks
  exact List.length_filter_le _ _

/-! ## The title of a block and the OVERALL SCORE pattern -/

theorem trim_head_not_ws (p : JSString) (c : Nat) (r : JSString) (h : trim p = c :: r) :
    isWhiteSpace c = false := by
  unfold trim at h
  have hh := trimEnd_head _ _ _ h
  cases hs : trimStart p with
  | nil => rw [hs] at hh; cases hh
  | cons d t =>
    rw [hs] at hh
    cases hh
    exact trimStart_head_not_ws p c t hs

theorem mem_feedbackBlocks (t b : JSString) (h : b ∈ feedbackBlocks t) :
    b ≠ [] ∧ ∃ p, p ∈ regexSplit reBlankLines (relevantText t) ∧ b = trim p := by
  unfold feedbackBlocks filterNonEmpty at h
  rw [List.mem_filter, List.mem_map] at h
  obtain ⟨⟨p, hp, rfl⟩, hne⟩ := h
  refine ⟨?_, p, hp, rfl⟩
  intro he
  rw [he] at hne
  cases hne

theorem blockLines_head (c : Nat) (r : JSString) (hc : isWhiteSpace c = false) :
    (blockLines (c :: r)).headD [] = blockFirstLine (c :: r) := by
  have hne : c ≠ 10 := by
    intro e
    subst e
    cases hc
  unfold blockLines blockFirstLine
  simp only [splitOn, hne, if_false]
  cases hs : splitOn 10 r with
  | nil => exact absurd hs (splitOn_ne_nil _ _)
  | cons h tl =>
    simp only [List.map_cons, List.head?_cons, filterNonEmpty]
    have hmem : c ∈ trim (c :: h) := mem_trim_of_not_ws _ c (List.mem_cons_self _ _) hc
    cases ht : trim (c :: h) with
    | nil => rw [ht] at hmem; cases hmem
    | cons y ys => rfl

theorem title_of_mem_parseFeedbackText (t : JSString) (fb : FeedbackBlock)
    (h : fb ∈ parseFeedbackText (JSValue.str t)) :
    ∃ b, b ∈ effectiveBlocks t ∧ (fb.title = [] ∨ fb.title = blockFirstLine b) := by
  obtain ⟨b, hb, hp⟩ := mem_parseFeedbackText t fb h
  refine ⟨b, hb, ?_⟩
  rcases processBlock_some b _ fb hp with ⟨_, _, hc⟩ | ⟨_, hc⟩
  · right
    obtain ⟨_, htitle, _⟩ := blockOfContent_some _ _ _ _ hc
    rw [htitle]
    have hbf : b ∈ feedbackBlocks t := by
      unfold effectiveBlocks at hb
      exact (List.mem_filter.mp hb).1
    obtain ⟨hne, p, _, hbp⟩ := mem_feedbackBlocks t b hbf
    cases hb2 : b with
    | nil => exact absurd hb2 hne
    | cons c r =>
      rw [hb2] at hbp
      exact blockLines_head c r (trim_head_not_ws p c r hbp.symm)
  · left
    exact (blockOfContent_some _ _ _ _ hc).2.1

theorem not_overallScore_of_mem_effectiveBlocks (t b : JSString) (h : b ∈ effectiveBlocks t) :
    Re.test reOverallScore (blockFirstLine b) = false := by
  unfold effectiveBlocks at h
  have hk := (List.mem_filter.mp h).2
  unfold keepBlock at hk
  split at hk
  · cases hk
  · next hn => simpa using hn

theorem lit_match (w m rest : JSString) (prev : Option Nat) (k : Cont)
    (h : m.map canon = w.map canon) :
    Re.lit true w prev (m ++ rest) k = k (lastOr prev m) rest := by
  induction w generalizing m prev with
  | nil =>
    cases m with
    | nil => rfl
    | cons c cs => simp at h
  | cons x xs ih =>
    cases m with
    | nil => simp at h
    | cons c cs =>
      simp only [List.map_cons, List.cons.injEq] at h
      simp only [Re.lit, Re.seq, Re.chr, Re.cls, List.cons_append, if_true, h.1,
        beq_self_eq_true, lastOr]
      exact ih cs (some c) h.2

theorem lastOr_of_getLast (prev : Option Nat) (m : JSString) (c : Nat)
    (h : m.getLast? = some c) : lastOr prev m = some c := by
  induction m generalizing prev with
  | nil => cases h
  | cons x xs ih =>
    cases xs with
    | nil =>
      simp only [List.getLast?_singleton, Option.some.injEq] at h
      subst h
      rfl
    | cons y ys =>
      rw [List.getLast?_cons_cons] at h
      simp only [lastOr]
      exact ih (some x) h

theorem isWordChar_of_canon_E (c : Nat) (h : canon c = 69) : isWordChar c = true := by
  unfold canon at h
  split at h
  · next hc =>
    simp only [Bool.and_eq_true, decide_eq_true_eq] at hc
    have : c = 101 := by omega
    subst this
    rfl
  · subst h
    rfl

theorem test_of_matchAt (r : Re) (s rest : JSString) (h : Re.matchAt r none s = some rest) :
    Re.test r s = true := by
  unfold Re.test
  cases s with
  | nil => simp only [Re.exec, h]; rfl
  | cons x xs => simp only [Re.exec, h]; rfl

theorem test_overallScore_of_begins (s : JSString) (h : beginsWithOverallScore s = true)
    (hb : Re.isWordAt (s.drop 13).head? = false) : Re.test reOverallScore s = true := by
  unfold beginsWithOverallScore at h
  rw [beq_iff_eq] at h
  have hsplit : s = s.take 13 ++ s.drop 13 := (List.take_append_drop 13 s).symm
  have hcanon : (s.take 13).map canon = (js "OVERALL SCORE").map canon := by
    rw [h]
    decide
  have hlast : ((s.take 13).map canon).getLast? = some 69 := by
    rw [h]
    decide
  rw [List.getLast?_map] at hlast
  obtain ⟨c, hc, hc69⟩ := Option.map_eq_some'.mp hlast
  have hm : Re.matchAt reOverallScore none s = some (s.drop 13) := by
    show (if (none : Option Nat).isNone = true then
      Re.lit true (js "OVERALL SCORE") none s (fun p r => Re.wordB p r done) else none) = _
    simp only [Option.isNone_none, if_true]
    rw [show Re.lit true (js "OVERALL SCORE") none s (fun p r => Re.wordB p r done) =
      Re.lit true (js "OVERALL SCORE") none (s.take 13 ++ s.drop 13)
        (fun p r => Re.wordB p r done) from by rw [← hsplit]]
    rw [lit_match _ _ _ _ _ hcanon, lastOr_of_getLast none _ c hc]
    have hb2 : Re.isWordAt (List.drop 13 s).head? = false := hb
    simp only [Re.wordB, hb2]
    simp only [Re.isWordAt, isWordChar_of_canon_E c hc69]
    rfl
  exact test_of_matchAt _ _ _ hm

/-! ## Whitespace normalization of the essay -/

theorem collapse_true_cons_ws (x : Nat) (s : JSString) (hx : isWhiteSpace x = true) :
    collapseWhiteSpace true (x :: s) = collapseWhiteSpace true s := by
  simp [collapseWhiteSpace, hx]

theorem trimStart_collapse_true (s : JSString) :
    trimStart (collapseWhiteSpace true s) = collapseWhiteSpace true s := by
  induction s with
  | nil => rfl
  | cons c cs ih =>
    cases hc : isWhiteSpace c with
    | true => rw [collapse_true_cons_ws c cs hc]; exact ih
    | false => simp [collapseWhiteSpace, hc, trimStart]

theorem trimStart_collapse_false (s : JSString) :
    trimStart (collapseWhiteSpace false s) = collapseWhiteSpace true s := by
  cases s with
  | nil => rfl
  | cons c cs =>
    cases hc : isWhiteSpace c with
    | true =>
      simp only [collapseWhiteSpace, hc, if_true]
      have h32 : isWhiteSpace 32 = true := rfl
      simp only [trimStart, h32, if_true, Bool.false_eq_true, if_false]
      exact trimStart_collapse_true cs
    | false => simp [collapseWhiteSpace, hc, trimStart]

theorem collapsedText_eq (s : JSString) :
    collapsedText s = trimEnd (collapseWhiteSpace true s) := by
  unfold collapsedText trim
  rw [trimStart_collapse_false]

theorem collapse_append_ws (f : Bool) (p : JSString) (x : Nat) (s : JSString)
    (hx : isWhiteSpace x = true) :
    collapseWhiteSpace f (p ++ x :: s) =
      collapseWhiteSpace f (p ++ [x]) ++ collapseWhiteSpace true s := by
  induction p generalizing f with
  | nil => cases f <;> simp [collapseWhiteSpace, hx]
  | cons c cs ih =>
    cases hc : isWhiteSpace c with
    | true => cases f <;> simp [collapseWhiteSpace, hc, ih]
    | false => simp [collapseWhiteSpace, hc, ih]

theorem trimEnd_append (A B : JSString) :
    trimEnd (A ++ B) = if trimEnd B = [] then trimEnd A else A ++ trimEnd B := by
  induction A with
  | nil =>
    simp only [List.nil_append]
    split
    · next h => rw [h]; rfl
    · rfl
  | cons a as ih =>
    rw [List.cons_append]
    by_cases hB : trimEnd B = []
    · rw [if_pos hB] at ih ⊢
      simp only [trimEnd, ih]
    · rw [if_neg hB] at ih ⊢
      rw [trimEnd_cons_of_ne_nil a _ (by rw [ih]; cases as <;> simp [hB]), ih]
      rfl

theorem collapse_concat_ws (f : Bool) (p : JSString) (x : Nat) (hx : isWhiteSpace x = true) :
    collapseWhiteSpace f (p ++ [x]) =
      if trimEnd (collapseWhiteSpace f p) = [] then (if f then [] else [32])
      else trimEnd (collapseWhiteSpace f p) ++ [32] := by
  have h32 : isWhiteSpace 32 = true := rfl
  induction p generalizing f with
  | nil => cases f <;> simp [collapseWhiteSpace, hx, trimEnd]
  | cons c cs ih =>
    cases hc : isWhiteSpace c with
    | true =>
      have iht : collapseWhiteSpace true (cs.append [x]) =
          if trimEnd (collapseWhiteSpace true cs) = [] then (if true = true then [] else [32])
          else trimEnd (collapseWhiteSpace true cs) ++ [32] := ih true
      cases f with
      | true =>
        simp only [List.cons_append, collapseWhiteSpace, hc, if_true]
        exact iht
      | false =>
        simp only [List.cons_append, collapseWhiteSpace, hc, if_true, Bool.false_eq_true,
          if_false]
        rw [iht]
        by_cases he : trimEnd (collapseWhiteSpace true cs) = []
        · simp [he, trimEnd, h32]
        · rw [if_neg he, trimEnd_cons_of_ne_nil 32 _ he]
          simp
    | false =>
      have ihf : collapseWhiteSpace false (cs.append [x]) =
          if trimEnd (collapseWhiteSpace false cs) = [] then (if false = true then [] else [32])
          else trimEnd (collapseWhiteSpace false cs) ++ [32] := ih false
      simp only [List.cons_append, collapseWhiteSpace, hc, Bool.false_eq_true, if_false]
      rw [ihf]
      by_cases he : trimEnd (collapseWhiteSpace false cs) = []
      · simp [he, trimEnd, hc]
      · rw [if_neg he, trimEnd_cons_of_ne_nil c _ he]
        simp

theorem collapsedText_nil : collapsedText [] = [] := rfl

theorem collapsedText_append_ws (p : JSString) (x : Nat) (s : JSString)
    (hx : isWhiteSpace x = true) :
    collapsedText (p ++ x :: s) = spaceJoin (collapsedText p) (collapsedText s) := by
  have h32 : trimEnd [32] = [] := rfl
  rw [collapsedText_eq, collapsedText_eq, collapsedText_eq, collapse_append_ws true p x s hx,
    trimEnd_append, collapse_concat_ws true p x hx]
  unfold spaceJoin
  by_cases hp : trimEnd (collapseWhiteSpace true p) = []
  · simp only [hp, if_true, List.isEmpty_nil, List.nil_append]
    split
    · next hs => rw [hs]; rfl
    · rfl
  · have hpe : (trimEnd (collapseWhiteSpace true p)).isEmpty = false := by
      cases h : trimEnd (collapseWhiteSpace true p) with
      | nil => exact absurd h hp
      | cons a b => rfl
    simp only [hp, if_false, hpe, Bool.false_eq_true]
    by_cases hs : trimEnd (collapseWhiteSpace true s) = []
    · simp only [hs, if_true, List.isEmpty_nil]
      rw [trimEnd_append, h32, if_pos rfl, trimEnd_idem]
    · have hse : (trimEnd (collapseWhiteSpace true s)).isEmpty = false := by
        cases h : trimEnd (collapseWhiteSpace true s) with
        | nil => exact absurd h hs
        | cons a b => rfl
      simp only [hs, if_false, hse, Bool.false_eq_true]
      simp

theorem spaceJoin_nil_left (b : JSString) : spaceJoin [] b = b := rfl

theorem spaceJoin_nil_right (a : JSString) : spaceJoin a [] = a := by
  cases a <;> rfl

theorem collapsedText_cons_ws (x : Nat) (s : JSString) (hx : isWhiteSpace x = true) :
    collapsedText (x :: s) = collapsedText s := by
  have h := collapsedText_append_ws [] x s hx
  rw [collapsedText_nil, spaceJoin_nil_left] at h
  exact h

theorem collapsedText_concat_ws (s : JSString) (x : Nat) (hx : isWhiteSpace x = true) :
    collapsedText (s ++ [x]) = collapsedText s := by
  have h := collapsedText_append_ws s x [] hx
  rw [collapsedText_nil, spaceJoin_nil_right] at h
  exact h

theorem collapsedText_drop_leading (w s : JSString) (hw : ∀ c ∈ w, isWhiteSpace c = true) :
    collapsedText (w ++ s) = collapsedText s := by
  induction w with
  | nil => rfl
  | cons x xs ih =>
    rw [List.cons_append, collapsedText_cons_ws x _ (hw x (List.mem_cons_self _ _))]
    exact ih (fun c hc => hw c (List.mem_cons_of_mem _ hc))

theorem collapsedText_drop_trailing (s w : JSString) (hw : ∀ c ∈ w, isWhiteSpace c = true) :
    collapsedText (s ++ w) = collapsedText s := by
  induction w generalizing s with
  | nil => simp
  | cons x xs ih =>
    have e : s ++ x :: xs = (s ++ [x]) ++ xs := by simp
    rw [e, ih (s ++ [x]) (fun c hc => hw c (List.mem_cons_of_mem _ hc)),
      collapsedText_concat_ws s x (hw x (List.mem_cons_self _ _))]

theorem collapsedText_trim (p : JSString) : collapsedText (trim p) = collapsedText p := by
  obtain ⟨w1, w2, hs, h1, h2⟩ := trim_decomp p
  have e : collapsedText p = collapsedText (w1 ++ (trim p ++ w2)) := by rw [← hs]
  rw [e, collapsedText_drop_leading w1 _ h1, collapsedText_drop_trailing _ w2 h2]

theorem collapsedText_of_trim_nil (p : JSString) (h : trim p = []) : collapsedText p = [] := by
  rw [← collapsedText_trim, h]
  rfl

theorem normJoin_nil : normJoin [] = [] := rfl

theorem normJoin_cons (p : JSString) (L : List JSString) :
    normJoin (p :: L) = spaceJoin (collapsedText p) (normJoin L) := by
  unfold normJoin
  simp only [List.map_cons, filterNonEmpty]
  cases hp : trim p with
  | nil =>
    rw [collapsedText_of_trim_nil p hp, spaceJoin_nil_left]
    rfl
  | cons a b =>
    have hf : List.filter (fun s => !s.isEmpty) ((a :: b) :: List.map trim L) =
        (a :: b) :: List.filter (fun s => !s.isEmpty) (List.map trim L) := by
      simp [List.filter]
    rw [hf, ← hp]
    cases hF : List.filter (fun s => !s.isEmpty) (List.map trim L) with
    | nil =>
      simp only [join]
      rw [collapsedText_trim, collapsedText_nil, spaceJoin_nil_right]
    | cons y ys =>
      simp only [join]
      have e : trim p ++ [32] ++ join [32] (y :: ys) = trim p ++ 32 :: join [32] (y :: ys) := by
        simp
      rw [e, collapsedText_append_ws _ 32 _ rfl, collapsedText_trim]

/-! ## The normalized essay is the collapsed text -/

theorem newlines_matchLen (before : JSString) (x : Nat) (xs : JSString) (n : Nat)
    (h : matchLen reNewlines before (x :: xs) = some n) :
    ∃ k, n = k + 1 ∧ isWhiteSpace x = true ∧ ∀ c ∈ xs.take k, isWhiteSpace c = true := by
  simp only [matchLen, Re.matchAt, Option.map_eq_some'] at h
  obtain ⟨r, hr, hn⟩ := h
  simp only [reNewlines, Re.plus, Re.seq, Re.cls] at hr
  split at hr
  · next hx =>
    obtain ⟨m, prev2, hm, hall, hk⟩ := star_some _ _ _ _ _ hr
    simp only [done, Option.some.injEq] at hk
    have hlen : (List.drop m xs).length = xs.length - m := List.length_drop _ _
    refine ⟨m, ?_, ?_, ?_⟩
    · rw [← hn, ← hk, hlen]
      simp only [List.length_cons]
      omega
    · simp only [isNewline, beq_iff_eq] at hx
      subst hx
      rfl
    · intro c hc
      have := hall c hc
      simp only [isNewline, beq_iff_eq] at this
      subst this
      rfl
  · cases hr

theorem splitLoop_newlines_norm (rest before : JSString) (skip : Nat) (cur : JSString)
    (hskip : ∀ c ∈ rest.take skip, isWhiteSpace c = true) (hcur : 0 < skip → cur = []) :
    normJoin (splitLoop reNewlines rest before skip cur) = collapsedText (cur.reverse ++ rest) := by
  induction rest generalizing before skip cur with
  | nil =>
    simp only [splitLoop, List.append_nil]
    rw [normJoin_cons, normJoin_nil, spaceJoin_nil_right]
  | cons x xs ih =>
    cases skip with
    | succ k =>
      have hc := hcur (Nat.succ_pos k)
      subst hc
      simp only [splitLoop, List.reverse_nil, List.nil_append]
      rw [ih (x :: before) k [] (fun c hc => hskip c (by simp [List.take_succ_cons, hc]))
        (fun _ => rfl)]
      rw [collapsedText_cons_ws x xs (hskip x (by simp))]
      rfl
    | zero =>
      simp only [splitLoop]
      split
      · next k hk =>
        obtain ⟨k2, hk2, hx, hall⟩ := newlines_matchLen _ _ _ _ hk
        have e : k2 = k := by omega
        subst e
        rw [normJoin_cons, ih (x :: before) k2 [] hall (fun _ => rfl)]
        rw [collapsedText_append_ws _ x xs hx]
        rfl
      · next hk =>
        obtain ⟨k2, hk2, _, _⟩ := newlines_matchLen _ _ _ _ hk
        omega
      · rw [ih (x :: before) 0 (x :: cur) (by simp) (fun h => absurd h (Nat.lt_irrefl 0))]
        simp

theorem normalizeEssay_eq_collapsedText (t : JSString) : normalizeEssay t = collapsedText t := by
  have h : normalizeEssay t = normJoin (regexSplit reNewlines t) := rfl
  rw [h]
  cases t with
  | nil => rfl
  | cons x xs =>
    simp only [regexSplit]
    rw [splitLoop_newlines_norm (x :: xs) [] 0 [] (by simp) (fun h => absurd h (Nat.lt_irrefl 0))]
    rfl

theorem collapse_replaceNewlines (f : Bool) (t : JSString) :
    collapseWhiteSpace f (replaceNewlines t) = collapseWhiteSpace f t := by
  induction t generalizing f with
  | nil => rfl
  | cons c cs ih =>
    have ih2 : ∀ g, collapseWhiteSpace g (List.map (fun c => if c = 10 then 32 else c) cs) =
        collapseWhiteSpace g cs := ih
    by_cases hc : c = 10
    · subst hc
      have h10 : isWhiteSpace 10 = true := rfl
      have h32 : isWhiteSpace 32 = true := rfl
      simp only [replaceNewlines, List.map_cons, if_true, collapseWhiteSpace, h10, h32, ih2]
    · simp only [replaceNewlines, List.map_cons, hc, if_false, collapseWhiteSpace, ih2]

theorem parseEssayText_of_collapsedText (t : JSString) :
    parseEssayText (JSValue.str t) =
      if (collapsedText t).isEmpty then EssayResult.mk []
      else EssayResult.mk
        (mapIdxFrom (fun s index => EssaySegment.mk (index + 1) s (colorAt index)) 0
          (essaySentences (collapsedText t))) := by
  rw [parseEssayText_str, normalizeEssay_eq_collapsedText]
  cases t with
  | nil => rfl
  | cons x xs => rfl

/-! ## Lines without surrounding whitespace -/

theorem trimStart_trimStart (s : JSString) : trimStart (trimStart s) = trimStart s := by
  induction s with
  | nil => rfl
  | cons c cs ih =>
    cases hc : isWhiteSpace c with
    | true => simp only [trimStart, hc, if_true]; exact ih
    | false => simp [trimStart, hc]

theorem trimStart_of_head_not_ws (c : Nat) (r : JSString) (hc : isWhiteSpace c = false) :
    trimStart (c :: r) = c :: r := by
  simp [trimStart, hc]

theorem length_trimEnd_le (s : JSString) : (trimEnd s).length ≤ s.length := by
  obtain ⟨w, hw, _⟩ := trimEnd_decomp s
  have h := congrArg List.length hw
  simp only [List.length_append] at h
  omega

theorem trimEnd_of_append_fixed (A B : JSString) (h : trimEnd (A ++ B) = A ++ B) :
    trimEnd B = B := by
  rw [trimEnd_append] at h
  split at h
  · next hB =>
    have hl := congrArg List.length h
    have hle := length_trimEnd_le A
    simp only [List.length_append] at hl
    have hB0 : B = [] := List.eq_nil_of_length_eq_zero (by omega)
    rw [hB0]
    rfl
  · exact List.append_cancel_left h

theorem lineOK_of_trim (x : JSString) (hne : trim x ≠ []) (hnl : 10 ∉ x) : LineOK (trim x) := by
  cases ht : trim x with
  | nil => exact absurd ht hne
  | cons c r =>
    have hc := trim_head_not_ws x c r ht
    have hs : trimStart (c :: r) = c :: r := trimStart_of_head_not_ws c r hc
    have hi := trim_idem x
    rw [ht] at hi
    unfold trim at hi
    rw [hs] at hi
    refine ⟨by simp, hs, hi, ?_⟩
    intro hm
    rw [← ht] at hm
    exact hnl (mem_of_mem_trim x 10 hm)

theorem star_ws_done (prev : Option Nat) (s : JSString) :
    Re.star isWhiteSpace prev s done = some (trimStart s) := by
  induction s generalizing prev with
  | nil => rfl
  | cons x xs ih =>
    cases hx : isWhiteSpace x with
    | true => simp only [Re.star, hx, if_true, ih, trimStart]
    | false => simp [Re.star, hx, trimStart, done]

theorem stripListMarker_cons (c : Nat) (cs : JSString) :
    stripListMarker (c :: cs) = if (c == 45 || c == 42) = true then trimStart cs else c :: cs := by
  unfold stripListMarker
  simp only [Re.matchAt, reListMarker, Re.seq, Re.bol, Re.cls, Option.isNone_none, if_true]
  by_cases h : (c == 45 || c == 42) = true
  · simp only [h, if_true, star_ws_done]
  · simp only [h, if_false]
    rfl

theorem stripListMarker_nil : stripListMarker [] = [] := rfl

theorem stripListMarker_spec (l : JSString) :
    stripListMarker l = l ∨
    ∃ m w, (m = 45 ∨ m = 42) ∧ (∀ c ∈ w, isWhiteSpace c = true) ∧
      l = m :: (w ++ stripListMarker l) := by
  cases l with
  | nil => exact Or.inl rfl
  | cons c cs =>
    rw [stripListMarker_cons]
    split
    · next h =>
      right
      obtain ⟨w, hw, hall⟩ := trimStart_decomp cs
      refine ⟨c, w, ?_, hall, by rw [← hw]⟩
      simpa using h
    · exact Or.inl rfl

theorem stripListMarker_suffix (l : JSString) : stripListMarker l <:+ l := by
  rcases stripListMarker_spec l with h | ⟨m, w, _, _, h⟩
  · rw [h]
  · exact ⟨m :: w, by simpa using h.symm⟩

theorem lineOK_stripListMarker (l : JSString) (hl : LineOK l) (hne : stripListMarker l ≠ []) :
    LineOK (stripListMarker l) := by
  obtain ⟨_, hs, he, hnl⟩ := hl
  cases l with
  | nil => exact absurd rfl hne
  | cons c cs =>
    rw [stripListMarker_cons] at hne ⊢
    split
    · next hm =>
      rw [if_pos hm] at hne
      have hcs : trimEnd cs = cs := trimEnd_of_append_fixed [c] cs he
      obtain ⟨w, hw, _⟩ := trimStart_decomp cs
      have hfix : trimEnd (w ++ trimStart cs) = w ++ trimStart cs := by rw [← hw]; exact hcs
      refine ⟨hne, trimStart_trimStart cs, trimEnd_of_append_fixed w _ hfix, ?_⟩
      intro h10
      apply hnl
      rw [hw]
      simp [h10]
    · exact ⟨by simp, hs, he, hnl⟩

theorem trimEnd_join (Q : List JSString) (hQ : ∀ q ∈ Q, LineOK q) :
    trimEnd (join [10] Q) = join [10] Q := by
  induction Q with
  | nil => rfl
  | cons q r ih =>
    cases r with
    | nil => exact (hQ q (List.mem_cons_self _ _)).2.2.1
    | cons q2 r2 =>
      have ih2 := ih (fun x hx => hQ x (List.mem_cons_of_mem _ hx))
      have hq2 := hQ q2 (List.mem_cons_of_mem _ (List.mem_cons_self _ _))
      have hJ : join [10] (q2 :: r2) ≠ [] := by
        cases q2 with
        | nil => exact absurd rfl hq2.1
        | cons a b => cases r2 <;> simp [join]
      simp only [join]
      rw [List.append_assoc, trimEnd_append, trimEnd_append, ih2]
      simp [hJ]

theorem trim_join (Q : List JSString) (hQ : ∀ q ∈ Q, LineOK q) :
    trim (join [10] Q) = join [10] Q := by
  unfold trim
  cases Q with
  | nil => rfl
  | cons q r =>
    have hq := hQ q (List.mem_cons_self _ _)
    have hs : trimStart (join [10] (q :: r)) = join [10] (q :: r) := by
      cases q with
      | nil => exact absurd rfl hq.1
      | cons a b =>
        have ha : isWhiteSpace a = false := by
          have := hq.2.1
          cases hw : isWhiteSpace a with
          | false => rfl
          | true =>
            exfalso
            simp only [trimStart, hw, if_true] at this
            have hl := congrArg List.length this
            obtain ⟨w, hw2, _⟩ := trimStart_decomp b
            have hl2 := congrArg List.length hw2
            simp only [List.length_append, List.length_cons] at hl hl2
            omega
        cases r with
        | nil => simp [join, trimStart, ha]
        | cons q2 r2 => simp [join, trimStart, ha]
    rw [hs]
    exact trimEnd_join _ hQ

theorem splitOn_join (Q : List JSString) (hne : Q ≠ []) (hQ : ∀ q ∈ Q, 10 ∉ q) :
    splitOn 10 (join [10] Q) = Q := by
  induction Q with
  | nil => exact absurd rfl hne
  | cons q r ih =>
    cases r with
    | nil => exact splitOn_of_not_mem 10 q (hQ q (List.mem_cons_self _ _))
    | cons q2 r2 =>
      have ih2 := ih (by simp) (fun x hx => hQ x (List.mem_cons_of_mem _ hx))
      simp only [join]
      have e : q ++ [10] ++ join [10] (q2 :: r2) = q ++ 10 :: join [10] (q2 :: r2) := by simp
      rw [e, splitOn_append_sep, ih2, splitOn_of_not_mem 10 q (hQ q (List.mem_cons_self _ _))]
      rfl

theorem not_mem_of_mem_splitOn (sep : Nat) (s l : JSString) (h : l ∈ splitOn sep s) :
    sep ∉ l := by
  induction s generalizing l with
  | nil =>
    simp only [splitOn, List.mem_singleton] at h
    subst h
    simp
  | cons x xs ih =>
    simp only [splitOn] at h
    split at h
    · simp only [List.mem_cons] at h
      rcases h with h | h
      · subst h; simp
      · exact ih l h
    · next hx =>
      cases hs : splitOn sep xs with
      | nil => exact absurd hs (splitOn_ne_nil _ _)
      | cons a b =>
        rw [hs] at h ih
        simp only [List.mem_cons] at h
        rcases h with h | h
        · subst h
          simp only [List.mem_cons, not_or]
          exact ⟨fun e => hx e.symm, ih a (List.mem_cons_self _ _)⟩
        · exact ih l (List.mem_cons_of_mem _ h)

theorem lineOK_of_mem_blockLines (b l : JSString) (h : l ∈ blockLines b) : LineOK l := by
  unfold blockLines filterNonEmpty at h
  rw [List.mem_filter, List.mem_map] at h
  obtain ⟨⟨x, hx, rfl⟩, hne⟩ := h
  apply lineOK_of_trim x
  · intro he
    rw [he] at hne
    cases hne
  · exact not_mem_of_mem_splitOn 10 b x hx

/-! ## The text of a returned block, line by line -/

theorem trim_of_lineOK (l : JSString) (h : LineOK l) : trim l = l := by
  unfold trim
  rw [h.2.1, h.2.2.1]

theorem lineOK_of_mem_cleanedLines (lines : List JSString) (hl : ∀ l ∈ lines, LineOK l)
    (q : JSString) (hq : q ∈ cleanedLines lines) : LineOK q := by
  unfold cleanedLines at hq
  rw [List.mem_filter, List.mem_map] at hq
  obtain ⟨⟨l, hlm, rfl⟩, hne⟩ := hq
  apply lineOK_stripListMarker l (hl l hlm)
  intro he
  rw [he] at hne
  simp at hne

theorem cleanBody_of_lines (lines : List JSString) (hl : ∀ l ∈ lines, LineOK l) :
    cleanBody (trim (join [10] lines)) = join [10] (cleanedLines lines) := by
  cases hlines : lines with
  | nil => rfl
  | cons a r =>
    rw [← hlines]
    have hne : lines ≠ [] := by rw [hlines]; simp
    rw [trim_join lines hl]
    unfold cleanBody
    rw [splitOn_join lines hne (fun q hq => (hl q hq).2.2.2)]
    have hm : lines.map (fun line => stripListMarker (trim line)) = lines.map stripListMarker := by
      apply List.map_congr_left
      intro l hlm
      rw [trim_of_lineOK l (hl l hlm)]
    rw [hm]
    exact trim_join _ (lineOK_of_mem_cleanedLines lines hl)

theorem text_of_blockOfContent (title : JSString) (lines : List JSString) (i : Nat)
    (fb : FeedbackBlock) (h : blockOfContent title lines i = some fb)
    (hl : ∀ l ∈ lines, LineOK l) :
    fb.text = join [10] (cleanedLines lines) ∧ cleanedLines lines ≠ [] ∧
    splitOn 10 fb.text = cleanedLines lines := by
  obtain ⟨_, _, htext, hne, _⟩ := blockOfContent_some _ _ _ _ h
  rw [cleanBody_of_lines lines hl] at htext
  have hQ : cleanedLines lines ≠ [] := by
    intro he
    rw [he] at htext
    exact hne htext
  refine ⟨htext, hQ, ?_⟩
  rw [htext]
  exact splitOn_join _ hQ (fun q hq => (lineOK_of_mem_cleanedLines lines hl q hq).2.2.2)

theorem content_of_mem_parseFeedbackText (t : JSString) (fb : FeedbackBlock)
    (h : fb ∈ parseFeedbackText (JSValue.str t)) :
    ∃ b lines, b ∈ effectiveBlocks t ∧ List.Sublist lines (blockLines b) ∧
      (fb.title = [] ∨ fb.title ∈ blockLines b) ∧
      fb.text = join [10] (cleanedLines lines) ∧ cleanedLines lines ≠ [] ∧
      splitOn 10 fb.text = cleanedLines lines ∧ ∀ q ∈ cleanedLines lines, LineOK q := by
  obtain ⟨b, hb, hp⟩ := mem_parseFeedbackText t fb h
  have hall : ∀ l ∈ blockLines b, LineOK l := fun l hl => lineOK_of_mem_blockLines b l hl
  rcases processBlock_some b _ fb hp with ⟨_, hlen, hc⟩ | ⟨_, hc⟩
  · have hsub : List.Sublist ((blockLines b).drop 1) (blockLines b) := List.drop_sublist _ _
    have hl : ∀ l ∈ (blockLines b).drop 1, LineOK l := fun l hl => hall l (hsub.subset hl)
    obtain ⟨h1, h2, h3⟩ := text_of_blockOfContent _ _ _ _ hc hl
    refine ⟨b, _, hb, hsub, Or.inr ?_, h1, h2, h3, lineOK_of_mem_cleanedLines _ hl⟩
    rw [(blockOfContent_some _ _ _ _ hc).2.1]
    cases hbl : blockLines b with
    | nil => rw [hbl] at hlen; simp at hlen
    | cons x xs => simp
  · obtain ⟨h1, h2, h3⟩ := text_of_blockOfContent _ _ _ _ hc hall
    exact ⟨b, _, hb, List.Sublist.refl _, Or.inl (blockOfContent_some _ _ _ _ hc).2.1, h1, h2, h3,
      lineOK_of_mem_cleanedLines _ hall⟩

theorem trimEnd_last_not_ws (s : JSString) (c : Nat) (h : (trimEnd s).getLast? = some c) :
    isWhiteSpace c = false := by
  induction s with
  | nil => cases h
  | cons x xs ih =>
    cases hr : trimEnd xs with
    | nil =>
      simp only [trimEnd, hr] at h
      split at h
      · cases h
      · next hx =>
        simp only [List.getLast?_singleton, Option.some.injEq] at h
        subst h
        simpa using hx
    | cons a b =>
      rw [trimEnd_cons_of_ne_nil x xs (by rw [hr]; simp), hr, List.getLast?_cons_cons, ← hr] at h
      exact ih h

/-! ## The lines of a block are lines of the text -/

theorem blockLines_nil : blockLines [] = [] := rfl

theorem blockLines_append_sep (a b : JSString) :
    blockLines (a ++ 10 :: b) = blockLines a ++ blockLines b := by
  unfold blockLines filterNonEmpty
  rw [splitOn_append_sep, List.map_append, List.filter_append]

theorem trimStart_cons_ws (x : Nat) (s : JSString) (hx : isWhiteSpace x = true) :
    trimStart (x :: s) = trimStart s := by
  simp [trimStart, hx]

theorem blockLines_cons_ws (x : Nat) (u : JSString) (hx : isWhiteSpace x = true) :
    blockLines (x :: u) = blockLines u := by
  by_cases h10 : x = 10
  · subst h10
    have h := blockLines_append_sep [] u
    rw [List.nil_append, blockLines_nil, List.nil_append] at h
    exact h
  · unfold blockLines
    simp only [splitOn, h10, if_false]
    cases hs : splitOn 10 u with
    | nil => exact absurd hs (splitOn_ne_nil _ _)
    | cons a r =>
      simp only [List.map_cons]
      have e : trim (x :: a) = trim a := by
        unfold trim
        rw [trimStart_cons_ws x a hx]
      rw [e]

theorem splitOn_concat (sep x : Nat) (u : JSString) (hx : x ≠ sep) :
    ∃ init last, splitOn sep u = init ++ [last] ∧
      splitOn sep (u ++ [x]) = init ++ [last ++ [x]] := by
  induction u with
  | nil => exact ⟨[], [], rfl, by simp [splitOn, hx]⟩
  | cons c cs ih =>
    obtain ⟨init, last, h1, h2⟩ := ih
    have h2b : splitOn sep (cs.append [x]) = init ++ [last ++ [x]] := h2
    by_cases hc : c = sep
    · refine ⟨[] :: init, last, ?_, ?_⟩
      · simp only [splitOn, hc, if_true, h1, List.cons_append]
      · simp only [List.cons_append, splitOn, hc, if_true, h2b]
    · cases init with
      | nil =>
        refine ⟨[], c :: last, ?_, ?_⟩
        · simp only [splitOn, hc, if_false, h1, List.nil_append]
        · simp only [List.cons_append, splitOn, hc, if_false, h2b, List.nil_append]
      | cons i0 ir =>
        refine ⟨(c :: i0) :: ir, last, ?_, ?_⟩
        · simp only [splitOn, hc, if_false, h1, List.cons_append]
        · simp only [List.cons_append, splitOn, hc, if_false, h2b]

theorem trimStart_concat_ws (s : JSString) (x : Nat) (hx : isWhiteSpace x = true) :
    trimStart (s ++ [x]) = if trimStart s = [] then [] else trimStart s ++ [x] := by
  induction s with
  | nil => simp [trimStart, hx]
  | cons c cs ih =>
    cases hc : isWhiteSpace c with
    | true =>
      simp only [List.cons_append, trimStart, hc, if_true]
      exact ih
    | false => simp [trimStart, hc]

theorem trim_concat_ws (s : JSString) (x : Nat) (hx : isWhiteSpace x = true) :
    trim (s ++ [x]) = trim s := by
  unfold trim
  rw [trimStart_concat_ws s x hx]
  split
  · next h => rw [h]
  · have hx1 : trimEnd [x] = [] := by simp [trimEnd, hx]
    rw [trimEnd_append, hx1, if_pos rfl]

theorem blockLines_concat_ws (u : JSString) (x : Nat) (hx : isWhiteSpace x = true) :
    blockLines (u ++ [x]) = blockLines u := by
  by_cases h10 : x = 10
  · subst h10
    have h := blockLines_append_sep u []
    rw [blockLines_nil, List.append_nil] at h
    exact h
  · obtain ⟨init, last, h1, h2⟩ := splitOn_concat 10 x u h10
    unfold blockLines filterNonEmpty
    rw [h1, h2]
    simp only [List.map_append, List.map_cons, List.map_nil, trim_concat_ws last x hx]

theorem blockLines_drop_leading (w s : JSString) (hw : ∀ c ∈ w, isWhiteSpace c = true) :
    blockLines (w ++ s) = blockLines s := by
  induction w with
  | nil => rfl
  | cons x xs ih =>
    rw [List.cons_append, blockLines_cons_ws x _ (hw x (List.mem_cons_self _ _))]
    exact ih (fun c hc => hw c (List.mem_cons_of_mem _ hc))

theorem blockLines_drop_trailing (s w : JSString) (hw : ∀ c ∈ w, isWhiteSpace c = true) :
    blockLines (s ++ w) = blockLines s := by
  induction w generalizing s with
  | nil => simp
  | cons x xs ih =>
    have e : s ++ x :: xs = (s ++ [x]) ++ xs := by simp
    rw [e, ih (s ++ [x]) (fun c hc => hw c (List.mem_cons_of_mem _ hc)),
      blockLines_concat_ws s x (hw x (List.mem_cons_self _ _))]

theorem blockLines_trim (p : JSString) : blockLines (trim p) = blockLines p := by
  obtain ⟨w1, w2, hs, h1, h2⟩ := trim_decomp p
  have e : blockLines p = blockLines (w1 ++ (trim p ++ w2)) := by rw [← hs]
  rw [e, blockLines_drop_leading w1 _ h1, blockLines_drop_trailing _ w2 h2]

theorem blankLines_matchLen (before : JSString) (x : Nat) (xs : JSString) (n : Nat)
    (h : matchLen reBlankLines before (x :: xs) = some n) :
    ∃ k, n = k + 1 ∧ x = 10 ∧ ∀ c ∈ xs.take k, c = 10 := by
  simp only [matchLen, Re.matchAt, Option.map_eq_some'] at h
  obtain ⟨r, hr, hn⟩ := h
  simp only [reBlankLines, Re.atLeastTwo, Re.seq, Re.cls] at hr
  split at hr
  · next hx =>
    split at hr
    · cases hr
    · next y ys =>
      split at hr
      · next hy =>
        obtain ⟨m, prev2, hm, hall, hk⟩ := star_some _ _ _ _ _ hr
        simp only [done, Option.some.injEq] at hk
        have hlen : (List.drop m ys).length = ys.length - m := List.length_drop _ _
        simp only [isNewline, beq_iff_eq] at hx hy
        refine ⟨m + 1, ?_, hx, ?_⟩
        · rw [← hn, ← hk, hlen]
          simp only [List.length_cons]
          omega
        · intro c hc
          simp only [List.take_succ_cons, List.mem_cons] at hc
          rcases hc with hc | hc
          · rw [hc]; exact hy
          · have := hall c hc
            simpa [isNewline] using this
      · cases hr
  · cases hr

theorem splitLoop_blankLines_lines (rest before : JSString) (skip : Nat) (cur : JSString)
    (hskip : ∀ c ∈ rest.take skip, c = 10) (hcur : 0 < skip → cur = []) :
    (splitLoop reBlankLines rest before skip cur).flatMap blockLines =
      blockLines (cur.reverse ++ rest) := by
  induction rest generalizing before skip cur with
  | nil => simp [splitLoop]
  | cons x xs ih =>
    cases skip with
    | succ k =>
      have hc := hcur (Nat.succ_pos k)
      subst hc
      have hx : x = 10 := hskip x (by simp)
      simp only [splitLoop, List.reverse_nil, List.nil_append]
      rw [ih (x :: before) k [] (fun c hc => hskip c (by simp [List.take_succ_cons, hc]))
        (fun _ => rfl)]
      rw [hx, blockLines_cons_ws 10 xs rfl]
      rfl
    | zero =>
      simp only [splitLoop]
      split
      · next k hk =>
        obtain ⟨k2, hk2, hx, hall⟩ := blankLines_matchLen _ _ _ _ hk
        have e : k2 = k := by omega
        subst e
        rw [List.flatMap_cons, ih (x :: before) k2 [] hall (fun _ => rfl), hx,
          blockLines_append_sep]
        rfl
      · next hk =>
        obtain ⟨k2, hk2, _, _⟩ := blankLines_matchLen _ _ _ _ hk
        omega
      · rw [ih (x :: before) 0 (x :: cur) (by simp) (fun h => absurd h (Nat.lt_irrefl 0))]
        simp

theorem regexSplit_blankLines_lines (s : JSString) :
    (regexSplit reBlankLines s).flatMap blockLines = blockLines s := by
  cases s with
  | nil => rfl
  | cons x xs =>
    simp only [regexSplit]
    rw [splitLoop_blankLines_lines (x :: xs) [] 0 [] (by simp)
      (fun h => absurd h (Nat.lt_irrefl 0))]
    rfl

theorem flatMap_blockLines_trimmed (P : List JSString) :
    (filterNonEmpty (P.map trim)).flatMap blockLines = P.flatMap blockLines := by
  induction P with
  | nil => rfl
  | cons p r ih =>
    simp only [List.map_cons, List.flatMap_cons]
    unfold filterNonEmpty at ih ⊢
    cases hp : trim p with
    | nil =>
      have e : blockLines p = [] := by rw [← blockLines_trim, hp]; rfl
      rw [e, List.nil_append]
      simpa [List.filter] using ih
    | cons a b =>
      have hf : List.filter (fun s => !s.isEmpty) ((a :: b) :: List.map trim r) =
          (a :: b) :: List.filter (fun s => !s.isEmpty) (List.map trim r) := by
        simp [List.filter]
      rw [hf, List.flatMap_cons, ih, ← hp, blockLines_trim]

theorem feedbackBlocks_lines (t : JSString) :
    (feedbackBlocks t).flatMap blockLines = blockLines (relevantText t) := by
  unfold feedbackBlocks
  rw [flatMap_blockLines_trimmed, regexSplit_blankLines_lines]

theorem blockLines_relevantText_sublist (t : JSString) :
    List.Sublist (blockLines (relevantText t)) ((splitOn 10 t).map trim) := by
  unfold relevantText
  cases hd : (splitOn 10 t).drop (startIndex (splitOn 10 t)) with
  | nil => exact List.nil_sublist _
  | cons a r =>
    rw [← hd]
    have hsub : List.Sublist ((splitOn 10 t).drop (startIndex (splitOn 10 t))) (splitOn 10 t) :=
      List.drop_sublist _ _
    unfold blockLines
    rw [splitOn_join _ (by rw [hd]; simp)
      (fun q hq => not_mem_of_mem_splitOn 10 t q (hsub.subset hq))]
    unfold filterNonEmpty
    exact (List.filter_sublist _).trans (hsub.map trim)

theorem blockLines_sublist_of_mem (t b : JSString) (h : b ∈ feedbackBlocks t) :
    List.Sublist (blockLines b) ((splitOn 10 t).map trim) := by
  have h1 : List.Sublist (blockLines b) ((feedbackBlocks t).flatMap blockLines) := by
    rw [List.flatMap_def]
    exact List.sublist_flatten_of_mem (List.mem_map_of_mem _ h)
  rw [feedbackBlocks_lines] at h1
  exact h1.trans (blockLines_relevantText_sublist t)

/-! ## The body flag, the ids and the older extractor -/

theorem cleanBody_nil : cleanBody [] = [] := rfl

theorem hasBody_of_blockOfContent (title : JSString) (lines : List JSString) (i : Nat)
    (fb : FeedbackBlock) (h : blockOfContent title lines i = some fb) : fb.hasBody = true := by
  obtain ⟨_, _, htext, hne, _, hbody, _⟩ := blockOfContent_some _ _ _ _ h
  have h1 : trim (join [10] lines) ≠ [] := by
    intro he
    rw [he, cleanBody_nil] at htext
    exact hne htext
  have h2 : lines ≠ [] := by
    intro he
    rw [he] at h1
    exact h1 rfl
  rw [hbody]
  have l1 : lines.length > 0 := List.length_pos.mpr h2
  have l2 : (trim (join [10] lines)).length > 0 := List.length_pos.mpr h1
  simp [l1, l2]

theorem ids_of_filterNotNull_mapIdxFrom (n : Nat) (l : List JSString) :
    List.Pairwise (fun a b => a < b) (blockIds (filterNotNull (mapIdxFrom processBlock n l))) ∧
    ∀ fb ∈ filterNotNull (mapIdxFrom processBlock n l), n + 1 ≤ fb.id ∧ fb.id ≤ n + l.length := by
  induction l generalizing n with
  | nil => exact ⟨List.Pairwise.nil, fun fb h => by simp [mapIdxFrom, filterNotNull] at h⟩
  | cons x xs ih =>
    obtain ⟨hp, hb⟩ := ih (n + 1)
    cases hx : processBlock x n with
    | none =>
      simp only [mapIdxFrom, hx, filterNotNull]
      refine ⟨hp, fun fb h => ?_⟩
      have := hb fb h
      simp only [List.length_cons]
      omega
    | some y =>
      have hid := processBlock_id _ _ _ hx
      simp only [mapIdxFrom, hx, filterNotNull, blockIds, List.map_cons]
      constructor
      · refine List.Pairwise.cons ?_ hp
        intro a ha
        obtain ⟨fb, hfb, rfl⟩ := List.mem_map.mp ha
        have := hb fb hfb
        omega
      · intro fb h
        simp only [List.mem_cons] at h
        simp only [List.length_cons]
        rcases h with h | h
        · subst h; omega
        · have := hb fb h
          omega

theorem sources_of_filterNotNull_mapIdxFrom (n : Nat) (l : List JSString) :
    ∃ srcs, List.Sublist srcs l ∧
      List.Forall₂ (fun (fb : FeedbackBlock) b => processBlock b (fb.id - 1) = some fb)
        (filterNotNull (mapIdxFrom processBlock n l)) srcs := by
  induction l generalizing n with
  | nil => exact ⟨[], List.Sublist.slnil, List.Forall₂.nil⟩
  | cons x xs ih =>
    obtain ⟨srcs, hs, hf⟩ := ih (n + 1)
    cases hx : processBlock x n with
    | none =>
      simp only [mapIdxFrom, hx, filterNotNull]
      exact ⟨srcs, hs.cons x, hf⟩
    | some y =>
      have hid := processBlock_id _ _ _ hx
      simp only [mapIdxFrom, hx, filterNotNull]
      refine ⟨x :: srcs, hs.cons₂ x, List.Forall₂.cons ?_ hf⟩
      have e : y.id - 1 = n := by omega
      rw [e]
      exact hx

/-- The older block with the fields of a newer one. -/
theorem backup_blockOfContent (title : JSString) (lines : List JSString) (i : Nat) :
    (Backup.blockOfContent title lines i).map Backup.sharedFields =
      (blockOfContent title lines i).map sharedFields := by
  unfold Backup.blockOfContent blockOfContent
  simp only []
  by_cases h0 : (trim (join [10] lines)).isEmpty = true
  · have e : trim (join [10] lines) = [] := List.isEmpty_iff.mp h0
    simp [e, cleanBody_nil]
  · rw [if_neg h0]
    split
    · rfl
    · split <;> rfl

theorem backup_processBlock (b : JSString) (i : Nat) :
    (Backup.processBlock b i).map Backup.sharedFields = (processBlock b i).map sharedFields := by
  unfold Backup.processBlock processBlock
  simp only []
  split
  · exact backup_blockOfContent _ _ _
  · split
    · rfl
    · exact backup_blockOfContent _ _ _

theorem backup_filterNotNull (n : Nat) (l : List JSString) :
    (filterNotNull (mapIdxFrom Backup.processBlock n l)).map Backup.sharedFields =
      (filterNotNull (mapIdxFrom processBlock n l)).map sharedFields := by
  induction l generalizing n with
  | nil => rfl
  | cons x xs ih =>
    have hx := backup_processBlock x n
    simp only [mapIdxFrom]
    cases h1 : Backup.processBlock x n with
    | none =>
      cases h2 : processBlock x n with
      | none => simp only [filterNotNull]; exact ih (n + 1)
      | some y => rw [h1, h2] at hx; cases hx
    | some z =>
      cases h2 : processBlock x n with
      | none => rw [h1, h2] at hx; cases hx
      | some y =>
        rw [h1, h2] at hx
        simp only [Option.map_some', Option.some.injEq] at hx
        simp only [filterNotNull, List.map_cons, hx, ih (n + 1)]

/-! ## What the keyword patterns match -/

theorem lastOr_append (prev : Option Nat) (a b : JSString) :
    lastOr prev (a ++ b) = lastOr (lastOr prev a) b := by
  induction a generalizing prev with
  | nil => rfl
  | cons c cs ih => simp only [List.cons_append, lastOr]; exact ih (some c)

theorem lastOr_none_eq_getLast (pre : JSString) : lastOr none pre = pre.getLast? := by
  cases h : pre.getLast? with
  | none =>
    have : pre = [] := List.getLast?_eq_none_iff.mp h
    rw [this]; rfl
  | some c => exact lastOr_of_getLast none pre c h

theorem lastOr_of_ne_nil (prev : Option Nat) (m : JSString) (h : m ≠ []) :
    lastOr prev m = m.getLast? := by
  cases hl : m.getLast? with
  | none => exact absurd (List.getLast?_eq_none_iff.mp hl) h
  | some c => exact lastOr_of_getLast prev m c hl

theorem lit_isSome (w : JSString) (prev : Option Nat) (s : JSString) (k : Cont) :
    (Re.lit true w prev s k).isSome = true ↔
      ∃ m rest, s = m ++ rest ∧ m.map canon = w.map canon ∧
        (k (lastOr prev m) rest).isSome = true := by
  constructor
  · intro h
    induction w generalizing prev s with
    | nil => exact ⟨[], s, rfl, rfl, h⟩
    | cons x xs ih =>
      cases s with
      | nil => simp [Re.lit, Re.seq, Re.chr, Re.cls] at h
      | cons c cs =>
        simp only [Re.lit, Re.seq, Re.chr, Re.cls, if_true] at h
        split at h
        · next hc =>
          obtain ⟨m, rest, hs, hm, hk⟩ := ih (some c) cs h
          refine ⟨c :: m, rest, by rw [hs]; rfl, ?_, hk⟩
          simp only [List.map_cons, hm]
          rw [beq_iff_eq] at hc
          rw [hc]
        · cases h
  · rintro ⟨m, rest, hs, hm, hk⟩
    rw [hs, lit_match w m rest prev k hm]
    exact hk

theorem star_isSome (p : Nat → Bool) (prev : Option Nat) (s : JSString) (k : Cont) :
    (Re.star p prev s k).isSome = true ↔
      ∃ g rest, s = g ++ rest ∧ (∀ c ∈ g, p c = true) ∧
        (k (lastOr prev g) rest).isSome = true := by
  constructor
  · intro h
    induction s generalizing prev with
    | nil => exact ⟨[], [], rfl, by simp, h⟩
    | cons x xs ih =>
      simp only [Re.star] at h
      split at h
      · next hx =>
        split at h
        · next r hr =>
          obtain ⟨g, rest, hs, hg, hk⟩ := ih (some x) (by rw [hr]; rfl)
          refine ⟨x :: g, rest, by rw [hs]; rfl, ?_, hk⟩
          intro c hc
          simp only [List.mem_cons] at hc
          rcases hc with hc | hc
          · rw [hc]; exact hx
          · exact hg c hc
        · exact ⟨[], x :: xs, rfl, by simp, h⟩
      · exact ⟨[], x :: xs, rfl, by simp, h⟩
  · rintro ⟨g, rest, hs, hg, hk⟩
    subst hs
    induction g generalizing prev with
    | nil =>
      simp only [List.nil_append, lastOr] at hk ⊢
      cases rest with
      | nil => exact hk
      | cons c cs =>
        simp only [Re.star]
        split
        · split
          · rfl
          · exact hk
        · exact hk
    | cons c cs ih =>
      have hc := hg c (List.mem_cons_self _ _)
      have h2 := ih (some c) (fun d hd => hg d (List.mem_cons_of_mem _ hd)) hk
      simp only [List.cons_append, Re.star, hc, if_true]
      cases hr : Re.star p (some c) (cs ++ rest) k with
      | none => rw [hr] at h2; cases h2
      | some r => rfl

theorem plus_isSome (p : Nat → Bool) (prev : Option Nat) (s : JSString) (k : Cont) :
    (Re.plus p prev s k).isSome = true ↔
      ∃ g rest, s = g ++ rest ∧ g ≠ [] ∧ (∀ c ∈ g, p c = true) ∧
        (k (lastOr prev g) rest).isSome = true := by
  constructor
  · intro h
    cases s with
    | nil => simp [Re.plus, Re.seq, Re.cls] at h
    | cons x xs =>
      simp only [Re.plus, Re.seq, Re.cls] at h
      split at h
      · next hx =>
        obtain ⟨g, rest, hs, hg, hk⟩ := (star_isSome p (some x) xs k).mp h
        refine ⟨x :: g, rest, by rw [hs]; rfl, by simp, ?_, hk⟩
        intro c hc
        simp only [List.mem_cons] at hc
        rcases hc with hc | hc
        · rw [hc]; exact hx
        · exact hg c hc
      · cases h
  · rintro ⟨g, rest, hs, hne, hg, hk⟩
    cases g with
    | nil => exact absurd rfl hne
    | cons c cs =>
      subst hs
      simp only [Re.plus, Re.seq, Re.cls, List.cons_append, hg c (List.mem_cons_self _ _),
        if_true]
      exact (star_isSome p (some c) (cs ++ rest) k).mpr
        ⟨cs, rest, rfl, fun d hd => hg d (List.mem_cons_of_mem _ hd), hk⟩

theorem alt_isSome (a b : Re) (prev : Option Nat) (s : JSString) (k : Cont) :
    (Re.alt a b prev s k).isSome = true ↔
      ((a prev s k).isSome = true ∨ (b prev s k).isSome = true) := by
  simp only [Re.alt]
  cases h : a prev s k with
  | none => simp
  | some r => simp

theorem alts_isSome (L : List Re) (prev : Option Nat) (s : JSString) (k : Cont) :
    (Re.alts L prev s k).isSome = true ↔ ∃ a ∈ L, (a prev s k).isSome = true := by
  induction L with
  | nil => simp [Re.alts, Re.fail]
  | cons a r ih =>
    cases r with
    | nil => simp [Re.alts]
    | cons b r2 =>
      have e : Re.alts (a :: b :: r2) = Re.alt a (Re.alts (b :: r2)) := rfl
      rw [e, alt_isSome, ih]
      simp only [List.mem_cons, exists_eq_or_imp]

theorem wordB_isSome (prev : Option Nat) (s : JSString) (k : Cont) :
    (Re.wordB prev s k).isSome = true ↔
      (WordBoundary prev s.head? ∧ (k prev s).isSome = true) := by
  simp only [Re.wordB, WordBoundary]
  by_cases h : Re.isWordAt prev = Re.isWordAt s.head?
  · simp [h]
  · have hb : (Re.isWordAt prev != Re.isWordAt s.head?) = true := by
      simpa [bne_iff_ne] using h
    simp [hb, h]

theorem phrase_isSome (p : List String) (prev : Option Nat) (s : JSString) (k : Cont) :
    (Re.phrase p prev s k).isSome = true ↔
      ∃ m rest, s = m ++ rest ∧ SpellsPhrase p m ∧ (k (lastOr prev m) rest).isSome = true := by
  induction p generalizing prev s with
  | nil =>
    simp only [Re.phrase, Re.eps, SpellsPhrase]
    constructor
    · intro h; exact ⟨[], s, rfl, rfl, h⟩
    · rintro ⟨m, rest, hs, hm, hk⟩
      subst hm; subst hs
      exact hk
  | cons w r ih =>
    cases r with
    | nil =>
      have e : Re.phrase [w] = Re.lit true (js w) := rfl
      rw [e, lit_isSome]
      rfl
    | cons w2 r2 =>
      have e : Re.phrase (w :: w2 :: r2) =
          Re.seq (Re.lit true (js w)) (Re.seq (Re.plus isWhiteSpace) (Re.phrase (w2 :: r2))) :=
        rfl
      rw [e]
      simp only [Re.seq]
      rw [lit_isSome]
      constructor
      · rintro ⟨a, rest, hs, ha, hk⟩
        obtain ⟨g, rest2, hs2, hne, hg, hk2⟩ := (plus_isSome _ _ _ _).mp hk
        obtain ⟨b, rest3, hs3, hb, hk3⟩ := (ih _ _).mp hk2
        refine ⟨a ++ g ++ b, rest3, ?_, ⟨a, g, b, rfl, ha, hne, hg, hb⟩, ?_⟩
        · rw [hs, hs2, hs3]; simp
        · rw [lastOr_append, lastOr_append]; exact hk3
      · rintro ⟨m, rest, hs, ⟨a, g, b, hm, ha, hne, hg, hb⟩, hk⟩
        refine ⟨a, g ++ b ++ rest, by rw [hs, hm]; simp, ha, ?_⟩
        apply (plus_isSome _ _ _ _).mpr
        refine ⟨g, b ++ rest, by simp, hne, hg, ?_⟩
        apply (ih _ _).mpr
        refine ⟨b, rest, rfl, hb, ?_⟩
        rw [hm, lastOr_append, lastOr_append] at hk
        exact hk

theorem exec_isSome (r : Re) (prev : Option Nat) (s : JSString) :
    (Re.exec r prev s).isSome = true ↔
      ∃ pre post, s = pre ++ post ∧ (Re.matchAt r (lastOr prev pre) post).isSome = true := by
  constructor
  · intro h
    induction s generalizing prev with
    | nil => exact ⟨[], [], rfl, h⟩
    | cons c cs ih =>
      simp only [Re.exec] at h
      split at h
      · next rest hr => exact ⟨[], c :: cs, rfl, by simp only [lastOr]; rw [hr]; rfl⟩
      · obtain ⟨pre, post, hs, hm⟩ := ih (some c) h
        exact ⟨c :: pre, post, by rw [hs]; rfl, hm⟩
  · rintro ⟨pre, post, hs, hm⟩
    subst hs
    induction pre generalizing prev with
    | nil =>
      simp only [List.nil_append, lastOr] at hm ⊢
      cases post with
      | nil => exact hm
      | cons c cs =>
        simp only [Re.exec]
        cases hr : Re.matchAt r prev (c :: cs) with
        | none => rw [hr] at hm; cases hm
        | some x => rfl
    | cons c cs ih =>
      have h2 := ih (some c) hm
      simp only [List.cons_append, Re.exec]
      cases hr : Re.matchAt r prev (c :: (cs ++ post)) with
      | none => exact h2
      | some x => rfl

/-! ## The sentiment flags, declaratively -/

theorem spellsWord_ne_nil (w : String) (m : JSString) (hw : js w ≠ []) (h : SpellsWord w m) :
    m ≠ [] := by
  intro hm
  rw [hm] at h
  have := congrArg List.length h
  simp only [List.map_nil, List.length_nil, List.length_map] at this
  exact hw (List.length_eq_zero.mp this.symm)

theorem spellsPhrase_ne_nil (p : List String) (m : JSString) (hp : ValidPhrase p)
    (h : SpellsPhrase p m) : m ≠ [] := by
  cases p with
  | nil => exact absurd rfl hp.1
  | cons w r =>
    cases r with
    | nil => exact spellsWord_ne_nil w m (hp.2 w (List.mem_cons_self _ _)) h
    | cons w2 r2 =>
      obtain ⟨a, g, b, hm, _, hne, _, _⟩ := h
      rw [hm]
      intro he
      simp only [List.append_eq_nil] at he
      exact hne he.1.2

theorem head?_append_of_ne_nil (m rest : JSString) (h : m ≠ []) :
    (m ++ rest).head? = m.head? := by
  cases m with
  | nil => exact absurd rfl h
  | cons c cs => rfl

/-- What `\b(a1|...|an)\b` finds: one of the phrases, delimited by word boundaries. -/
theorem test_reWords (alternatives : List (List String))
    (hv : ∀ p ∈ alternatives, ValidPhrase p) (text : JSString) :
    Re.test (reWords alternatives) text = true ↔
      ∃ p ∈ alternatives, ContainsPhrase p text := by
  unfold Re.test
  rw [exec_isSome]
  constructor
  · rintro ⟨pre, post, hs, hm⟩
    unfold Re.matchAt reWords at hm
    simp only [Re.seq] at hm
    rw [wordB_isSome] at hm
    obtain ⟨hb1, hm⟩ := hm
    rw [alts_isSome] at hm
    obtain ⟨a, ha, hm⟩ := hm
    obtain ⟨p, hp, rfl⟩ := List.mem_map.mp ha
    rw [phrase_isSome] at hm
    obtain ⟨m, rest, hpost, hsp, hm⟩ := hm
    rw [wordB_isSome] at hm
    have hne := spellsPhrase_ne_nil p m (hv p hp) hsp
    refine ⟨p, hp, pre, m, rest, by rw [hs, hpost, List.append_assoc], hsp, ?_, ?_⟩
    · rw [hpost, head?_append_of_ne_nil m rest hne, lastOr_none_eq_getLast] at hb1
      exact hb1
    · have := hm.1
      rw [lastOr_of_ne_nil _ m hne] at this
      exact this
  · rintro ⟨p, hp, pre, m, post, hs, hsp, hb1, hb2⟩
    have hne := spellsPhrase_ne_nil p m (hv p hp) hsp
    refine ⟨pre, m ++ post, by rw [hs, List.append_assoc], ?_⟩
    unfold Re.matchAt reWords
    simp only [Re.seq]
    rw [wordB_isSome]
    refine ⟨by rw [head?_append_of_ne_nil m post hne, lastOr_none_eq_getLast]; exact hb1, ?_⟩
    rw [alts_isSome]
    refine ⟨Re.phrase p, List.mem_map_of_mem _ hp, ?_⟩
    rw [phrase_isSome]
    refine ⟨m, post, rfl, hsp, ?_⟩
    rw [wordB_isSome]
    refine ⟨by rw [lastOr_of_ne_nil _ m hne]; exact hb2, rfl⟩

theorem validPhrase_negativeKeywords : ∀ p ∈ negativeKeywords, ValidPhrase p := by
  unfold ValidPhrase
  decide

theorem validPhrase_positiveKeywords : ∀ p ∈ positiveKeywords, ValidPhrase p := by
  unfold ValidPhrase
  decide

theorem validPhrase_genericPraise : ∀ p ∈ genericPraise, ValidPhrase p := by
  unfold ValidPhrase
  decide

theorem validPhrase_of_append {A B : List (List String)}
    (h : ∀ p ∈ A ++ B, ValidPhrase p) :
    (∀ p ∈ A, ValidPhrase p) ∧ (∀ p ∈ B, ValidPhrase p) :=
  ⟨fun p hp => h p (List.mem_append_left _ hp), fun p hp => h p (List.mem_append_right _ hp)⟩

/-- The flag `isNegative` in the words of the specification. -/
theorem isNegative_iff (text : JSString) :
    isNegative text = true ↔ ∃ p ∈ negativeKeywords, ContainsPhrase p text := by
  have hv := validPhrase_negativeKeywords
  have e : negativeKeywords =
      [["not"], ["bad"], ["poor"], ["lacks"], ["missing"], ["fails"], ["didn\x27t"],
        ["doesn\x27t"], ["inadequate"], ["insufficient"]] ++
      ([["no", "clear"], ["no", "evidence"], ["no", "examples"], ["no", "support"]] ++
      ([["weak"], ["weakness"], ["problem"], ["issue"], ["error"], ["mistake"],
        ["incorrect"], ["wrong"]] ++
      ([["needs", "improvement"], ["could", "be", "better"], ["should", "be"],
        ["must", "be"]] ++
      [["but"], ["however"], ["although"], ["though"], ["even", "though"], ["despite"],
        ["nevertheless"], ["yet"], ["whereas"]]))) := rfl
  rw [e] at hv ⊢
  obtain ⟨h1, hv⟩ := validPhrase_of_append hv
  obtain ⟨h2, hv⟩ := validPhrase_of_append hv
  obtain ⟨h3, hv⟩ := validPhrase_of_append hv
  obtain ⟨h4, h5⟩ := validPhrase_of_append hv
  unfold isNegative negativePhrases
  simp only [List.any_cons, List.any_nil, Bool.or_false, Bool.or_eq_true,
    test_reWords _ h1, test_reWords _ h2, test_reWords _ h3, test_reWords _ h4,
    test_reWords _ h5]
  simp only [List.mem_append, or_and_right, exists_or]

/-- The flag `isPositive` in the words of the specification. -/
theorem isPositive_iff (text : JSString) :
    isPositive text = true ↔ ∃ p ∈ positiveKeywords, ContainsPhrase p text := by
  have hv := validPhrase_positiveKeywords
  have e : positiveKeywords =
      [["good"], ["great"], ["excellent"], ["outstanding"], ["well"], ["nice"],
        ["strong"], ["clear"], ["effective"], ["solid"]] ++
      ([["demonstrates"], ["shows"], ["illustrates"], ["exemplifies"], ["highlights"]] ++
      ([["good", "use", "of"], ["well-developed"], ["well-written"], ["well-structured"],
        ["well-organized"]] ++
      ([["impressive"], ["thorough"], ["comprehensive"], ["detailed"], ["insightful"],
        ["thoughtful"]] ++
      ([["successful"], ["successfully"], ["achieved"], ["accomplished"], ["strongly"],
        ["clearly"]] ++
      ([["appropriate"], ["relevant"], ["accurate"], ["precise"], ["convincing"],
        ["persuasive"]] ++
      [["enhances"], ["strengthens"], ["improves"], ["supports"], ["reinforces"],
        ["validates"]]))))) := rfl
  rw [e] at hv ⊢
  obtain ⟨h1, hv⟩ := validPhrase_of_append hv
  obtain ⟨h2, hv⟩ := validPhrase_of_append hv
  obtain ⟨h3, hv⟩ := validPhrase_of_append hv
  obtain ⟨h4, hv⟩ := validPhrase_of_append hv
  obtain ⟨h5, hv⟩ := validPhrase_of_append hv
  obtain ⟨h6, h7⟩ := validPhrase_of_append hv
  unfold isPositive positivePhrases
  simp only [List.any_cons, List.any_nil, Bool.or_false, Bool.or_eq_true,
    test_reWords _ h1, test_reWords _ h2, test_reWords _ h3, test_reWords _ h4,
    test_reWords _ h5, test_reWords _ h6, test_reWords _ h7]
  simp only [List.mem_append, or_and_right, exists_or]

theorem genericTail_isSome (prev : Option Nat) (g1 punct g2 : JSString)
    (h1 : ∀ c ∈ g1, isWhiteSpace c = true)
    (hp : punct = [] ∨ punct = [46] ∨ punct = [33])
    (h2 : ∀ c ∈ g2, isWhiteSpace c = true) :
    (reGenericTail prev (g1 ++ punct ++ g2) done).isSome = true := by
  unfold reGenericTail
  simp only [Re.seq]
  rw [star_isSome]
  refine ⟨g1, punct ++ g2, by simp, h1, ?_⟩
  unfold Re.opt
  rw [alt_isSome]
  rcases hp with hp | hp | hp
  · right
    subst hp
    simp only [Re.eps, List.nil_append]
    rw [star_isSome]
    exact ⟨g2, [], by simp, h2, rfl⟩
  · left
    subst hp
    simp only [Re.cls, List.singleton_append]
    rw [if_pos (by decide)]
    rw [star_isSome]
    exact ⟨g2, [], by simp, h2, rfl⟩
  · left
    subst hp
    simp only [Re.cls, List.singleton_append]
    rw [if_pos (by decide)]
    rw [star_isSome]
    exact ⟨g2, [], by simp, h2, rfl⟩

/-- The second pattern of `genericPhrases` accepts a text that ends with a generic word. -/
theorem isGeneric_of_ending (text : JSString) (h : EndsWithGenericWord text) :
    isGeneric text = true := by
  obtain ⟨pre, w, m, g1, punct, g2, hw, hs, hsp, hb, h1, hp, h2⟩ := h
  have hwv : js w ≠ [] := by
    have : ∀ w ∈ genericWords, js w ≠ [] := by decide
    exact this w hw
  have hne := spellsWord_ne_nil w m hwv hsp
  unfold isGeneric genericPhrases
  simp only [List.any_cons, List.any_nil, Bool.or_false, Bool.or_eq_true]
  right; left
  unfold Re.test
  rw [exec_isSome]
  refine ⟨pre, m ++ (g1 ++ punct ++ g2), by rw [hs]; simp, ?_⟩
  unfold Re.matchAt
  simp only [Re.seq]
  rw [wordB_isSome]
  refine ⟨by rw [head?_append_of_ne_nil m _ hne, lastOr_none_eq_getLast]; exact hb, ?_⟩
  unfold reGenericWord
  rw [alts_isSome]
  have hmem : [w] ∈ [["good"], ["nice"], ["well"], ["great"], ["excellent"], ["fine"],
      ["okay"], ["ok"]] := by
    have : [["good"], ["nice"], ["well"], ["great"], ["excellent"], ["fine"],
      ["okay"], ["ok"]] = genericWords.map (fun x => [x]) := rfl
    rw [this]
    exact List.mem_map_of_mem _ hw
  refine ⟨Re.phrase [w], List.mem_map_of_mem _ hmem, ?_⟩
  rw [phrase_isSome]
  exact ⟨m, g1 ++ punct ++ g2, rfl, hsp, genericTail_isSome _ g1 punct g2 h1 hp h2⟩

/-- The first pattern of `genericPhrases` accepts a text that contains a praise phrase. -/
theorem isGeneric_of_praise (text : JSString)
    (h : ∃ p ∈ genericPraise, ContainsPhrase p text) : isGeneric text = true := by
  unfold isGeneric genericPhrases
  simp only [List.any_cons, List.any_nil, Bool.or_false, Bool.or_eq_true]
  left
  exact (test_reWords _ validPhrase_genericPraise text).mpr h

/-! ## Sentence splitting of a normalized essay -/

theorem normalFrom_split (f : Bool) (A : JSString) (c : Nat) (B : JSString)
    (h : normalFrom f (A ++ c :: B) = true) (hc : isWhiteSpace c = true) :
    normalFrom f A = true ∧ c = 32 ∧ normalFrom true B = true := by
  induction A generalizing f with
  | nil =>
    simp only [List.nil_append, normalFrom, hc, if_true, Bool.and_eq_true, Bool.not_eq_true',
      beq_iff_eq] at h
    refine ⟨?_, h.1.2, h.2⟩
    simp [normalFrom, h.1.1]
  | cons a A ih =>
    simp only [List.cons_append, normalFrom] at h ⊢
    split at h
    · next ha =>
      simp only [Bool.and_eq_true, Bool.not_eq_true', beq_iff_eq] at h
      obtain ⟨h1, h2, h3⟩ := ih true h.2
      refine ⟨?_, h2, h3⟩
      rw [if_pos ha, h.1.1, h1, h.1.2]
      rfl
    · next ha =>
      obtain ⟨h1, h2, h3⟩ := ih false h
      refine ⟨?_, h2, h3⟩
      simp [ha, h1]

theorem normalFrom_true_head (s : JSString) (h : normalFrom true s = true) :
    ∃ c r, s = c :: r ∧ isWhiteSpace c = false := by
  cases s with
  | nil => simp [normalFrom] at h
  | cons c r =>
    refine ⟨c, r, rfl, ?_⟩
    simp only [normalFrom] at h
    split at h
    · simp at h
    · next hc => simpa using hc

theorem normalFrom_collapse (f : Bool) (s : JSString) (h : normalFrom f s = true) :
    collapseWhiteSpace f s = s := by
  induction s generalizing f with
  | nil => rfl
  | cons c cs ih =>
    simp only [normalFrom] at h
    split at h
    · next hc =>
      simp only [Bool.and_eq_true, Bool.not_eq_true', beq_iff_eq] at h
      simp only [collapseWhiteSpace, hc, if_true, h.1.1, Bool.false_eq_true, if_false,
        ih true h.2]
      rw [h.1.2]
    · next hc =>
      simp only [collapseWhiteSpace, hc, ih false h]
      simp

theorem normalFrom_trimEnd (f : Bool) (s : JSString) (h : normalFrom f s = true) :
    trimEnd s = s := by
  induction s generalizing f with
  | nil => rfl
  | cons c cs ih =>
    simp only [normalFrom] at h
    split at h
    · next hc =>
      simp only [Bool.and_eq_true, Bool.not_eq_true', beq_iff_eq] at h
      have h1 := ih true h.2
      obtain ⟨d, r, hd, _⟩ := normalFrom_true_head cs h.2
      rw [trimEnd_cons_of_ne_nil c cs (by rw [h1, hd]; simp), h1]
    · next hc =>
      have h1 := ih false h
      cases cs with
      | nil => simp [trimEnd, hc]
      | cons d r => rw [trimEnd_cons_of_ne_nil c _ (by rw [h1]; simp), h1]

theorem collapsedText_of_normal (s : JSString) (h : normalFrom true s = true) :
    collapsedText s = s := by
  rw [collapsedText_eq, normalFrom_collapse true s h, normalFrom_trimEnd true s h]

theorem trim_of_normal (s : JSString) (h : normalFrom true s = true) : trim s = s := by
  obtain ⟨c, r, hs, hc⟩ := normalFrom_true_head s h
  have h1 : trimStart s = s := by
    rw [hs]
    simp [trimStart, hc]
  unfold trim
  rw [h1, normalFrom_trimEnd true s h]

theorem normalFrom_trimEnd_collapse (f : Bool) (s : JSString) :
    trimEnd (collapseWhiteSpace f s) = [] ∨
      normalFrom f (trimEnd (collapseWhiteSpace f s)) = true := by
  induction s generalizing f with
  | nil => left; rfl
  | cons c cs ih =>
    by_cases hc : isWhiteSpace c = true
    · cases f with
      | true =>
        simp only [collapseWhiteSpace, hc, if_true]
        exact ih true
      | false =>
        simp only [collapseWhiteSpace, hc, if_true, Bool.false_eq_true, if_false]
        by_cases he : trimEnd (collapseWhiteSpace true cs) = []
        · left
          simp only [trimEnd, he]
          rfl
        · right
          rw [trimEnd_cons_of_ne_nil _ _ he]
          rcases ih true with h | h
          · exact absurd h he
          · simp only [normalFrom]
            rw [if_pos (by decide)]
            simp [h]
    · have hc2 : isWhiteSpace c = false := by simpa using hc
      simp only [collapseWhiteSpace, hc2, Bool.false_eq_true, if_false]
      by_cases he : trimEnd (collapseWhiteSpace false cs) = []
      · right
        simp only [trimEnd, he, hc2, Bool.false_eq_true, if_false, normalFrom]
        rfl
      · right
        rw [trimEnd_cons_of_ne_nil _ _ he]
        rcases ih false with h | h
        · exact absurd h he
        · simp only [normalFrom, hc2, Bool.false_eq_true, if_false]
          exact h

theorem normal_collapsedText (t : JSString) :
    collapsedText t = [] ∨ normalFrom true (collapsedText t) = true := by
  rw [collapsedText_eq]
  exact normalFrom_trimEnd_collapse true t

theorem isBreak_none_prev (c : Nat) (n : Option Nat) : isBreak none c n = false := by
  simp [isBreak]

theorem isBreak_none_next (p : Option Nat) (c : Nat) : isBreak p c none = false := by
  simp [isBreak]

theorem isBreak_ws (p : Option Nat) (c : Nat) (n : Option Nat) (h : isBreak p c n = true) :
    isWhiteSpace c = true := by
  simp only [isBreak, Bool.and_eq_true] at h
  exact h.1.2

/-- The sentence-break pattern at a code unit that is not followed by whitespace: it matches
exactly that code unit, and only at a break. -/
theorem matchLen_sentenceBreak (before : JSString) (c : Nat) (rest : JSString)
    (h : isWhiteSpace c = true → ∀ d, rest.head? = some d → isWhiteSpace d = false) :
    matchLen reSentenceBreak before (c :: rest) =
      if isBreak before.head? c rest.head? then some 1 else none := by
  simp only [matchLen, Re.matchAt, reSentenceBreak, Re.seq, Re.lookbehind, Re.plus, Re.cls,
    isBreak]
  cases hb : before.head? with
  | none => simp
  | some e =>
    simp only []
    by_cases hE : isSentenceEnd e = true
    · by_cases hc : isWhiteSpace c = true
      · cases rest with
        | nil => simp [hE, hc, Re.star, Re.lookahead]
        | cons d r =>
          have hd := h hc d rfl
          by_cases hs : isSentenceStart d = true
          · simp [hE, hc, Re.star, hd, Re.lookahead, done, hs]
          · simp [hE, hc, Re.star, hd, Re.lookahead, done, hs]
      · simp [hE, hc]
    · simp [hE]

theorem join_cons_of_ne_nil (sep x : JSString) (tail : List JSString) (h : tail ≠ []) :
    join sep (x :: tail) = x ++ sep ++ join sep tail := by
  cases tail with
  | nil => exact absurd rfl h
  | cons y r => rfl

theorem next_not_ws_of_normal (A : JSString) (c : Nat) (B : JSString)
    (hn : normalFrom true (A ++ c :: B) = true) :
    isWhiteSpace c = true → ∀ d, B.head? = some d → isWhiteSpace d = false := by
  intro hc d hd
  obtain ⟨_, _, h3⟩ := normalFrom_split true A c B hn hc
  obtain ⟨x, r, hB, hx⟩ := normalFrom_true_head B h3
  rw [hB] at hd
  simp only [List.head?_cons, Option.some.injEq] at hd
  rw [← hd]; exact hx

/-- The pieces of a normalized text, put together with single spaces, give the text back, and
every piece is normalized. -/
theorem splitLoop_normal_join (rest before cur : JSString)
    (hn : normalFrom true (cur.reverse ++ rest) = true) :
    join [32] (splitLoop reSentenceBreak rest before 0 cur) = cur.reverse ++ rest ∧
    ∀ p ∈ splitLoop reSentenceBreak rest before 0 cur, normalFrom true p = true := by
  induction rest generalizing before cur with
  | nil =>
    simp only [splitLoop, join, List.append_nil, List.mem_singleton, forall_eq]
    simp only [List.append_nil] at hn
    exact ⟨trivial, hn⟩
  | cons c rest ih =>
    have hm := matchLen_sentenceBreak before c rest (next_not_ws_of_normal _ c rest hn)
    simp only [splitLoop]
    rw [hm]
    by_cases hb : isBreak before.head? c rest.head? = true
    · simp only [hb, if_true]
      obtain ⟨h1, h2, h3⟩ := normalFrom_split true _ c rest hn (isBreak_ws _ _ _ hb)
      obtain ⟨ih1, ih2⟩ := ih (c :: before) [] (by simpa using h3)
      refine ⟨?_, ?_⟩
      · rw [join_cons_of_ne_nil _ _ _ (splitLoop_ne_nil _ _ _ _ _), ih1, h2]
        simp
      · intro p hp
        simp only [List.mem_cons] at hp
        rcases hp with hp | hp
        · rw [hp]; exact h1
        · exact ih2 p hp
    · simp only [hb, Bool.false_eq_true, if_false]
      have hn2 : normalFrom true ((c :: cur).reverse ++ rest) = true := by
        simpa using hn
      obtain ⟨ih1, ih2⟩ := ih (c :: before) (c :: cur) hn2
      refine ⟨?_, ih2⟩
      rw [ih1]
      simp

/-- Splitting a piece of a normalized text again leaves it whole. -/
theorem splitLoop_normal_stable (rest before cur : JSString)
    (hn : normalFrom true (cur.reverse ++ rest) = true)
    (hc : cur ≠ [] → cur.head? = before.head?) :
    ∃ rest2 tail,
      splitLoop reSentenceBreak rest before 0 cur = (cur.reverse ++ rest2) :: tail ∧
      rest2 <+: rest ∧
      splitLoop reSentenceBreak rest2 cur 0 cur = [cur.reverse ++ rest2] ∧
      ∀ p ∈ tail, splitLoop reSentenceBreak p [] 0 [] = [p] := by
  induction rest generalizing before cur with
  | nil =>
    exact ⟨[], [], by simp [splitLoop], List.prefix_refl _, by simp [splitLoop], by simp⟩
  | cons c rest ih =>
    have hm := matchLen_sentenceBreak before c rest (next_not_ws_of_normal _ c rest hn)
    by_cases hb : isBreak before.head? c rest.head? = true
    · obtain ⟨h1, h2, h3⟩ := normalFrom_split true _ c rest hn (isBreak_ws _ _ _ hb)
      obtain ⟨rest2, tail, e1, _, e3, e4⟩ := ih (c :: before) [] (by simpa using h3)
        (fun h => absurd rfl h)
      refine ⟨[], splitLoop reSentenceBreak rest (c :: before) 0 [], ?_, List.nil_prefix,
        by simp [splitLoop], ?_⟩
      · simp only [splitLoop]
        rw [hm]
        simp only [hb, if_true, List.append_nil]
      · intro p hp
        rw [e1] at hp
        simp only [List.reverse_nil, List.nil_append, List.mem_cons] at hp e3
        rcases hp with hp | hp
        · rw [hp]; exact e3
        · exact e4 p hp
    · have hb2 : isBreak before.head? c rest.head? = false := by simpa using hb
      have hn2 : normalFrom true ((c :: cur).reverse ++ rest) = true := by
        simpa using hn
      obtain ⟨rest2, tail, e1, e2, e3, e4⟩ := ih (c :: before) (c :: cur) hn2 (fun _ => rfl)
      have e5 : (c :: cur).reverse ++ rest2 = cur.reverse ++ c :: rest2 := by simp
      rw [e5] at e1 e3
      refine ⟨c :: rest2, tail, ?_, ?_, ?_, e4⟩
      · simp only [splitLoop]
        rw [hm]
        simp only [hb2, Bool.false_eq_true, if_false]
        exact e1
      · obtain ⟨u, hu⟩ := e2
        exact ⟨u, by rw [← hu]; rfl⟩
      · have hnext : ∀ d, rest2.head? = some d → rest.head? = some d := by
          intro d hd
          obtain ⟨u, hu⟩ := e2
          cases rest2 with
          | nil => cases hd
          | cons x r =>
            rw [← hu]
            simpa using hd
        have hm2 := matchLen_sentenceBreak cur c rest2 (by
          intro hw d hd
          exact next_not_ws_of_normal _ c rest hn hw d (hnext d hd))
        have hb3 : isBreak cur.head? c rest2.head? = false := by
          cases cur with
          | nil => exact isBreak_none_prev _ _
          | cons x r =>
            rw [hc (by simp)]
            cases hr : rest2.head? with
            | none => exact isBreak_none_next _ _
            | some d => rw [← hnext d hr]; exact hb2
        simp only [splitLoop]
        rw [hm2]
        simp only [hb3, Bool.false_eq_true, if_false]
        exact e3

theorem regexSplit_of_ne_nil (r : Re) (s : JSString) (h : s ≠ []) :
    regexSplit r s = splitLoop r s [] 0 [] := by
  cases s with
  | nil => exact absurd rfl h
  | cons c cs => rfl

theorem ne_nil_of_normal (s : JSString) (h : normalFrom true s = true) : s ≠ [] := by
  obtain ⟨c, r, hs, _⟩ := normalFrom_true_head s h
  rw [hs]; simp

theorem filter_map_trim_of_normal (L : List JSString)
    (h : ∀ p ∈ L, normalFrom true p = true) :
    (L.map trim).filter (fun s => decide (s.length > 0)) = L := by
  induction L with
  | nil => rfl
  | cons x xs ih =>
    have hx := h x (List.mem_cons_self _ _)
    have hne := ne_nil_of_normal x hx
    have hl : x.length > 0 := List.length_pos.mpr hne
    simp only [List.map_cons, trim_of_normal x hx]
    rw [List.filter_cons_of_pos (by simpa using hl)]
    rw [ih (fun p hp => h p (List.mem_cons_of_mem _ hp))]

/-- The sentences of a normalized text: joined with single spaces they give the text, each is
normalized, and each is its own only sentence. -/
theorem essaySentences_of_normal (N : JSString) (h : normalFrom true N = true) :
    join [32] (essaySentences N) = N ∧
    ∀ p ∈ essaySentences N, normalFrom true p = true ∧ essaySentences p = [p] := by
  have hne := ne_nil_of_normal N h
  obtain ⟨h1, h2⟩ := splitLoop_normal_join N [] [] (by simpa using h)
  obtain ⟨rest2, tail, e1, _, e3, e4⟩ := splitLoop_normal_stable N [] [] (by simpa using h)
    (fun hh => absurd rfl hh)
  have es : essaySentences N = splitLoop reSentenceBreak N [] 0 [] := by
    unfold essaySentences
    rw [regexSplit_of_ne_nil _ _ hne]
    exact filter_map_trim_of_normal _ h2
  rw [es]
  refine ⟨by simpa using h1, ?_⟩
  intro p hp
  have hp1 := h2 p hp
  refine ⟨hp1, ?_⟩
  have hst : splitLoop reSentenceBreak p [] 0 [] = [p] := by
    rw [e1] at hp
    simp only [List.reverse_nil, List.nil_append, List.mem_cons] at hp e3
    rcases hp with hp | hp
    · rw [hp]; exact e3
    · exact e4 p hp
  unfold essaySentences
  rw [regexSplit_of_ne_nil _ _ (ne_nil_of_normal p hp1), hst]
  exact filter_map_trim_of_normal [p] (by simpa using hp1)

theorem map_text_mapIdxFrom (n : Nat) (l : List JSString) :
    (mapIdxFrom (fun s index => EssaySegment.mk (index + 1) s (colorAt index)) n l).map
      EssaySegment.text = l := by
  induction l generalizing n with
  | nil => rfl
  | cons x xs ih => simp only [mapIdxFrom, List.map_cons, ih (n + 1)]

theorem join_getLast_suffix (sep : JSString) (L : List JSString) :
    (L.getLast?.getD []) <:+ join sep L := by
  induction L with
  | nil => simp [join]
  | cons x xs ih =>
    cases xs with
    | nil => simp [join]
    | cons y r =>
      have e : (x :: y :: r).getLast? = (y :: r).getLast? := by simp [List.getLast?_cons_cons]
      rw [e]
      have e2 : join sep (x :: y :: r) = (x ++ sep) ++ join sep (y :: r) := rfl
      rw [e2]
      exact List.IsSuffix.trans ih (List.suffix_append _ _)

/-! ## The points marker, declaratively -/

theorem chr_isSome (x : Nat) (prev : Option Nat) (s : JSString) (k : Cont) :
    (Re.chr true x prev s k).isSome = true ↔
      ∃ c rest, s = c :: rest ∧ canon c = canon x ∧ (k (some c) rest).isSome = true := by
  cases s with
  | nil => simp [Re.chr, Re.cls]
  | cons c cs =>
    simp only [Re.chr, Re.cls, if_true]
    by_cases h : canon c = canon x
    · have hb : (canon c == canon x) = true := by simpa using h
      simp only [hb, if_true]
      constructor
      · intro hk
        exact ⟨c, cs, rfl, h, hk⟩
      · rintro ⟨c2, rest, he, _, hk⟩
        cases he
        exact hk
    · have hb : (canon c == canon x) = false := by simpa using h
      simp only [hb, Bool.false_eq_true, if_false]
      constructor
      · intro hk
        cases hk
      · rintro ⟨c2, rest, he, h2, _⟩
        cases he
        exact absurd h2 h

theorem canon_eq_upper (c u : Nat) (h : canon c = u) :
    c = u ∨ c = u + 32 := by
  unfold canon at h
  split at h
  · next hc =>
    simp only [Bool.and_eq_true, decide_eq_true_eq] at hc
    right; omega
  · left; exact h

theorem canon_eq_low (c u : Nat) (hu : u < 65) (h : canon c = u) : c = u := by
  unfold canon at h
  split at h
  · next hc =>
    simp only [Bool.and_eq_true, decide_eq_true_eq] at hc
    omega
  · exact h

theorem isCloser_of_engine (prev : Option Nat) (r : JSString)
    (h : (Re.lit true (js "pt") prev r
      (fun p r2 => Re.opt (Re.chr true 115) p r2 (fun p2 r3 => Re.chr true 41 p2 r3 done))).isSome
      = true) :
    ∃ m B, r = m ++ B ∧ IsCloser m := by
  have e : js "pt" = [112, 116] := by decide
  rw [e] at h
  simp only [Re.lit, Re.seq, Re.eps] at h
  rw [chr_isSome] at h
  obtain ⟨p, r1, hr, hp, h⟩ := h
  rw [chr_isSome] at h
  obtain ⟨t, r2, hr1, ht, h⟩ := h
  unfold Re.opt at h
  rw [alt_isSome] at h
  have hp2 : canon p = 80 := hp
  have ht2 : canon t = 84 := ht
  rcases h with h | h
  · rw [chr_isSome] at h
    obtain ⟨s, r3, hr2, hs, h⟩ := h
    rw [chr_isSome] at h
    obtain ⟨y, r4, hr3, hy, _⟩ := h
    have hy2 : y = 41 := canon_eq_low y 41 (by decide) hy
    have hs2 : canon s = 83 := hs
    refine ⟨[p, t, s, 41], r4, ?_, p, t, hp2, ht2, Or.inr ⟨s, hs2, rfl⟩⟩
    rw [hr, hr1, hr2, hr3, hy2]
    rfl
  · simp only [Re.eps] at h
    rw [chr_isSome] at h
    obtain ⟨y, r4, hr3, hy, _⟩ := h
    have hy2 : y = 41 := canon_eq_low y 41 (by decide) hy
    refine ⟨[p, t, 41], r4, ?_, p, t, hp2, ht2, Or.inl rfl⟩
    rw [hr, hr1, hr3, hy2]
    rfl

theorem engine_of_isCloser (prev : Option Nat) (m B : JSString) (hm : IsCloser m) :
    (Re.lit true (js "pt") prev (m ++ B)
      (fun p r2 => Re.opt (Re.chr true 115) p r2 (fun p2 r3 => Re.chr true 41 p2 r3 done))).isSome
      = true := by
  have e : js "pt" = [112, 116] := by decide
  rw [e]
  simp only [Re.lit, Re.seq, Re.eps]
  obtain ⟨p, t, hp, ht, hm⟩ := hm
  rcases hm with hm | ⟨s, hs, hm⟩
  · subst hm
    rw [chr_isSome]
    refine ⟨p, [t, 41] ++ B, by simp, hp, ?_⟩
    rw [chr_isSome]
    refine ⟨t, [41] ++ B, by simp, ht, ?_⟩
    unfold Re.opt
    rw [alt_isSome]
    right
    simp only [Re.eps]
    rw [chr_isSome]
    exact ⟨41, B, by simp, rfl, rfl⟩
  · subst hm
    rw [chr_isSome]
    refine ⟨p, [t, s, 41] ++ B, by simp, hp, ?_⟩
    rw [chr_isSome]
    refine ⟨t, [s, 41] ++ B, by simp, ht, ?_⟩
    unfold Re.opt
    rw [alt_isSome]
    left
    rw [chr_isSome]
    refine ⟨s, [41] ++ B, by simp, hs, ?_⟩
    rw [chr_isSome]
    exact ⟨41, B, by simp, rfl, rfl⟩

/-- What `/\(\d+\s*pts?\)/i` finds. -/
theorem hasPointsFormat_iff (s : JSString) : hasPointsFormat s = true ↔ HasMarker s := by
  unfold hasPointsFormat Re.test
  rw [exec_isSome]
  constructor
  · rintro ⟨pre, post, hs, hm⟩
    unfold Re.matchAt rePoints at hm
    simp only [Re.seq] at hm
    rw [chr_isSome] at hm
    obtain ⟨c, r1, hpost, hc, hm⟩ := hm
    have hc2 : c = 40 := canon_eq_low c 40 (by decide) hc
    rw [plus_isSome] at hm
    obtain ⟨d, r2, hr1, hd, hdig, hm⟩ := hm
    rw [star_isSome] at hm
    obtain ⟨g, r3, hr2, hg, hm⟩ := hm
    obtain ⟨m, B, hr3, hcl⟩ := isCloser_of_engine _ _ hm
    refine ⟨pre, d, g, m, B, ?_, hd, hdig, hg, hcl⟩
    rw [hs, hpost, hc2, hr1, hr2, hr3]
  · rintro ⟨A, d, g, m, B, hs, hd, hdig, hg, hcl⟩
    refine ⟨A, 40 :: (d ++ (g ++ (m ++ B))), hs, ?_⟩
    unfold Re.matchAt rePoints
    simp only [Re.seq]
    rw [chr_isSome]
    refine ⟨40, d ++ (g ++ (m ++ B)), rfl, rfl, ?_⟩
    rw [plus_isSome]
    refine ⟨d, g ++ (m ++ B), rfl, hd, hdig, ?_⟩
    rw [star_isSome]
    exact ⟨g, m ++ B, rfl, hg, engine_of_isCloser _ m B hcl⟩

theorem prefix_cut (U : Nat → Bool) (u M A : JSString) (x : Nat) (X : JSString)
    (h : u ++ M = A ++ x :: X) (hu : ∀ c ∈ u, U c = true) (hx : U x = false) :
    ∃ A2, A = u ++ A2 ∧ M = A2 ++ x :: X := by
  induction u generalizing A with
  | nil => exact ⟨A, rfl, h⟩
  | cons c u ih =>
    cases A with
    | nil =>
      simp only [List.cons_append, List.nil_append, List.cons.injEq] at h
      have := hu c (List.mem_cons_self _ _)
      rw [h.1, hx] at this
      cases this
    | cons a A =>
      simp only [List.cons_append, List.cons.injEq] at h
      obtain ⟨A2, hA, hM⟩ := ih A h.2 (fun d hd => hu d (List.mem_cons_of_mem _ hd))
      exact ⟨A2, by rw [h.1, hA]; rfl, hM⟩

theorem suffix_cut (M v Y : JSString) (y : Nat) (B : JSString)
    (h : M ++ v = Y ++ y :: B) (hv : AllWs v) (hy : isWhiteSpace y = false) :
    ∃ B2, B = B2 ++ v ∧ M = Y ++ y :: B2 := by
  induction Y generalizing M with
  | nil =>
    cases M with
    | nil =>
      simp only [List.nil_append] at h
      have := hv y (by rw [h]; exact List.mem_cons_self _ _)
      rw [hy] at this
      cases this
    | cons a M =>
      simp only [List.cons_append, List.nil_append, List.cons.injEq] at h
      exact ⟨M, h.2.symm, by rw [h.1]; rfl⟩
  | cons c Y ih =>
    cases M with
    | nil =>
      simp only [List.nil_append] at h
      have := hv y (by rw [h]; simp)
      rw [hy] at this
      cases this
    | cons a M =>
      simp only [List.cons_append, List.cons.injEq] at h
      obtain ⟨B2, hB, hM⟩ := ih M h.2
      exact ⟨B2, hB, by rw [h.1, hM]; rfl⟩

theorem isSkip_of_ws (c : Nat) (h : isWhiteSpace c = true) : isSkip c = true := by
  simp [isSkip, h]

theorem not_ws_of_not_skip (c : Nat) (h : isSkip c = false) : isWhiteSpace c = false := by
  simp only [isSkip, Bool.or_eq_false_iff] at h
  exact h.1.1

theorem isDigit_not_ws (c : Nat) (h : isDigit c = true) : isWhiteSpace c = false := by
  simp only [isDigit, Bool.and_eq_true, decide_eq_true_eq] at h
  have h1 : c < 58 := by omega
  have h2 : 48 ≤ c := h.1
  interval_cases c <;> rfl

theorem isDigit_ne_nl (c : Nat) (h : isDigit c = true) : c ≠ 10 := by
  simp only [isDigit, Bool.and_eq_true, decide_eq_true_eq] at h
  omega

theorem isCloser_head (m : JSString) (h : IsCloser m) :
    ∃ x m2, m = x :: m2 ∧ isSkip x = false := by
  obtain ⟨p, t, hp, _, hm⟩ := h
  have hp2 : isSkip p = false := by
    rcases canon_eq_upper p 80 hp with h | h <;> subst h <;> rfl
  rcases hm with hm | ⟨s, _, hm⟩
  · exact ⟨p, [t, 41], hm, hp2⟩
  · exact ⟨p, [t, s, 41], hm, hp2⟩

theorem isCloser_last (m : JSString) (h : IsCloser m) : ∃ m0, m = m0 ++ [41] := by
  obtain ⟨p, t, _, _, hm⟩ := h
  rcases hm with hm | ⟨s, _, hm⟩
  · exact ⟨[p, t], hm⟩
  · exact ⟨[p, t, s], hm⟩

theorem isCloser_no_nl (m : JSString) (h : IsCloser m) : 10 ∉ m := by
  obtain ⟨p, t, hp, ht, hm⟩ := h
  have hp2 : p ≠ 10 := by
    rcases canon_eq_upper p 80 hp with h | h <;> subst h <;> decide
  have ht2 : t ≠ 10 := by
    rcases canon_eq_upper t 84 ht with h | h <;> subst h <;> decide
  rcases hm with hm | ⟨s, hs, hm⟩
  · subst hm
    simp only [List.mem_cons, List.mem_singleton, not_or]
    exact ⟨fun h => hp2 h.symm, fun h => ht2 h.symm, by decide⟩
  · have hs2 : s ≠ 10 := by
      rcases canon_eq_upper s 83 hs with h | h <;> subst h <;> decide
    subst hm
    simp only [List.mem_cons, List.mem_singleton, not_or]
    exact ⟨fun h => hp2 h.symm, fun h => ht2 h.symm, fun h => hs2 h.symm, by decide⟩

theorem shaved_hasMarker (L M : JSString) (hs : Shaved L M) (h : HasMarker L) :
    HasMarker M := by
  obtain ⟨u, v, hL, hu, hv⟩ := hs
  obtain ⟨A, d, g, m, B, hL2, hd, hdig, hg, hcl⟩ := h
  rw [hL] at hL2
  obtain ⟨A2, _, hM⟩ := prefix_cut isSkip u _ A 40 _ hL2 hu (by decide)
  obtain ⟨m0, hm0⟩ := isCloser_last m hcl
  have e : A2 ++ 40 :: (d ++ (g ++ (m ++ B))) = (A2 ++ 40 :: (d ++ (g ++ m0))) ++ 41 :: B := by
    rw [hm0]; simp
  rw [e] at hM
  obtain ⟨B2, _, hM2⟩ := suffix_cut M v _ 41 B hM hv (by decide)
  refine ⟨A2, d, g, m, B2, ?_, hd, hdig, hg, hcl⟩
  rw [hM2, hm0]; simp

theorem shaved_endsOpen (L M : JSString) (hs : Shaved L M) (h : EndsOpen L) : EndsOpen M := by
  obtain ⟨u, v, hL, hu, hv⟩ := hs
  obtain ⟨A, d, w, hL2, hd, hdig, hw⟩ := h
  rw [hL] at hL2
  obtain ⟨A2, _, hM⟩ := prefix_cut isSkip u _ A 40 _ hL2 hu (by decide)
  rcases List.eq_nil_or_concat d with hd0 | ⟨d0, y, hd0⟩
  · exact absurd hd0 hd
  · rw [List.concat_eq_append] at hd0
    have hy : isWhiteSpace y = false :=
      isDigit_not_ws y (hdig y (by rw [hd0]; simp))
    have e : A2 ++ 40 :: (d ++ w) = (A2 ++ 40 :: d0) ++ y :: w := by
      rw [hd0]; simp
    rw [e] at hM
    obtain ⟨B2, hB, hM2⟩ := suffix_cut M v _ y w hM hv hy
    refine ⟨A2, d, B2, ?_, hd, hdig, ?_⟩
    · rw [hM2, hd0]; simp
    · intro c hc
      exact hw c (by rw [hB]; exact List.mem_append_left _ hc)

theorem shaved_beginsClose (L M : JSString) (hs : Shaved L M) (h : BeginsClose L) :
    BeginsClose M := by
  obtain ⟨u, v, hL, hu, hv⟩ := hs
  obtain ⟨w, m, B, hL2, hw, hcl⟩ := h
  obtain ⟨x, m2, hm, hx⟩ := isCloser_head m hcl
  rw [hL, hm] at hL2
  obtain ⟨A2, hA, hM⟩ := prefix_cut isSkip u _ w x _ hL2 hu hx
  obtain ⟨m0, hm0⟩ := isCloser_last m hcl
  have hM3 : M ++ v = (A2 ++ m0) ++ 41 :: B := by
    rw [hM]
    show A2 ++ ((x :: m2) ++ B) = (A2 ++ m0) ++ 41 :: B
    rw [← hm, hm0]; simp
  obtain ⟨B2, _, hM2⟩ := suffix_cut M v _ 41 B hM3 hv (by decide)
  refine ⟨A2, m, B2, ?_, ?_, hcl⟩
  · rw [hM2, hm0]; simp
  · intro c hc
    exact hw c (by rw [hA]; exact List.mem_append_right _ hc)

theorem shaved_allWs (L M : JSString) (hs : Shaved L M) (h : AllWs L) : AllWs M := by
  obtain ⟨u, v, hL, _, _⟩ := hs
  intro c hc
  exact h c (by rw [hL]; simp [hc])

theorem shaved_trim (L : JSString) : Shaved L (trim L) := by
  obtain ⟨w1, w2, h, h1, h2⟩ := trim_decomp L
  exact ⟨w1, w2, h, fun c hc => isSkip_of_ws c (h1 c hc), h2⟩

theorem shaved_strip (L : JSString) : Shaved L (stripListMarker L) := by
  rcases stripListMarker_spec L with h | ⟨m, w, hm, hw, h⟩
  · exact ⟨[], [], by rw [h]; simp, by simp, by simp [AllWs]⟩
  · refine ⟨m :: w, [], by rw [List.append_nil]; exact h, ?_, by simp [AllWs]⟩
    intro c hc
    simp only [List.mem_cons] at hc
    rcases hc with hc | hc
    · rcases hm with hm | hm <;> rw [hc, hm] <;> rfl
    · exact isSkip_of_ws c (hw c hc)

theorem hasMarker_ne_nil (L : JSString) (h : HasMarker L) : L ≠ [] := by
  obtain ⟨A, d, g, m, B, hL, _⟩ := h
  rw [hL]; simp

theorem endsOpen_ne_nil (L : JSString) (h : EndsOpen L) : L ≠ [] := by
  obtain ⟨A, d, w, hL, _⟩ := h
  rw [hL]; simp

theorem beginsClose_ne_nil (L : JSString) (h : BeginsClose L) : L ≠ [] := by
  obtain ⟨w, m, B, hL, _, hcl⟩ := h
  obtain ⟨x, m2, hm, _⟩ := isCloser_head m hcl
  rw [hL, hm]; simp

theorem closesAfter_map (f : JSString → JSString) (hf : ∀ L, Shaved L (f L))
    (Ls : List JSString) (h : ClosesAfter Ls) : ClosesAfter (Ls.map f) := by
  induction Ls with
  | nil => exact h
  | cons L rest ih =>
    simp only [List.map_cons, ClosesAfter] at h ⊢
    rcases h with h | ⟨h1, h2⟩
    · exact Or.inl (shaved_beginsClose _ _ (hf L) h)
    · exact Or.inr ⟨shaved_allWs _ _ (hf L) h1, ih h2⟩

theorem markerIn_map (f : JSString → JSString) (hf : ∀ L, Shaved L (f L))
    (Ls : List JSString) (h : MarkerIn Ls) : MarkerIn (Ls.map f) := by
  induction Ls with
  | nil => exact h
  | cons L rest ih =>
    simp only [List.map_cons, MarkerIn] at h ⊢
    rcases h with h | ⟨h1, h2⟩ | h
    · exact Or.inl (shaved_hasMarker _ _ (hf L) h)
    · exact Or.inr (Or.inl ⟨shaved_endsOpen _ _ (hf L) h1, closesAfter_map f hf rest h2⟩)
    · exact Or.inr (Or.inr (ih h))

theorem closesAfter_filter (p : JSString → Bool) (hp : ∀ L, L ≠ [] → p L = true)
    (Ls : List JSString) (h : ClosesAfter Ls) : ClosesAfter (Ls.filter p) := by
  induction Ls with
  | nil => exact h
  | cons L rest ih =>
    simp only [ClosesAfter] at h
    rcases h with h | ⟨h1, h2⟩
    · rw [List.filter_cons_of_pos (hp L (beginsClose_ne_nil L h))]
      exact Or.inl h
    · by_cases hL : p L = true
      · rw [List.filter_cons_of_pos hL]
        exact Or.inr ⟨h1, ih h2⟩
      · rw [List.filter_cons_of_neg hL]
        exact ih h2

theorem markerIn_filter (p : JSString → Bool) (hp : ∀ L, L ≠ [] → p L = true)
    (Ls : List JSString) (h : MarkerIn Ls) : MarkerIn (Ls.filter p) := by
  induction Ls with
  | nil => exact h
  | cons L rest ih =>
    simp only [MarkerIn] at h
    rcases h with h | ⟨h1, h2⟩ | h
    · rw [List.filter_cons_of_pos (hp L (hasMarker_ne_nil L h))]
      exact Or.inl h
    · rw [List.filter_cons_of_pos (hp L (endsOpen_ne_nil L h1))]
      exact Or.inr (Or.inl ⟨h1, closesAfter_filter p hp rest h2⟩)
    · by_cases hL : p L = true
      · rw [List.filter_cons_of_pos hL]
        exact Or.inr (Or.inr (ih h))
      · rw [List.filter_cons_of_neg hL]
        exact ih h

theorem splitOn_cons_ne (sep c : Nat) (cs : JSString) (hc : c ≠ sep) :
    ∃ h t, splitOn sep cs = h :: t ∧ splitOn sep (c :: cs) = (c :: h) :: t := by
  cases hs : splitOn sep cs with
  | nil => exact absurd hs (splitOn_ne_nil sep cs)
  | cons h t =>
    refine ⟨h, t, rfl, ?_⟩
    simp only [splitOn, hc, if_false, hs]

theorem splitOn_append_of_not_mem (sep : Nat) (u v : JSString) (hu : sep ∉ u) :
    ∃ h t, splitOn sep v = h :: t ∧ splitOn sep (u ++ v) = (u ++ h) :: t := by
  induction u with
  | nil =>
    cases hs : splitOn sep v with
    | nil => exact absurd hs (splitOn_ne_nil sep v)
    | cons h t => exact ⟨h, t, rfl, hs⟩
  | cons c u ih =>
    simp only [List.mem_cons, not_or] at hu
    obtain ⟨h, t, hv, huv⟩ := ih hu.2
    obtain ⟨h2, t2, e1, e2⟩ := splitOn_cons_ne sep c (u ++ v) (fun e => hu.1 e.symm)
    rw [huv] at e1
    simp only [List.cons.injEq] at e1
    refine ⟨h, t, hv, ?_⟩
    rw [List.cons_append, e2, ← e1.1, ← e1.2]
    rfl

theorem closesAfter_splitOn_closer (m B : JSString) (hm : IsCloser m) :
    ClosesAfter (splitOn 10 (m ++ B)) := by
  obtain ⟨h, t, _, e⟩ := splitOn_append_of_not_mem 10 m B (isCloser_no_nl m hm)
  rw [e]
  exact Or.inl ⟨[], m, h, rfl, by simp [AllWs], hm⟩

theorem closesAfter_splitOn_ws (g X : JSString) (hg : AllWs g)
    (h : ClosesAfter (splitOn 10 X)) : ClosesAfter (splitOn 10 (g ++ X)) := by
  induction g with
  | nil => exact h
  | cons c g ih =>
    have ih2 := ih (fun d hd => hg d (List.mem_cons_of_mem _ hd))
    by_cases hc : c = 10
    · subst hc
      simp only [List.cons_append, splitOn, if_true]
      exact Or.inr ⟨by simp [AllWs], ih2⟩
    · obtain ⟨h1, t1, e1, e2⟩ := splitOn_cons_ne 10 c (g ++ X) hc
      rw [List.cons_append, e2]
      rw [e1] at ih2
      simp only [ClosesAfter] at ih2 ⊢
      have hcw := hg c (List.mem_cons_self _ _)
      rcases ih2 with ⟨w, m, B, hL, hw, hcl⟩ | ⟨h3, h4⟩
      · left
        refine ⟨c :: w, m, B, by rw [hL]; rfl, ?_, hcl⟩
        intro d hd
        simp only [List.mem_cons] at hd
        rcases hd with hd | hd
        · rw [hd]; exact hcw
        · exact hw d hd
      · right
        refine ⟨?_, h4⟩
        intro d hd
        simp only [List.mem_cons] at hd
        rcases hd with hd | hd
        · rw [hd]; exact hcw
        · exact h3 d hd

theorem markerIn_splitOn_open (d g m B : JSString) (hd : d ≠ [])
    (hdig : ∀ c ∈ d, isDigit c = true) (hg : AllWs g) (hm : IsCloser m) :
    MarkerIn (splitOn 10 (40 :: (d ++ (g ++ (m ++ B))))) := by
  have hc := closesAfter_splitOn_ws g (m ++ B) hg (closesAfter_splitOn_closer m B hm)
  have hno : 10 ∉ 40 :: d := by
    simp only [List.mem_cons, not_or]
    exact ⟨by decide, fun h => isDigit_ne_nl 10 (hdig 10 h) rfl⟩
  obtain ⟨h, t, e1, e2⟩ := splitOn_append_of_not_mem 10 (40 :: d) (g ++ (m ++ B)) hno
  have e3 : 40 :: (d ++ (g ++ (m ++ B))) = (40 :: d) ++ (g ++ (m ++ B)) := rfl
  rw [e3, e2]
  rw [e1] at hc
  simp only [ClosesAfter] at hc
  rcases hc with ⟨w, m2, B2, hL, hw, hcl⟩ | ⟨h3, h4⟩
  · left
    exact ⟨[], d, w, m2, B2, by rw [hL]; rfl, hd, hdig, hw, hcl⟩
  · right; left
    exact ⟨⟨[], d, h, rfl, hd, hdig, h3⟩, h4⟩

theorem markerIn_splitOn_prefix (A X : JSString) (h : MarkerIn (splitOn 10 X)) :
    MarkerIn (splitOn 10 (A ++ X)) := by
  induction A with
  | nil => exact h
  | cons c A ih =>
    by_cases hc : c = 10
    · subst hc
      simp only [List.cons_append, splitOn, if_true]
      exact Or.inr (Or.inr ih)
    · obtain ⟨h1, t1, e1, e2⟩ := splitOn_cons_ne 10 c (A ++ X) hc
      rw [List.cons_append, e2]
      rw [e1] at ih
      simp only [MarkerIn] at ih ⊢
      rcases ih with ⟨A2, d, g, m, B, hL, hr⟩ | ⟨⟨A2, d, w, hL, hr⟩, h4⟩ | h5
      · exact Or.inl ⟨c :: A2, d, g, m, B, by rw [hL]; rfl, hr⟩
      · exact Or.inr (Or.inl ⟨⟨c :: A2, d, w, by rw [hL]; rfl, hr⟩, h4⟩)
      · exact Or.inr (Or.inr h5)

/-- A points marker in a string shows in its lines. -/
theorem markerIn_splitOn (s : JSString) (h : HasMarker s) : MarkerIn (splitOn 10 s) := by
  obtain ⟨A, d, g, m, B, hs, hd, hdig, hg, hcl⟩ := h
  rw [hs]
  exact markerIn_splitOn_prefix A _ (markerIn_splitOn_open d g m B hd hdig hg hcl)

theorem closesAfter_ne_nil (Ls : List JSString) (h : ClosesAfter Ls) : Ls ≠ [] := by
  cases Ls with
  | nil => exact absurd h (by simp [ClosesAfter])
  | cons L r => simp

theorem markerIn_ne_nil (Ls : List JSString) (h : MarkerIn Ls) : Ls ≠ [] := by
  cases Ls with
  | nil => exact absurd h (by simp [MarkerIn])
  | cons L r => simp

theorem join_cons_eq (sep x : JSString) (rest : List JSString) :
    ∃ Z, join sep (x :: rest) = x ++ Z := by
  cases rest with
  | nil => exact ⟨[], by simp [join]⟩
  | cons y r => exact ⟨sep ++ join sep (y :: r), by simp [join]⟩

theorem beginsClose_join (Ls : List JSString) (h : ClosesAfter Ls) :
    BeginsClose (join [10] Ls) := by
  induction Ls with
  | nil => exact absurd h (by simp [ClosesAfter])
  | cons L rest ih =>
    simp only [ClosesAfter] at h
    rcases h with ⟨w, m, B, hL, hw, hcl⟩ | ⟨h1, h2⟩
    · obtain ⟨Z, hZ⟩ := join_cons_eq [10] L rest
      rw [hZ, hL]
      exact ⟨w, m, B ++ Z, by simp, hw, hcl⟩
    · obtain ⟨w, m, B, hJ, hw, hcl⟩ := ih h2
      rw [join_cons_of_ne_nil _ _ _ (closesAfter_ne_nil rest h2), hJ]
      refine ⟨L ++ [10] ++ w, m, B, by simp, ?_, hcl⟩
      intro c hc
      simp only [List.mem_append, List.mem_singleton] at hc
      rcases hc with (hc | hc) | hc
      · exact h1 c hc
      · rw [hc]; rfl
      · exact hw c hc

/-- A points marker in the lines shows in the lines joined with line feeds. -/
theorem hasMarker_join (Ls : List JSString) (h : MarkerIn Ls) : HasMarker (join [10] Ls) := by
  induction Ls with
  | nil => exact absurd h (by simp [MarkerIn])
  | cons L rest ih =>
    simp only [MarkerIn] at h
    rcases h with ⟨A, d, g, m, B, hL, hr⟩ | ⟨⟨A, d, w, hL, hd, hdig, hw⟩, h2⟩ | h3
    · obtain ⟨Z, hZ⟩ := join_cons_eq [10] L rest
      rw [hZ, hL]
      exact ⟨A, d, g, m, B ++ Z, by simp, hr⟩
    · obtain ⟨w2, m, B, hJ, hw2, hcl⟩ := beginsClose_join rest h2
      rw [join_cons_of_ne_nil _ _ _ (closesAfter_ne_nil rest h2), hJ, hL]
      refine ⟨A, d, w ++ [10] ++ w2, m, B, by simp, hd, hdig, ?_, hcl⟩
      intro c hc
      simp only [List.mem_append, List.mem_singleton] at hc
      rcases hc with (hc | hc) | hc
      · exact hw c hc
      · rw [hc]; rfl
      · exact hw2 c hc
    · obtain ⟨A, d, g, m, B, hJ, hr⟩ := ih h3
      rw [join_cons_of_ne_nil _ _ _ (markerIn_ne_nil rest h3), hJ]
      exact ⟨L ++ [10] ++ A, d, g, m, B, by simp, hr⟩

/-- The cleaning of a block keeps a points marker: it is still in the cleaned text. -/
theorem hasPointsFormat_cleaned (b : JSString) (h : hasPointsFormat b = true) :
    hasPointsFormat (join [10] (cleanedLines (blockLines b))) = true := by
  rw [hasPointsFormat_iff] at h ⊢
  apply hasMarker_join
  unfold cleanedLines blockLines filterNonEmpty
  apply markerIn_filter _ (fun L hL => by
    have : L.length > 0 := List.length_pos.mpr hL
    simpa using this)
  apply markerIn_map _ shaved_strip
  apply markerIn_filter _ (fun L hL => by
    cases L with
    | nil => exact absurd rfl hL
    | cons c r => rfl)
  apply markerIn_map _ shaved_trim
  exact markerIn_splitOn b h

/-! ## The flags and the keyword lists as they are written -/

theorem containsLiteral_iff_phrase (w : String) (text : JSString) :
    ContainsLiteral w text ↔ ContainsPhrase [w] text := Iff.rfl

theorem containsLiteral_iff_test (w : String) (hw : js w ≠ []) (text : JSString) :
    ContainsLiteral w text ↔ Re.test (reWords [[w]]) text = true := by
  have hv : ∀ p ∈ [[w]], ValidPhrase p := by
    intro p hp
    simp only [List.mem_singleton] at hp
    subst hp
    refine ⟨by simp, ?_⟩
    intro x hx
    simp only [List.mem_singleton] at hx
    subst hx
    exact hw
  rw [test_reWords [[w]] hv text, containsLiteral_iff_phrase]
  constructor
  · intro h
    exact ⟨[w], List.mem_singleton_self _, h⟩
  · rintro ⟨p, hp, h⟩
    simp only [List.mem_singleton] at hp
    subst hp
    exact h

theorem spellsPhrase_of_literal (p : List String) (m : JSString)
    (h : m.map canon = (phraseText p).map canon) : SpellsPhrase p m := by
  induction p generalizing m with
  | nil =>
    simp only [phraseText, List.map_nil, List.map_eq_nil_iff] at h
    exact h
  | cons w r ih =>
    cases r with
    | nil => exact h
    | cons w2 r2 =>
      have e : phraseText (w :: w2 :: r2) = js w ++ 32 :: phraseText (w2 :: r2) := rfl
      rw [e, List.map_append, List.map_cons] at h
      obtain ⟨a, b1, hm, ha, hb⟩ := List.map_eq_append_iff.mp h
      obtain ⟨x, b, hb1, hx, hb2⟩ := List.map_eq_cons_iff.mp hb
      have hx2 : x = 32 := canon_eq_low x 32 (by decide) hx
      refine ⟨a, [32], b, ?_, ha, by simp, ?_, ih b hb2⟩
      · rw [hm, hb1, hx2]; simp
      · intro c hc
        simp only [List.mem_singleton] at hc
        subst hc
        rfl

theorem containsPhrase_of_literal (w : String) (p : List String) (text : JSString)
    (e : js w = phraseText p) (h : ContainsLiteral w text) : ContainsPhrase p text := by
  obtain ⟨pre, m, post, ht, hs, hb1, hb2⟩ := h
  refine ⟨pre, m, post, ht, spellsPhrase_of_literal p m ?_, hb1, hb2⟩
  rw [← e]
  exact hs

theorem ws_not_word (c : Nat) (h : isWhiteSpace c = true) : isWordChar c = false := by
  cases hw : isWordChar c with
  | false => rfl
  | true =>
    simp only [isWordChar, Bool.or_eq_true, Bool.and_eq_true, decide_eq_true_eq,
      beq_iff_eq] at hw
    simp only [isWhiteSpace, Bool.or_eq_true, Bool.and_eq_true, decide_eq_true_eq,
      beq_iff_eq] at h
    omega

/-- The first word of a phrase found in the text is there as a whole word. -/
theorem containsLiteral_first (w w2 : String) (r : List String) (text : JSString)
    (hlast : ∀ a, SpellsWord w a → ∃ c, a.getLast? = some c ∧ isWordChar c = true)
    (h : ContainsPhrase (w :: w2 :: r) text) : ContainsLiteral w text := by
  obtain ⟨pre, m, post, ht, ⟨a, g, b, hm, ha, hg, hws, _⟩, hb1, _⟩ := h
  obtain ⟨c, hc, hcw⟩ := hlast a ha
  have hane : a ≠ [] := by
    intro e
    rw [e] at hc
    cases hc
  refine ⟨pre, a, g ++ b ++ post, by rw [ht, hm]; simp, ha, ?_, ?_⟩
  · rw [hm, List.append_assoc, head?_append_of_ne_nil a _ hane] at hb1
    exact hb1
  · cases g with
    | nil => exact absurd rfl hg
    | cons x g2 =>
      unfold WordBoundary
      rw [hc]
      simp only [List.cons_append, List.head?_cons, Re.isWordAt, hcw,
        ws_not_word x (hws x (List.mem_cons_self _ _))]
      decide

theorem spells_good_last (a : JSString) (h : SpellsWord "good" a) :
    ∃ c, a.getLast? = some c ∧ isWordChar c = true := by
  unfold SpellsWord at h
  have e : (js "good").map canon = [71, 79, 79, 68] := by decide
  rw [e] at h
  obtain ⟨c1, r1, rfl, _, h⟩ := List.map_eq_cons_iff.mp h
  obtain ⟨c2, r2, rfl, _, h⟩ := List.map_eq_cons_iff.mp h
  obtain ⟨c3, r3, rfl, _, h⟩ := List.map_eq_cons_iff.mp h
  obtain ⟨c4, r4, rfl, h4, h⟩ := List.map_eq_cons_iff.mp h
  have hr : r4 = [] := List.map_eq_nil_iff.mp h
  subst hr
  refine ⟨c4, rfl, ?_⟩
  rcases canon_eq_upper c4 68 h4 with h | h <;> subst h <;> rfl

/-- The flag `isPositive` in the words of the specification, read to the letter. -/
theorem isPositive_iff_literal (text : JSString) :
    isPositive text = true ↔ ∃ w ∈ positiveLiterals, ContainsLiteral w text := by
  rw [isPositive_iff]
  constructor
  · rintro ⟨p, hp, h⟩
    have hcase : ∀ p ∈ positiveKeywords,
        (∃ w ∈ positiveLiterals, p = [w]) ∨ p = ["good", "use", "of"] := by decide
    rcases hcase p hp with ⟨w, hw, rfl⟩ | rfl
    · exact ⟨w, hw, h⟩
    · exact ⟨"good", by decide, containsLiteral_first _ _ _ _ spells_good_last h⟩
  · rintro ⟨w, hw, h⟩
    have hcase : ∀ w ∈ positiveLiterals, ∃ p ∈ positiveKeywords, js w = phraseText p := by
      decide
    obtain ⟨p, hp, e⟩ := hcase w hw
    exact ⟨p, hp, containsPhrase_of_literal w p text e h⟩

/-- A keyword or phrase of the negative list, as it is written, sets `isNegative`. -/
theorem isNegative_of_literal (text : JSString)
    (h : ∃ w ∈ negativeLiterals, ContainsLiteral w text) : isNegative text = true := by
  rw [isNegative_iff]
  obtain ⟨w, hw, h⟩ := h
  have hcase : ∀ w ∈ negativeLiterals, ∃ p ∈ negativeKeywords, js w = phraseText p := by
    decide
  obtain ⟨p, hp, e⟩ := hcase w hw
  exact ⟨p, hp, containsPhrase_of_literal w p text e h⟩

/-- A generic phrase, as it is written, makes the text generic. -/
theorem isGeneric_of_praise_literal (text : JSString)
    (h : ∃ w ∈ genericPraiseLiterals, ContainsLiteral w text) : isGeneric text = true := by
  apply isGeneric_of_praise
  obtain ⟨w, hw, h⟩ := h
  have hcase : ∀ w ∈ genericPraiseLiterals, ∃ p ∈ genericPraise, js w = phraseText p := by
    decide
  obtain ⟨p, hp, e⟩ := hcase w hw
  exact ⟨p, hp, containsPhrase_of_literal w p text e h⟩

/-- No keyword or phrase of the negative list is, as it is written, in the text of the
comment whose line break falls inside `needs improvement`. -/
theorem no_literal_in_wrapped :
    ¬ ∃ w ∈ negativeLiterals, ContainsLiteral w (js "The middle section needs\nimprovement.") := by
  rintro ⟨w, hw, hc⟩
  have hne : ∀ w ∈ negativeLiterals, js w ≠ [] := by decide
  have ht := (containsLiteral_iff_test w (hne w hw) _).mp hc
  have hall : ∀ w ∈ negativeLiterals,
      Re.test (reWords [[w]]) (js "The middle section needs\nimprovement.") = false := by
    decide
  rw [hall w hw] at ht
  cases ht

/-! ## The older blocks are the newer ones without `isPositive` -/

theorem backup_blockOfContent_eq (title : JSString) (lines : List JSString) (i : Nat) :
    Backup.blockOfContent title lines i = (blockOfContent title lines i).map withoutIsPositive := by
  unfold Backup.blockOfContent blockOfContent
  simp only []
  by_cases h0 : (trim (join [10] lines)).isEmpty = true
  · have e : trim (join [10] lines) = [] := List.isEmpty_iff.mp h0
    simp [e, cleanBody_nil]
  · rw [if_neg h0]
    split
    · rfl
    · split <;> rfl

theorem backup_processBlock_eq (b : JSString) (i : Nat) :
    Backup.processBlock b i = (processBlock b i).map withoutIsPositive := by
  unfold Backup.processBlock processBlock
  simp only []
  split
  · exact backup_blockOfContent_eq _ _ _
  · split
    · rfl
    · exact backup_blockOfContent_eq _ _ _

theorem backup_filterNotNull_eq (n : Nat) (l : List JSString) :
    filterNotNull (mapIdxFrom Backup.processBlock n l) =
      (filterNotNull (mapIdxFrom processBlock n l)).map withoutIsPositive := by
  induction l generalizing n with
  | nil => rfl
  | cons x xs ih =>
    simp only [mapIdxFrom, backup_processBlock_eq x n]
    cases h2 : processBlock x n with
    | none => simp only [Option.map_none', filterNotNull]; exact ih (n + 1)
    | some y => simp only [Option.map_some', filterNotNull, List.map_cons, ih (n + 1)]

/-! ## The properties of the specification -/

/-- C1 (counterexample): on a text whose first block is the lone heading `SUMMARY` and
whose second block is a comment, `parseFeedbackText` returns one block, and its id is 2:
the ids are not `1, ..., N`, the dropped heading has consumed id 1. -/
theorem parseFeedbackText_ids_not_dense :
    blockIds (parseFeedbackText (JSValue.str headingThenComment)) = [2] ∧
    blockIds (parseFeedbackText (JSValue.str headingThenComment)) ≠
      List.range' 1 (parseFeedbackText (JSValue.str headingThenComment)).length := by
  decide

/-- C1 (amended): the id of every block returned by `parseFeedbackText` is the 1-based
position of its source block in `effectiveBlocks` (the candidate blocks that survive the
OVERALL SCORE and points-format filter), and when none of these candidates is dropped by
the later rules the ids are exactly `1, ..., N`. -/
theorem parseFeedbackText_id_is_source_position (t : JSString) :
    (∀ fb ∈ parseFeedbackText (JSValue.str t),
      1 ≤ fb.id ∧ ∃ b, (effectiveBlocks t)[fb.id - 1]? = some b ∧
        processBlock b (fb.id - 1) = some fb) ∧
    ((∀ b ∈ effectiveBlocks t, (processBlock b 0).isSome = true) →
      blockIds (parseFeedbackText (JSValue.str t)) =
        List.range' 1 (parseFeedbackText (JSValue.str t)).length) := by
  rw [parseFeedbackText_str]
  split
  · exact ⟨fun fb h => by simp at h, fun _ => rfl⟩
  · constructor
    · intro fb h
      simpa using mem_filterNotNull_mapIdxFrom 0 _ fb h
    · intro h
      obtain ⟨h1, h2⟩ := blockIds_of_all_kept 0 _ h
      rw [h1, h2]

/-- C1 (witness): on a text of two comments no candidate is dropped, and the ids are 1, 2. -/
theorem parseFeedbackText_id_is_source_position_witness :
    (∀ b ∈ effectiveBlocks twoComments, (processBlock b 0).isSome = true) ∧
    blockIds (parseFeedbackText (JSValue.str twoComments)) =
      List.range' 1 (parseFeedbackText (JSValue.str twoComments)).length :=
  ⟨by decide, (parseFeedbackText_id_is_source_position twoComments).2 (by decide)⟩

/-- C2 (counterexample): on the text of Scenario B `parseFeedbackText` returns no block at
all, so it does not return the one block the scenario describes: the block that starts at
the `CONCEPTS & APPLICATION` line takes that line as its title, and its body, which still
holds the `CONCISENESS: Exceeds (10 pts)` line, is dropped as heading-like. -/
theorem scenarioB_returns_no_block :
    parseFeedbackText (JSValue.str scenarioBText) = [] ∧
    ¬ ∃ b : FeedbackBlock, parseFeedbackText (JSValue.str scenarioBText) = [b] ∧
      b.title = js "CONCISENESS: Exceeds (10 pts)" ∧
      b.text = js "The essay is admirably concise and avoids padding." ∧
      b.hasBody = true ∧ b.isLowInfo = false ∧ b.isNegative = false ∧ b.isPositive = false := by
  have h : parseFeedbackText (JSValue.str scenarioBText) = [] := by decide
  refine ⟨h, ?_⟩
  rintro ⟨b, hb, _⟩
  rw [h] at hb
  cases hb

/-- C2 (amended): on the text of Scenario B `parseFeedbackText` returns the empty list (so
neither the intro line nor the OVERALL SCORE line appears as a block); when a blank line
separates the `CONCEPTS & APPLICATION` line from the `CONCISENESS` line it returns exactly
one block, with id 1, title `CONCISENESS: Exceeds (10 pts)`, text
`The essay is admirably concise and avoids padding.`, hasBody true, isLowInfo false,
isNegative false and isPositive false. -/
theorem scenarioB_separated :
    parseFeedbackText (JSValue.str scenarioBText) = [] ∧
    parseFeedbackText (JSValue.str scenarioBSeparated) =
      [{ id := 1
         title := js "CONCISENESS: Exceeds (10 pts)"
         text := js "The essay is admirably concise and avoids padding."
         color := js "green"
         hasBody := true
         isLowInfo := false
         isNegative := false
         isPositive := false }] := by
  decide

/-- C3: the ids of the segments returned by `parseEssayText` are exactly `1, 2, ..., n` in
order, where `n` is the number of segments returned. -/
theorem parseEssayText_ids_dense (text : JSValue) :
    segmentIds (parseEssayText text).segments =
      List.range' 1 (parseEssayText text).segments.length := by
  cases text with
  | null => rfl
  | undefined => rfl
  | str t =>
    rw [parseEssayText_str]
    split
    · rfl
    · split
      · rfl
      · simp only [mapIdxFrom_length]
        exact segmentIds_mapIdxFrom 0 _

/-- C4: every segment returned by `parseEssayText` except possibly the last one has a text
whose final code unit is `.` (46), `!` (33) or `?` (63). -/
theorem parseEssayText_sentence_termination (text : JSValue) (seg : EssaySegment)
    (h : seg ∈ (parseEssayText text).segments.dropLast) :
    ∃ c, seg.text.getLast? = some c ∧ (c = 46 ∨ c = 33 ∨ c = 63) := by
  cases text with
  | null => simp [parseEssayText] at h
  | undefined => simp [parseEssayText] at h
  | str t =>
    rw [parseEssayText_str] at h
    split at h
    · simp at h
    · split at h
      · simp at h
      · simp only [mapIdxFrom_dropLast] at h
        obtain ⟨c, hc, hE⟩ := essaySentences_end _ _ (text_mem_of_mem_mapIdxFrom _ _ _ h)
        refine ⟨c, hc, ?_⟩
        simp only [isSentenceEnd, Bool.or_eq_true, beq_iff_eq] at hE
        tauto

/-- C4 (witness): the first of the two segments of Scenario A ends in a full stop. -/
theorem parseEssayText_sentence_termination_witness :
    (EssaySegment.mk 1 (js "This is sentence one.") (js "green")) ∈
      (parseEssayText (JSValue.str scenarioAEssay)).segments.dropLast ∧
    ∃ c, (js "This is sentence one.").getLast? = some c ∧ (c = 46 ∨ c = 33 ∨ c = 63) :=
  ⟨by decide,
   parseEssayText_sentence_termination (JSValue.str scenarioAEssay)
     (EssaySegment.mk 1 (js "This is sentence one.") (js "green")) (by decide)⟩

/-- C5: `parseEssayText` returns `{ segments: [] }` when its input is `null`, `undefined`,
the empty string, or a string made only of whitespace and line breaks. -/
theorem parseEssayText_empty_input (text : JSValue)
    (h : text = JSValue.null ∨ text = JSValue.undefined ∨
      ∃ s, text = JSValue.str s ∧ ∀ c ∈ s, isWhiteSpace c = true) :
    parseEssayText text = { segments := [] } := by
  rcases h with h | h | ⟨s, h, hs⟩
  · subst h; rfl
  · subst h; rfl
  · subst h
    rw [parseEssayText_str, normalizeEssay_of_all_ws s hs]
    split <;> rfl

/-- C5 (witness): a text of spaces, tabs and line breaks yields no segment. -/
theorem parseEssayText_empty_input_witness :
    (∀ c ∈ js "  \n\t \r\n ", isWhiteSpace c = true) ∧
    parseEssayText (JSValue.str (js "  \n\t \r\n ")) = { segments := [] } :=
  ⟨by decide,
   parseEssayText_empty_input (JSValue.str (js "  \n\t \r\n "))
     (Or.inr (Or.inr ⟨js "  \n\t \r\n ", rfl, by decide⟩))⟩

/-- C6: `parseFeedbackText` returns `[]` when its input is `null`, `undefined`, the empty
string, or a string made only of whitespace and line breaks (the function is total: it
returns a list on every input). -/
theorem parseFeedbackText_empty_input (text : JSValue)
    (h : text = JSValue.null ∨ text = JSValue.undefined ∨
      ∃ s, text = JSValue.str s ∧ ∀ c ∈ s, isWhiteSpace c = true) :
    parseFeedbackText text = [] := by
  rcases h with h | h | ⟨s, h, hs⟩
  · subst h; rfl
  · subst h; rfl
  · subst h
    rw [parseFeedbackText_str]
    unfold effectiveBlocks
    rw [feedbackBlocks_of_all_ws s hs]
    split <;> rfl

/-- C6 (witness): a text of blank lines and spaces yields no block. -/
theorem parseFeedbackText_empty_input_witness :
    (∀ c ∈ js " \n\n \t\n\n\n  ", isWhiteSpace c = true) ∧
    parseFeedbackText (JSValue.str (js " \n\n \t\n\n\n  ")) = [] :=
  ⟨by decide,
   parseFeedbackText_empty_input (JSValue.str (js " \n\n \t\n\n\n  "))
     (Or.inr (Or.inr ⟨js " \n\n \t\n\n\n  ", rfl, by decide⟩))⟩

/-- C7 (Scenario A): `parseEssayText("This is sentence one. This is sentence two!")` returns
exactly two segments, with id 1 and text `This is sentence one.`, and with id 2 and text
`This is sentence two!`. -/
theorem scenarioA_two_segments :
    (parseEssayText (JSValue.str scenarioAEssay)).segments.map (fun s => (s.id, s.text)) =
      [(1, js "This is sentence one."), (2, js "This is sentence two!")] := by
  decide

/-- C8: a feedback text that is a single non-empty line (no line feed) and is a title line
(it contains `:`, or it consists only of `A`-`Z`, whitespace and `&` and is shorter than 100
code units, or it contains a points marker) yields no block. -/
theorem parseFeedbackText_lone_title_dropped (t : JSString) (_hne : t ≠ []) (hnl : 10 ∉ t)
    (htitle : 58 ∈ t ∨ ((∀ c ∈ t, isHeadingChar c = true) ∧ t.length < 100) ∨
      hasPointsFormat t = true) :
    parseFeedbackText (JSValue.str t) = [] := by
  by_cases hempty : trim t = []
  · rw [parseFeedbackText_str]
    unfold effectiveBlocks
    rw [feedbackBlocks_of_no_newline t hnl, hempty]
    split <;> rfl
  · have hb : feedbackBlocks t = [trim t] := by
      rw [feedbackBlocks_of_no_newline t hnl]
      cases h : trim t with
      | nil => exact absurd h hempty
      | cons x xs => rfl
    have hnl2 : 10 ∉ trim t := fun h => hnl (mem_of_mem_trim t 10 h)
    exact parseFeedbackText_single_block t (trim t) hb
      (processBlock_title_only (trim t) 0
        (blockLines_of_single_line (trim t) hnl2 (trim_idem t) hempty)
        (isTitleLine_trim t htitle hempty))

/-- C8 (witness, Scenario C): the text `CONCISENESS: Exceeds (10 pts)` alone yields no block. -/
theorem parseFeedbackText_lone_title_dropped_witness :
    scenarioCText ≠ [] ∧ 10 ∉ scenarioCText ∧ 58 ∈ scenarioCText ∧
    hasPointsFormat scenarioCText = true ∧
    parseFeedbackText (JSValue.str scenarioCText) = [] :=
  ⟨by decide, by decide, by decide, by decide,
   parseFeedbackText_lone_title_dropped scenarioCText (by decide) (by decide)
     (Or.inl (by decide))⟩

/-- C9 (Scenario D): `parseFeedbackText("Good job overall!")` returns exactly one block,
with id 1, empty title, text `Good job overall!`, hasBody true, isLowInfo true and
isNegative false. -/
theorem scenarioD_generic_praise :
    (parseFeedbackText (JSValue.str scenarioDText)).map
        (fun b => (b.id, b.title, b.text, b.hasBody, b.isLowInfo, b.isNegative)) =
      [(1, js "", js "Good job overall!", true, true, false)] := by
  decide

/-- C10 (Scenario E): on the two-line block `- Uses strong transitions.` /
`* Provides clear examples throughout the essay.` `parseFeedbackText` returns one block,
with empty title and with the text of the two lines without their list markers, joined by
a newline. -/
theorem scenarioE_list_markers :
    (parseFeedbackText (JSValue.str scenarioEText)).map (fun b => (b.title, b.text)) =
      [(js "", js "Uses strong transitions.\nProvides clear examples throughout the essay.")] := by
  decide

/-- C11: every block returned by `parseFeedbackText` has a non-empty text whose first and
last code units are not whitespace and none of whose lines is empty (or has whitespace at
an end); a candidate whose body is empty after cleaning is never emitted. -/
theorem parseFeedbackText_text_clean (t : JSString) (b : FeedbackBlock)
    (h : b ∈ parseFeedbackText (JSValue.str t)) :
    b.text ≠ [] ∧
    (∀ c, b.text.head? = some c → isWhiteSpace c = false) ∧
    (∀ c, b.text.getLast? = some c → isWhiteSpace c = false) ∧
    (∀ l ∈ splitOn 10 b.text, l ≠ [] ∧ trim l = l) := by
  obtain ⟨title, lines, i, hc⟩ := mem_parseFeedbackText_content t b h
  obtain ⟨_, _, htext, hne, _⟩ := blockOfContent_some _ _ _ _ hc
  obtain ⟨blk, ls, _, _, _, _, _, hsplit, hok⟩ := content_of_mem_parseFeedbackText t b h
  refine ⟨hne, ?_, ?_, ?_⟩
  · intro c hhead
    cases ht : b.text with
    | nil => rw [ht] at hhead; cases hhead
    | cons d r =>
      rw [ht] at hhead
      cases hhead
      rw [htext] at ht
      unfold cleanBody at ht
      exact trim_head_not_ws _ c r ht
  · intro c hlast
    rw [htext] at hlast
    unfold cleanBody trim at hlast
    exact trimEnd_last_not_ws _ c hlast
  · intro l hl
    rw [hsplit] at hl
    exact ⟨(hok l hl).1, trim_of_lineOK l (hok l hl)⟩

/-- C11 (witness): the text of the one-line comment has no whitespace at its ends. -/
theorem parseFeedbackText_text_clean_witness :
    parseFeedbackText (JSValue.str shortComment) =
      [FeedbackBlock.mk 1 [] (js "Solid work on the second part.") (js "green")
        true true false true] ∧
    (js "Solid work on the second part.") ≠ [] :=
  have e : parseFeedbackText (JSValue.str shortComment) =
      [FeedbackBlock.mk 1 [] (js "Solid work on the second part.") (js "green")
        true true false true] := by
    decide
  ⟨e, (parseFeedbackText_text_clean shortComment
     (FeedbackBlock.mk 1 [] (js "Solid work on the second part.") (js "green")
        true true false true)
     (by rw [e]; exact List.mem_singleton_self _)).1⟩

/-- C12 (counterexample): a block headed `OVERALL SCORES: see below` is returned, with that
line as its title: the title begins with `OVERALL SCORE`, and the block is not dropped. -/
theorem overallScores_heading_kept :
    (parseFeedbackText (JSValue.str overallScoresHeading)).map (fun b => b.title) =
      [js "OVERALL SCORES: see below"] ∧
    beginsWithOverallScore (js "OVERALL SCORES: see below") = true := by
  decide

/-- C12 (amended): every block whose first line matches `^OVERALL SCORE\b` under the `i`
flag is dropped; no returned block has a title that matches it, so a title that begins
with `OVERALL SCORE` (in any letter case) goes on with a letter, a digit or `_`. -/
theorem parseFeedbackText_overallScore_dropped (t : JSString) :
    (∀ b ∈ feedbackBlocks t, Re.test reOverallScore (blockFirstLine b) = true →
      b ∉ effectiveBlocks t) ∧
    (∀ fb ∈ parseFeedbackText (JSValue.str t),
      Re.test reOverallScore fb.title = false ∧
      (beginsWithOverallScore fb.title = true →
        ∃ c, (fb.title.drop 13).head? = some c ∧ isWordChar c = true)) := by
  constructor
  · intro b _ htest hmem
    rw [not_overallScore_of_mem_effectiveBlocks t b hmem] at htest
    cases htest
  · intro fb hfb
    have hno : Re.test reOverallScore fb.title = false := by
      obtain ⟨b, hb, ht⟩ := title_of_mem_parseFeedbackText t fb hfb
      rcases ht with ht | ht
      · rw [ht]; rfl
      · rw [ht]; exact not_overallScore_of_mem_effectiveBlocks t b hb
    refine ⟨hno, ?_⟩
    intro hbegins
    cases hh : (fb.title.drop 13).head? with
    | none =>
      have := test_overallScore_of_begins fb.title hbegins (by rw [hh]; rfl)
      rw [hno] at this
      cases this
    | some c =>
      refine ⟨c, rfl, ?_⟩
      cases hw : isWordChar c with
      | true => rfl
      | false =>
        have := test_overallScore_of_begins fb.title hbegins (by rw [hh]; exact hw)
        rw [hno] at this
        cases this

/-- C12 (witness): in Scenario B with its blocks separated the `OVERALL SCORE: 85/100` block
is not among the blocks that are kept. -/
theorem parseFeedbackText_overallScore_dropped_witness :
    js "OVERALL SCORE: 85/100" ∈ feedbackBlocks scenarioBSeparated ∧
    js "OVERALL SCORE: 85/100" ∉ effectiveBlocks scenarioBSeparated :=
  ⟨by decide,
   (parseFeedbackText_overallScore_dropped scenarioBSeparated).1 (js "OVERALL SCORE: 85/100")
     (by decide) (by decide)⟩

/-- C13: the preamble is discarded: when no line of `pre` passes the CONCEPTS test and the
first line of `rest` does, `parseFeedbackText(pre + "\n" + rest)` equals
`parseFeedbackText(rest)`; and when no line of a text `t` passes the test, the whole of `t`
is the text that is split into blocks. -/
theorem parseFeedbackText_preamble_discarded (pre rest t : JSString) :
    ((∀ l ∈ splitOn 10 pre, isConceptsLine l = false) →
      isConceptsLine ((splitOn 10 rest).headD []) = true →
      parseFeedbackText (JSValue.str (pre ++ 10 :: rest)) = parseFeedbackText (JSValue.str rest)) ∧
    ((∀ l ∈ splitOn 10 t, isConceptsLine l = false) → relevantText t = t) := by
  constructor
  · intro h1 h2
    apply parseFeedbackText_congr
    rw [relevantText_preamble pre rest h1 h2, relevantText_of_head rest h2]
  · exact relevantText_of_none t

/-- C13 (witness): a one-line preamble before a `CONCEPTS &` heading changes nothing, and a
text without such a heading is split as a whole. -/
theorem parseFeedbackText_preamble_discarded_witness :
    parseFeedbackText (JSValue.str (js "Dear student,\nCONCEPTS & IDEAS: Meets (5 pts)\nGood.")) =
      parseFeedbackText (JSValue.str (js "CONCEPTS & IDEAS: Meets (5 pts)\nGood.")) ∧
    relevantText shortComment = shortComment :=
  ⟨(parseFeedbackText_preamble_discarded (js "Dear student,")
      (js "CONCEPTS & IDEAS: Meets (5 pts)\nGood.") shortComment).1 (by decide) (by decide),
   (parseFeedbackText_preamble_discarded (js "Dear student,")
      (js "CONCEPTS & IDEAS: Meets (5 pts)\nGood.") shortComment).2 (by decide)⟩

/-- C14: when at least one block of the text (after the start line) contains a points
marker, every returned block is built from a block that contains a points marker; when no
block contains one, the filter drops the OVERALL SCORE blocks only. -/
theorem parseFeedbackText_points_filter (t : JSString) :
    ((feedbackBlocks t).any hasPointsFormat = true →
      ∀ fb ∈ parseFeedbackText (JSValue.str t),
        ∃ b ∈ feedbackBlocks t, hasPointsFormat b = true ∧
          processBlock b (fb.id - 1) = some fb) ∧
    ((feedbackBlocks t).any hasPointsFormat = false →
      effectiveBlocks t =
        (feedbackBlocks t).filter (fun b => !Re.test reOverallScore (blockFirstLine b))) := by
  constructor
  · intro hany fb hfb
    obtain ⟨b, hb, hp⟩ := mem_parseFeedbackText t fb hfb
    unfold effectiveBlocks at hb
    rw [List.mem_filter, hany] at hb
    refine ⟨b, hb.1, ?_, hp⟩
    have hk := hb.2
    unfold keepBlock at hk
    split at hk
    · cases hk
    · simp only [if_true] at hk
      split at hk
      · cases hk
      · next hn => simpa using hn
  · intro hany
    unfold effectiveBlocks
    rw [hany]
    apply List.filter_congr
    intro b _
    unfold keepBlock
    cases Re.test reOverallScore (blockFirstLine b) <;> simp

/-- C14 (witness): in Scenario B with its blocks separated, one block holds a points marker,
and the returned block comes from it. -/
theorem parseFeedbackText_points_filter_witness :
    (feedbackBlocks scenarioBSeparated).any hasPointsFormat = true ∧
    ∀ fb ∈ parseFeedbackText (JSValue.str scenarioBSeparated),
      ∃ b ∈ feedbackBlocks scenarioBSeparated, hasPointsFormat b = true ∧
        processBlock b (fb.id - 1) = some fb :=
  ⟨by decide, (parseFeedbackText_points_filter scenarioBSeparated).1 (by decide)⟩

/-- C15: for every block `b` returned by `parseFeedbackText`, `b.isLowInfo` is true exactly
when `b.hasBody` is false, or `b.text` has fewer than 40 code units, or `b.text` matches
one of the generic-praise patterns; in particular a block without body is low-information,
and so is every returned block whose text is shorter than 40. -/
theorem parseFeedbackText_isLowInfo (t : JSString) (b : FeedbackBlock)
    (h : b ∈ parseFeedbackText (JSValue.str t)) :
    (b.isLowInfo = true ↔ (b.hasBody = false ∨ b.text.length < 40 ∨ isGeneric b.text = true)) ∧
    (b.hasBody = false → b.isLowInfo = true) ∧
    (b.text.length < 40 → b.isLowInfo = true) := by
  obtain ⟨title, lines, i, hc⟩ := mem_parseFeedbackText_content t b h
  obtain ⟨_, _, _, _, _, _, hlow, _, _⟩ := blockOfContent_some _ _ _ _ hc
  have hiff : b.isLowInfo = true ↔
      (b.hasBody = false ∨ b.text.length < 40 ∨ isGeneric b.text = true) := by
    rw [hlow]
    simp only [Bool.or_eq_true, Bool.not_eq_true', decide_eq_true_eq]
    tauto
  exact ⟨hiff, fun h1 => hiff.mpr (Or.inl h1), fun h2 => hiff.mpr (Or.inr (Or.inl h2))⟩

/-- C15 (witness): the block of Scenario D has a body, a text of 17 code units that matches
a generic-praise pattern, and is low-information. -/
theorem parseFeedbackText_isLowInfo_witness :
    parseFeedbackText (JSValue.str scenarioDText) =
      [FeedbackBlock.mk 1 [] (js "Good job overall!") (js "green") true true false true] ∧
    (FeedbackBlock.mk 1 [] (js "Good job overall!") (js "green") true true false true).isLowInfo
      = true :=
  have e : parseFeedbackText (JSValue.str scenarioDText) =
      [FeedbackBlock.mk 1 [] (js "Good job overall!") (js "green") true true false true] := by
    decide
  ⟨e, (parseFeedbackText_isLowInfo scenarioDText
     (FeedbackBlock.mk 1 [] (js "Good job overall!") (js "green") true true false true)
     (by rw [e]; exact List.mem_singleton_self _)).2.2 (by decide)⟩

/-- C16: line breaks are not segment boundaries: `parseEssayText` returns the same result
for a text and for that text with every line feed replaced by one space, and its result
depends only on the text with every run of whitespace collapsed to one space and the ends
trimmed (which is what `normalized` is). -/
theorem parseEssayText_line_breaks (t u : JSString) :
    parseEssayText (JSValue.str (replaceNewlines t)) = parseEssayText (JSValue.str t) ∧
    normalizeEssay t = collapsedText t ∧
    (collapsedText u = collapsedText t →
      parseEssayText (JSValue.str u) = parseEssayText (JSValue.str t)) := by
  refine ⟨?_, normalizeEssay_eq_collapsedText t, ?_⟩
  · rw [parseEssayText_of_collapsedText, parseEssayText_of_collapsedText]
    have e : collapsedText (replaceNewlines t) = collapsedText t := by
      unfold collapsedText
      rw [collapse_replaceNewlines]
    rw [e]
  · intro h
    rw [parseEssayText_of_collapsedText, parseEssayText_of_collapsedText, h]

/-- C16 (witness): a sentence broken over two lines, with spaces around the break, and the
same sentence on one line give the same segments. -/
theorem parseEssayText_line_breaks_witness :
    collapsedText (js "A heading \n  inside. Next one.") =
      collapsedText (js "A heading inside. Next one.") ∧
    parseEssayText (JSValue.str (js "A heading \n  inside. Next one.")) =
      parseEssayText (JSValue.str (js "A heading inside. Next one.")) :=
  ⟨by decide,
   (parseEssayText_line_breaks (js "A heading inside. Next one.")
     (js "A heading \n  inside. Next one.")).2.2 (by decide)⟩

/-- C17 (the code at the failing input): the essay `He agreed. “yes” was all he said.` is
cut before the quotation mark, and the second segment begins with `“` (8220) followed by
the small letter `y` (121), not by a letter `A`-`Z`. -/
theorem parseEssayText_quote_then_small_letter :
    (parseEssayText (JSValue.str quoteThenSmallLetter)).segments.map (fun s => (s.id, s.text)) =
      [(1, js "He agreed."), (2, js "“yes” was all he said.")] ∧
    (js "“yes” was all he said.").take 2 = [8220, 121] ∧
    isUpperAZ 8220 = false ∧ isUpperAZ 121 = false := by
  decide

/-- C18: no returned feedback text looks like a heading: for every block `b` returned by
`parseFeedbackText`, if `b.text` contains `:` it has at least 150 code units, if it
consists only of `A`-`Z`, whitespace and `&` it has at least 100 code units, and it
contains no points marker. -/
theorem parseFeedbackText_text_not_heading (t : JSString) (b : FeedbackBlock)
    (h : b ∈ parseFeedbackText (JSValue.str t)) :
    (58 ∈ b.text → 150 ≤ b.text.length) ∧
    ((∀ c ∈ b.text, isHeadingChar c = true) → 100 ≤ b.text.length) ∧
    hasPointsFormat b.text = false := by
  obtain ⟨title, lines, i, hc⟩ := mem_parseFeedbackText_content t b h
  obtain ⟨_, _, _, hne, hst, _, _, _, _⟩ := blockOfContent_some _ _ _ _ hc
  unfold stillLooksLikeTitle at hst
  simp only [Bool.or_eq_false_iff, Bool.and_eq_false_iff, decide_eq_false_iff_not,
    Nat.not_lt] at hst
  obtain ⟨⟨h1, h2⟩, h3⟩ := hst
  refine ⟨?_, ?_, h3⟩
  · intro hm
    rcases h1 with h1 | h1
    · exfalso
      have : includes b.text 58 = true := by
        unfold includes
        rw [List.any_eq_true]
        exact ⟨58, hm, rfl⟩
      rw [this] at h1
      cases h1
    · exact h1
  · intro hall
    rcases h2 with h2 | h2
    · rw [test_allCaps_of_all b.text hne hall] at h2
      cases h2
    · exact h2

/-- C18 (witness): the text of the block returned for a one-line comment holds no points
marker. -/
theorem parseFeedbackText_text_not_heading_witness :
    parseFeedbackText (JSValue.str shortComment) =
      [FeedbackBlock.mk 1 [] (js "Solid work on the second part.") (js "green")
        true true false true] ∧
    hasPointsFormat (js "Solid work on the second part.") = false :=
  have e : parseFeedbackText (JSValue.str shortComment) =
      [FeedbackBlock.mk 1 [] (js "Solid work on the second part.") (js "green")
        true true false true] := by
    decide
  ⟨e, (parseFeedbackText_text_not_heading shortComment
     (FeedbackBlock.mk 1 [] (js "Solid work on the second part.") (js "green")
        true true false true)
     (by rw [e]; exact List.mem_singleton_self _)).2.2⟩

/-- C19: heading stripping never invents content: for every block `b` returned by
`parseFeedbackText(t)`, a non-empty `b.title` is a trimmed line of `t`; the lines of
`b.text` are, in the order of `t`, lines of `t` trimmed and without their list marker; and
each such line is a suffix of the trimmed line it comes from, equal to it or to what follows
one leading `-` or `*` and the whitespace after it. -/
theorem parseFeedbackText_no_invented_content (t : JSString) (b : FeedbackBlock)
    (h : b ∈ parseFeedbackText (JSValue.str t)) :
    (b.title ≠ [] → ∃ l ∈ splitOn 10 t, b.title = trim l) ∧
    List.Sublist (splitOn 10 b.text)
      ((splitOn 10 t).map (fun l => stripListMarker (trim l))) ∧
    (∀ q ∈ splitOn 10 b.text, ∃ l ∈ splitOn 10 t, q <:+ trim l ∧
      (q = trim l ∨ ∃ m w, (m = 45 ∨ m = 42) ∧ (∀ c ∈ w, isWhiteSpace c = true) ∧
        trim l = m :: (w ++ q))) := by
  obtain ⟨blk, lines, hblk, hsub, htitle, _, _, hsplit, _⟩ :=
    content_of_mem_parseFeedbackText t b h
  have hfb : blk ∈ feedbackBlocks t := by
    unfold effectiveBlocks at hblk
    exact (List.mem_filter.mp hblk).1
  have hlines : List.Sublist (blockLines blk) ((splitOn 10 t).map trim) :=
    blockLines_sublist_of_mem t blk hfb
  have hord : List.Sublist (splitOn 10 b.text)
      ((splitOn 10 t).map (fun l => stripListMarker (trim l))) := by
    rw [hsplit]
    unfold cleanedLines
    have h1 : List.Sublist (lines.map stripListMarker)
        (((splitOn 10 t).map trim).map stripListMarker) := (hsub.trans hlines).map _
    rw [List.map_map] at h1
    exact (List.filter_sublist _).trans h1
  refine ⟨?_, hord, ?_⟩
  · intro hne
    rcases htitle with h0 | hmem
    · exact absurd h0 hne
    · obtain ⟨l, hl, hlt⟩ := List.mem_map.mp (hlines.subset hmem)
      exact ⟨l, hl, hlt.symm⟩
  · intro q hq
    obtain ⟨l, hl, hlq⟩ := List.mem_map.mp (hord.subset hq)
    have hlq : stripListMarker (trim l) = q := hlq
    refine ⟨l, hl, ?_, ?_⟩
    · rw [← hlq]
      exact stripListMarker_suffix _
    · rcases stripListMarker_spec (trim l) with hs | ⟨m, w, hm, hw, hs⟩
      · left
        rw [← hlq, hs]
      · right
        rw [hlq] at hs
        exact ⟨m, w, hm, hw, hs⟩

/-- C19 (witness): the title and the text of the block of Scenario B (with its blocks
separated) are lines of the feedback text. -/
theorem parseFeedbackText_no_invented_content_witness :
    parseFeedbackText (JSValue.str scenarioBSeparated) =
      [FeedbackBlock.mk 1 (js "CONCISENESS: Exceeds (10 pts)")
        (js "The essay is admirably concise and avoids padding.") (js "green")
        true false false false] ∧
    ∃ l ∈ splitOn 10 scenarioBSeparated, js "CONCISENESS: Exceeds (10 pts)" = trim l :=
  have e : parseFeedbackText (JSValue.str scenarioBSeparated) =
      [FeedbackBlock.mk 1 (js "CONCISENESS: Exceeds (10 pts)")
        (js "The essay is admirably concise and avoids padding.") (js "green")
        true false false false] := by
    decide
  ⟨e, (parseFeedbackText_no_invented_content scenarioBSeparated
     (FeedbackBlock.mk 1 (js "CONCISENESS: Exceeds (10 pts)")
        (js "The essay is admirably concise and avoids padding.") (js "green")
        true false false false)
     (by rw [e]; exact List.mem_singleton_self _)).1 (by decide)⟩

/-- C20: a feedback text without two consecutive line feeds is, from its start line on, a
single block, and `parseFeedbackText` returns at most one block for it. -/
theorem parseFeedbackText_no_blank_line (t : JSString) (h : ¬ [10, 10] <:+: t) :
    feedbackBlocks t = filterNonEmpty [trim (relevantText t)] ∧
    (parseFeedbackText (JSValue.str t)).length ≤ 1 := by
  have hr : ¬ [10, 10] <:+: relevantText t :=
    fun hi => h (hi.trans (relevantText_suffix t).isInfix)
  have hb : feedbackBlocks t = filterNonEmpty [trim (relevantText t)] := by
    unfold feedbackBlocks
    rw [regexSplit_blankLines_of_no_blank _ hr]
    rfl
  refine ⟨hb, Nat.le_trans (parseFeedbackText_length_le t) ?_⟩
  rw [hb]
  unfold filterNonEmpty
  exact Nat.le_trans (List.length_filter_le _ _) (Nat.le_refl _)

/-- C20 (witness): two lines separated by one line feed are one block. -/
theorem parseFeedbackText_no_blank_line_witness :
    ¬ [10, 10] <:+: js "Clear thesis.\nWeak ending." ∧
    (parseFeedbackText (JSValue.str (js "Clear thesis.\nWeak ending."))).length ≤ 1 :=
  ⟨by decide, (parseFeedbackText_no_blank_line (js "Clear thesis.\nWeak ending.") (by decide)).2⟩

/-- C21 (counterexample): in the comment `The middle section needs` / `improvement.` the
line break falls inside the phrase `needs improvement`; the text of the returned block holds
none of the listed keywords or phrases as they are written, and yet `isNegative` is true. -/
theorem wrapped_phrase_is_negative :
    (parseFeedbackText (JSValue.str wrappedComment)).map (fun b => (b.text, b.isNegative)) =
      [(js "The middle section needs\nimprovement.", true)] ∧
    ¬ ∃ w ∈ negativeLiterals,
      ContainsLiteral w (js "The middle section needs\nimprovement.") :=
  ⟨by decide, no_literal_in_wrapped⟩

/-- C21 (amended): for every block returned by `parseFeedbackText`, `isNegative` is true
exactly when the text of the block contains, case-insensitively and delimited by word
boundaries, one of the keywords of the negative list or one of its phrases with the words
separated by one or more whitespace code units (line feeds included); a keyword or phrase
as it is written always sets the flag; in `A notable essay.` the keyword `not` occurs only
inside a longer word and the flag stays false. -/
theorem parseFeedbackText_isNegative (t : JSString) (b : FeedbackBlock)
    (h : b ∈ parseFeedbackText (JSValue.str t)) :
    (b.isNegative = true ↔ ∃ p ∈ negativeKeywords, ContainsPhrase p b.text) ∧
    ((∃ w ∈ negativeLiterals, ContainsLiteral w b.text) → b.isNegative = true) ∧
    (parseFeedbackText (JSValue.str notableComment)).map
      (fun fb => (fb.text, fb.isNegative)) = [(js "A notable essay.", false)] := by
  obtain ⟨title, lines, i, hc⟩ := mem_parseFeedbackText_content t b h
  obtain ⟨_, _, _, _, _, _, _, hneg, _⟩ := blockOfContent_some _ _ _ _ hc
  refine ⟨?_, ?_, by decide⟩
  · rw [hneg]
    exact isNegative_iff b.text
  · intro hl
    rw [hneg]
    exact isNegative_of_literal b.text hl

/-- C21 (witness): the block returned for `Weak ending.` is negative, and its text contains
a keyword of the negative list. -/
theorem parseFeedbackText_isNegative_witness :
    parseFeedbackText (JSValue.str weakComment) =
      [FeedbackBlock.mk 1 [] (js "Weak ending.") (js "green") true true true false] ∧
    ∃ p ∈ negativeKeywords, ContainsPhrase p (js "Weak ending.") :=
  have e : parseFeedbackText (JSValue.str weakComment) =
      [FeedbackBlock.mk 1 [] (js "Weak ending.") (js "green") true true true false] := by
    decide
  ⟨e, ((parseFeedbackText_isNegative weakComment
     (FeedbackBlock.mk 1 [] (js "Weak ending.") (js "green") true true true false)
     (by rw [e]; exact List.mem_singleton_self _)).1).mp rfl⟩

/-- C22: for every block returned by `parseFeedbackText`, `isPositive` is true exactly when
the text of the block contains, case-insensitively and delimited by word boundaries, one of
the keywords or phrases of the positive list as they are written; `admirably` is outside the
list and does not set the flag. -/
theorem parseFeedbackText_isPositive (t : JSString) (b : FeedbackBlock)
    (h : b ∈ parseFeedbackText (JSValue.str t)) :
    (b.isPositive = true ↔ ∃ w ∈ positiveLiterals, ContainsLiteral w b.text) ∧
    (parseFeedbackText (JSValue.str admirablyComment)).map
      (fun fb => (fb.text, fb.isPositive)) = [(js "The essay reads admirably.", false)] := by
  obtain ⟨title, lines, i, hc⟩ := mem_parseFeedbackText_content t b h
  obtain ⟨_, _, _, _, _, _, _, _, hpos⟩ := blockOfContent_some _ _ _ _ hc
  refine ⟨?_, by decide⟩
  rw [hpos]
  exact isPositive_iff_literal b.text

/-- C22 (witness): the block returned for `Clear thesis.` is positive, and its text contains
a keyword of the positive list. -/
theorem parseFeedbackText_isPositive_witness :
    parseFeedbackText (JSValue.str clearComment) =
      [FeedbackBlock.mk 1 [] (js "Clear thesis.") (js "green") true true false true] ∧
    ∃ w ∈ positiveLiterals, ContainsLiteral w (js "Clear thesis.") :=
  have e : parseFeedbackText (JSValue.str clearComment) =
      [FeedbackBlock.mk 1 [] (js "Clear thesis.") (js "green") true true false true] := by
    decide
  ⟨e, ((parseFeedbackText_isPositive clearComment
     (FeedbackBlock.mk 1 [] (js "Clear thesis.") (js "green") true true false true)
     (by rw [e]; exact List.mem_singleton_self _)).1).mp rfl⟩

/-- C23: a block returned by `parseFeedbackText` whose text ends with one of the whole words
good, nice, well, great, excellent, fine, okay, ok (any letter case), optionally followed by
whitespace, one `.` or `!`, and whitespace, has `isLowInfo = true` whatever its length; so
has a block whose text contains `good job`, `nice job`, `well done`, `excellent work` or
`great work` as whole words. -/
theorem parseFeedbackText_generic_lowInfo (t : JSString) (b : FeedbackBlock)
    (h : b ∈ parseFeedbackText (JSValue.str t)) :
    (EndsWithGenericWord b.text → b.isLowInfo = true) ∧
    ((∃ w ∈ genericPraiseLiterals, ContainsLiteral w b.text) → b.isLowInfo = true) := by
  obtain ⟨title, lines, i, hc⟩ := mem_parseFeedbackText_content t b h
  obtain ⟨_, _, _, _, _, _, hlow, _, _⟩ := blockOfContent_some _ _ _ _ hc
  constructor
  · intro he
    rw [hlow, isGeneric_of_ending b.text he]
    simp
  · intro he
    rw [hlow, isGeneric_of_praise_literal b.text he]
    simp

/-- C23 (witness): the block returned for a comment of 45 code units that ends with `well.`
is low-information although it is not shorter than 40 code units. -/
theorem parseFeedbackText_generic_lowInfo_witness :
    parseFeedbackText (JSValue.str genericEnding) =
      [FeedbackBlock.mk 1 [] (js "The second part of the essay reads very well.")
        (js "green") true true false true] ∧
    ¬ (js "The second part of the essay reads very well.").length < 40 ∧
    EndsWithGenericWord (js "The second part of the essay reads very well.") ∧
    (FeedbackBlock.mk 1 [] (js "The second part of the essay reads very well.")
        (js "green") true true false true).isLowInfo = true :=
  have e : parseFeedbackText (JSValue.str genericEnding) =
      [FeedbackBlock.mk 1 [] (js "The second part of the essay reads very well.")
        (js "green") true true false true] := by
    decide
  have g : EndsWithGenericWord (js "The second part of the essay reads very well.") :=
    ⟨js "The second part of the essay reads very ", "well", js "well", [], [46], [],
      by decide, by decide, rfl, by unfold WordBoundary; decide, by simp, by simp, by simp⟩
  ⟨e, by decide, g, (parseFeedbackText_generic_lowInfo genericEnding
     (FeedbackBlock.mk 1 [] (js "The second part of the essay reads very well.")
        (js "green") true true false true)
     (by rw [e]; exact List.mem_singleton_self _)).1 g⟩

/-- C24: the two sentiment flags are independent: for the one-block text
`The thesis is clear but the supporting evidence is weak throughout.` the returned block is
negative and positive at the same time. -/
theorem parseFeedbackText_negative_and_positive :
    (parseFeedbackText (JSValue.str mixedComment)).map (fun b => (b.isNegative, b.isPositive)) =
      [(true, true)] ∧
    ∃ t b, b ∈ parseFeedbackText (JSValue.str t) ∧ b.isNegative = true ∧ b.isPositive = true := by
  have e : (parseFeedbackText (JSValue.str mixedComment)).map
      (fun b => (b.isNegative, b.isPositive)) = [(true, true)] := by decide
  refine ⟨e, mixedComment, ?_⟩
  cases hp : parseFeedbackText (JSValue.str mixedComment) with
  | nil => rw [hp] at e; cases e
  | cons b r =>
    rw [hp] at e
    simp only [List.map_cons, List.cons.injEq, Prod.mk.injEq] at e
    exact ⟨b, List.mem_cons_self _ _, e.1.1, e.1.2⟩

/-- C25: the two versions of `parseFeedbackText` (of `page.js` and of `page.backup.js`)
return the same number of blocks, and corresponding blocks agree on `id`, `title`, `text`,
`color`, `hasBody`, `isLowInfo` and `isNegative`; the output of the older version is the
output of the newer one without `isPositive` (each older block carries two arrays besides,
which are always empty). -/
theorem parseFeedbackText_agrees_with_backup (text : JSValue) :
    (Backup.parseFeedbackText text).length = (parseFeedbackText text).length ∧
    (Backup.parseFeedbackText text).map Backup.sharedFields =
      (parseFeedbackText text).map sharedFields ∧
    Backup.parseFeedbackText text = (parseFeedbackText text).map withoutIsPositive := by
  have h : Backup.parseFeedbackText text = (parseFeedbackText text).map withoutIsPositive := by
    cases text with
    | null => rfl
    | undefined => rfl
    | str t =>
      unfold Backup.parseFeedbackText parseFeedbackText
      simp only []
      split
      · rfl
      · exact backup_filterNotNull_eq 0 _
  refine ⟨?_, ?_, h⟩
  · rw [h, List.length_map]
  · rw [h, List.map_map]
    rfl

/-- C26: every block returned by `parseFeedbackText` has `hasBody = true`, so that its
`isLowInfo` is true exactly when its text is shorter than 40 code units or generic. -/
theorem parseFeedbackText_hasBody (t : JSString) (b : FeedbackBlock)
    (h : b ∈ parseFeedbackText (JSValue.str t)) :
    b.hasBody = true ∧
    (b.isLowInfo = true ↔ (b.text.length < 40 ∨ isGeneric b.text = true)) := by
  obtain ⟨title, lines, i, hc⟩ := mem_parseFeedbackText_content t b h
  have hb := hasBody_of_blockOfContent _ _ _ _ hc
  obtain ⟨_, _, _, _, _, _, hlow, _, _⟩ := blockOfContent_some _ _ _ _ hc
  refine ⟨hb, ?_⟩
  rw [hlow, hb]
  simp

/-- C26 (witness): the block returned for the one-line comment has a body. -/
theorem parseFeedbackText_hasBody_witness :
    parseFeedbackText (JSValue.str shortComment) =
      [FeedbackBlock.mk 1 [] (js "Solid work on the second part.") (js "green")
        true true false true] ∧
    (FeedbackBlock.mk 1 [] (js "Solid work on the second part.") (js "green")
        true true false true).hasBody = true :=
  have e : parseFeedbackText (JSValue.str shortComment) =
      [FeedbackBlock.mk 1 [] (js "Solid work on the second part.") (js "green")
        true true false true] := by
    decide
  ⟨e, (parseFeedbackText_hasBody shortComment
     (FeedbackBlock.mk 1 [] (js "Solid work on the second part.") (js "green")
        true true false true)
     (by rw [e]; exact List.mem_singleton_self _)).1⟩

/-- C27: the ids of the blocks returned by `parseFeedbackText` are strictly increasing (hence
pairwise distinct), each id lies between 1 and the number of candidate blocks that survive the OVERALL SCORE and
points-format filter, and the returned blocks are built, in order, from a subsequence of
these candidates, which are themselves in the order of the blocks of the text. -/
theorem parseFeedbackText_ids_increasing (t : JSString) :
    List.Pairwise (fun a b => a < b) (blockIds (parseFeedbackText (JSValue.str t))) ∧
    List.Nodup (blockIds (parseFeedbackText (JSValue.str t))) ∧
    (∀ fb ∈ parseFeedbackText (JSValue.str t),
      1 ≤ fb.id ∧ fb.id ≤ (effectiveBlocks t).length) ∧
    ∃ srcs, List.Sublist srcs (effectiveBlocks t) ∧
      List.Sublist (effectiveBlocks t) (feedbackBlocks t) ∧
      List.Forall₂ (fun (fb : FeedbackBlock) b => processBlock b (fb.id - 1) = some fb)
        (parseFeedbackText (JSValue.str t)) srcs := by
  rw [parseFeedbackText_eq]
  obtain ⟨hp, hb⟩ := ids_of_filterNotNull_mapIdxFrom 0 (effectiveBlocks t)
  obtain ⟨srcs, hs, hf⟩ := sources_of_filterNotNull_mapIdxFrom 0 (effectiveBlocks t)
  refine ⟨hp, ?_, ?_, srcs, hs, ?_, hf⟩
  · exact List.Pairwise.imp (fun h => Nat.ne_of_lt h) hp
  · intro fb hfb
    have := hb fb hfb
    omega
  · unfold effectiveBlocks
    exact List.filter_sublist _

/-- C28: joining the texts of the segments of `parseEssayText(t)` in order with single spaces
gives exactly the whitespace-normalized essay; the text of the last segment is the end of
the normalized essay, so that a trailing fragment without terminal punctuation is kept, as
in `It rained all day.  And then`. -/
theorem parseEssayText_join (t : JSString) :
    join [32] ((parseEssayText (JSValue.str t)).segments.map EssaySegment.text) =
      collapsedText t ∧
    (((parseEssayText (JSValue.str t)).segments.map EssaySegment.text).getLast?.getD [])
      <:+ collapsedText t ∧
    (parseEssayText (JSValue.str trailingFragment)).segments.map EssaySegment.text =
      [js "It rained all day.", js "And then"] := by
  have hj : join [32] ((parseEssayText (JSValue.str t)).segments.map EssaySegment.text) =
      collapsedText t := by
    rw [parseEssayText_of_collapsedText]
    rcases normal_collapsedText t with h | h
    · rw [h]; rfl
    · have hne := ne_nil_of_normal _ h
      have he : (collapsedText t).isEmpty = false := by
        cases hc : collapsedText t with
        | nil => exact absurd hc hne
        | cons c r => rfl
      rw [he]
      simp only [Bool.false_eq_true, if_false, map_text_mapIdxFrom]
      exact (essaySentences_of_normal _ h).1
  refine ⟨hj, ?_, by decide⟩
  have hs := join_getLast_suffix [32]
    ((parseEssayText (JSValue.str t)).segments.map EssaySegment.text)
  rw [hj] at hs
  exact hs

/-- C29: every segment of `parseEssayText(t)` is stable under re-segmentation:
`parseEssayText` of its text returns exactly one segment, with id 1 and the same text. -/
theorem parseEssayText_segment_stable (t : JSString) (s : EssaySegment)
    (h : s ∈ (parseEssayText (JSValue.str t)).segments) :
    (parseEssayText (JSValue.str s.text)).segments =
      [EssaySegment.mk 1 s.text (js "green")] := by
  rw [parseEssayText_of_collapsedText] at h
  rcases normal_collapsedText t with hn | hn
  · rw [hn] at h
    simp at h
  · have hne := ne_nil_of_normal _ hn
    have he : (collapsedText t).isEmpty = false := by
      cases hc : collapsedText t with
      | nil => exact absurd hc hne
      | cons c r => rfl
    rw [he] at h
    simp only [Bool.false_eq_true, if_false] at h
    have hm := text_mem_of_mem_mapIdxFrom 0 _ s h
    obtain ⟨hp, hs⟩ := (essaySentences_of_normal _ hn).2 s.text hm
    rw [parseEssayText_of_collapsedText, collapsedText_of_normal _ hp, hs]
    have he2 : (s.text).isEmpty = false := by
      cases hc : s.text with
      | nil => exact absurd hc (ne_nil_of_normal _ hp)
      | cons c r => rfl
    rw [he2]
    rfl

/-- C29 (witness): the second segment of `It rained. We left.` is returned whole, with id 1,
when it is segmented again. -/
theorem parseEssayText_segment_stable_witness :
    (parseEssayText (JSValue.str twoSentences)).segments =
      [EssaySegment.mk 1 (js "It rained.") (js "green"),
       EssaySegment.mk 2 (js "We left.") (js "red")] ∧
    (parseEssayText (JSValue.str (js "We left."))).segments =
      [EssaySegment.mk 1 (js "We left.") (js "green")] :=
  have e : (parseEssayText (JSValue.str twoSentences)).segments =
      [EssaySegment.mk 1 (js "It rained.") (js "green"),
       EssaySegment.mk 2 (js "We left.") (js "red")] := by
    decide
  ⟨e, parseEssayText_segment_stable twoSentences (EssaySegment.mk 2 (js "We left.") (js "red"))
    (by rw [e]; simp)⟩

/-- C30: in a points-format document (at least one block of the text has a points marker)
every block returned by `parseFeedbackText` has a non-empty title; a block with a points
marker whose first line is not a title line keeps the marker in its cleaned text and is
dropped. -/
theorem parseFeedbackText_title_of_points (t : JSString) (fb : FeedbackBlock)
    (hany : (feedbackBlocks t).any hasPointsFormat = true)
    (h : fb ∈ parseFeedbackText (JSValue.str t)) :
    fb.title ≠ [] ∧
    ∀ b i, hasPointsFormat b = true → isTitleLine ((blockLines b).headD []) = false →
      hasPointsFormat (cleanBody (trim (join [10] (blockLines b)))) = true ∧
      processBlock b i = none := by
  have hdrop : ∀ b i, hasPointsFormat b = true →
      isTitleLine ((blockLines b).headD []) = false →
      hasPointsFormat (cleanBody (trim (join [10] (blockLines b)))) = true ∧
      processBlock b i = none := by
    intro b i hb ht
    have hc : hasPointsFormat (cleanBody (trim (join [10] (blockLines b)))) = true := by
      rw [cleanBody_of_lines _ (fun l hl => lineOK_of_mem_blockLines b l hl)]
      exact hasPointsFormat_cleaned b hb
    refine ⟨hc, ?_⟩
    unfold processBlock
    simp only [ht, Bool.false_and, Bool.false_eq_true, if_false]
    unfold blockOfContent
    simp only [stillLooksLikeTitle, hc, Bool.or_true, if_true]
    split <;> rfl
  refine ⟨?_, hdrop⟩
  obtain ⟨b, hb, hp⟩ := mem_parseFeedbackText t fb h
  have hpf : hasPointsFormat b = true := by
    unfold effectiveBlocks at hb
    rw [hany] at hb
    have hk := (List.mem_filter.mp hb).2
    unfold keepBlock at hk
    split at hk
    · cases hk
    · simp only [if_true] at hk
      split at hk
      · cases hk
      · next hn => simpa using hn
  rcases processBlock_some b _ fb hp with ⟨_, hlen, hc⟩ | ⟨ht, _⟩
  · rw [(blockOfContent_some _ _ _ _ hc).2.1]
    cases hl : blockLines b with
    | nil => rw [hl] at hlen; simp at hlen
    | cons x r =>
      have hx : x ∈ blockLines b := by rw [hl]; exact List.mem_cons_self _ _
      exact (lineOK_of_mem_blockLines b x hx).1
  · have := (hdrop b (fb.id - 1) hpf ht).2
    rw [this] at hp
    cases hp

/-- C30 (witness): the block returned for a heading with a points marker followed by a
comment carries the heading as its title. -/
theorem parseFeedbackText_title_of_points_witness :
    parseFeedbackText (JSValue.str pointsComment) =
      [FeedbackBlock.mk 1 (js "CLARITY (5 pts)") (js "Reads well.") (js "green")
        true true false true] ∧
    (js "CLARITY (5 pts)") ≠ [] :=
  have e : parseFeedbackText (JSValue.str pointsComment) =
      [FeedbackBlock.mk 1 (js "CLARITY (5 pts)") (js "Reads well.") (js "green")
        true true false true] := by
    decide
  ⟨e, (parseFeedbackText_title_of_points pointsComment
     (FeedbackBlock.mk 1 (js "CLARITY (5 pts)") (js "Reads well.") (js "green")
        true true false true)
     (by decide) (by rw [e]; exact List.mem_singleton_self _)).1⟩

end KnowSense
